import Mathlib

/-!
# Graphite metric aggregation: a shallow embedding

The Go package `graphite` aggregates samples per metric (`metric.go`) and keeps a
name-keyed registry of metrics behind a small facade (`graphite.go`, `impl.go`).

Conventions of the embedding:

* `float64` values are read as exact rationals (`ℚ`): no rounding, no NaN, no infinities;
  a quotient by zero, which Go evaluates to an infinity or NaN, lies outside this reading
  (it arises only for a zero `flushInterval` under `normalizeByInterval`, and in the
  Average update at `counter = -1`, after the counter has wrapped);
* `int32` fields are integers (`Int`) and every `+= 1` on them wraps to the int32 range
  through `wrapInt32`, as Go's signed arithmetic does;
* `time.Duration` is an integer number of nanoseconds, `Second = 1000000000`;
* an index out of range (a Go run-time panic) makes an operation return `none`;
* a Go `string` and the `bytes.Buffer` are Lean strings, `Len()` being the number of bytes
  of the UTF-8 encoding;
* `for ... range` over the map `metrics` visits the names in an order given as a
  parameter `visit`, which the properties take without repetition;
* a public method returns a `CallResult`: it returns (saying whether it executed the `go`
  statement), panics, or blocks on a channel; the goroutine of `handleChans` is a flag of
  `System`, whose steps are the calls and the iterations of the loop, taken one at a time;
* what the network answers to a dial and to a write is a parameter `Network` of a tick,
  and what a tick does on the transport is returned as a list of `IOEvent`.
-/

namespace graphite

/-! ## metric.go -/

/-- The kinds of metric, `type metricType int8` with its six constants. -/
inductive metricType where
  | metricCounter
  | metricAverage
  | metricMaximum
  | metricMinimum
  | metricGauge
  | metricHist
  deriving DecidableEq, Repr

/-- The value of `time.Second`, in nanoseconds. -/
def Second : Int := 1000000000

/-- Reduction of an integer to the int32 range, the result of Go's wrapping arithmetic. -/
def wrapInt32 (x : Int) : Int := (x + 2147483648) % 4294967296 - 2147483648

/-- The struct `graphiteMetric`. -/
structure graphiteMetric where
  mType : metricType
  value : ℚ
  counter : Int
  normalizeByInterval : Bool
  flushInterval : Int
  histRanges : List ℚ
  hist : List Int
  deriving DecidableEq, Repr

/-- The loop `for i, v := range mt.histRanges` of `handleValue`, started at index `i`:
the index of the first boundary `v` with `value < v`, if there is one. -/
def histHit (value : ℚ) : List ℚ → Nat → Option Nat
  | [], _ => none
  | v :: rest, i => if value < v then some i else histHit value rest (i + 1)

/-- The statement `mt.hist[i] += 1`; `none` when `i` is out of range. -/
def histIncr (hist : List Int) (i : Nat) : Option (List Int) :=
  if h : i < hist.length then some (hist.set i (wrapInt32 (hist[i] + 1))) else none

/-- The method `handleValue`; the last step of every case is `mt.counter += 1`. -/
def graphiteMetric.handleValue (mt : graphiteMetric) (value : ℚ) : Option graphiteMetric :=
  match mt.mType with
  | .metricCounter =>
    some { mt with value := mt.value + value, counter := wrapInt32 (mt.counter + 1) }
  | .metricAverage =>
    some { mt with
      value := mt.value * ((mt.counter : ℚ) / ((wrapInt32 (mt.counter + 1) : Int) : ℚ))
                + value / ((wrapInt32 (mt.counter + 1) : Int) : ℚ),
      counter := wrapInt32 (mt.counter + 1) }
  | .metricMaximum =>
    if mt.counter = 0 ∨ mt.value < value then
      some { mt with value := value, counter := wrapInt32 (mt.counter + 1) }
    else
      some { mt with counter := wrapInt32 (mt.counter + 1) }
  | .metricMinimum =>
    if mt.counter = 0 ∨ mt.value > value then
      some { mt with value := value, counter := wrapInt32 (mt.counter + 1) }
    else
      some { mt with counter := wrapInt32 (mt.counter + 1) }
  | .metricGauge =>
    some { mt with value := value, counter := wrapInt32 (mt.counter + 1) }
  | .metricHist =>
    match histHit value mt.histRanges 0 with
    | some i =>
      (histIncr mt.hist i).map fun hist' =>
        { mt with hist := hist', counter := wrapInt32 (mt.counter + 1) }
    | none =>
      if 0 < mt.hist.length then
        (histIncr mt.hist (mt.hist.length - 1)).map fun hist' =>
          { mt with hist := hist', counter := wrapInt32 (mt.counter + 1) }
      else none

/-- The method `get`. -/
def graphiteMetric.get (mt : graphiteMetric) : ℚ × Int :=
  if mt.normalizeByInterval = true then
    (mt.value / ((mt.flushInterval : ℚ) / (Second : ℚ)), mt.counter)
  else
    (mt.value, mt.counter)

/-- The method `getHist`. -/
def graphiteMetric.getHist (mt : graphiteMetric) : List Int × Int :=
  (mt.hist, mt.counter)

/-- The method `reset`. -/
def graphiteMetric.reset (mt : graphiteMetric) : graphiteMetric :=
  { mt with value := 0, counter := 0, hist := mt.hist.map fun _ => 0 }

/-- The loop `for _, v := range values { gm.handleValue(v) }`: the values are applied in
order, and a panic of one call ends the run. -/
def handleValues (mt : graphiteMetric) : List ℚ → Option graphiteMetric
  | [] => some mt
  | v :: rest =>
    match mt.handleValue v with
    | some mt' => handleValues mt' rest
    | none => none

/-! ## graphite.go and impl.go -/

/-- The constant `maxBufSize`, `5 * 1 << 20`. -/
def maxBufSize : Nat := 5242880

/-- The constant `valuesChanSize`. -/
def valuesChanSize : Nat := 500000

/-- An argument passed to `fmt.Errorf`. -/
inductive ErrorfArg where
  | str (s : String)
  | duration (d : Int)
  deriving DecidableEq, Repr

/-- A Go `error` made by `fmt.Errorf`: the format string and its arguments. A nil `error`
is `none : Option Errorf`. -/
structure Errorf where
  format : String
  args : List ErrorfArg
  deriving DecidableEq, Repr

/-- The struct `graphiteValue`. -/
structure graphiteValue where
  name : String
  value : ℚ
  deriving DecidableEq, Repr

/-- The struct `tcpConnection`; `conn` tells whether the `net.Conn` is non-nil. -/
structure tcpConnection where
  host : String
  conn : Bool
  deriving DecidableEq, Repr

/-- The function `newConnection`. -/
def newConnection (host : String) : tcpConnection :=
  { host := host, conn := false }

/-- The struct `Graphite`. The field `pfx` is the Go field `prefix`. The map `metrics` is an
association list with one entry per name, `none` being the nil map; `ticker` holds the
period of the ticker (with its channel `tickerChan`), `valuesChan` the samples queued in
the channel, `stopChan` whether the channel is closed; each is `none` while nil. -/
structure Graphite where
  host : String
  pfx : String
  flushInterval : Int
  metrics : Option (List (String × graphiteMetric))
  conn : Option tcpConnection
  ticker : Option Int
  valuesChan : Option (List graphiteValue)
  stopChan : Option Bool
  buffer : String
  disabled : Bool
  started : Bool
  deriving DecidableEq, Repr

/-- The value of `new(Graphite)`: every field at its zero value. -/
def newGraphiteStruct : Graphite :=
  { host := "", pfx := "", flushInterval := 0, metrics := none, conn := none, ticker := none,
    valuesChan := none, stopChan := none, buffer := "", disabled := false, started := false }

/-- The function `NewGraphite`, returning the pair `(*Graphite, error)`. -/
def NewGraphite (host : String) (port : Fin 65536) (pfx : String) (flushInterval : Int)
    (disabled : Bool) : Option Graphite × Option Errorf :=
  if disabled = true then
    (some { newGraphiteStruct with disabled := true, metrics := some [] }, none)
  else if flushInterval < Second then
    (none, some ⟨"NewGraphite: Flush interval (%v) < 1s", [.duration flushInterval]⟩)
  else
    (some { newGraphiteStruct with
        host := host ++ ":" ++ toString port.val,
        conn := some (newConnection (host ++ ":" ++ toString port.val)),
        pfx := if pfx.length > 0 then (if pfx.back ≠ '.' then pfx ++ "." else pfx) else "",
        flushInterval := flushInterval,
        metrics := some [],
        valuesChan := some [] },
      none)

/-- The method `registerMetric`, on a receiver that may be nil: the receiver after the
call and the error returned. -/
def Graphite.registerMetric (gr : Option Graphite) (name : String) (mType : metricType)
    (normalizeByInterval : Bool) (histRanges : List ℚ) : Option Graphite × Option Errorf :=
  match gr with
  | none => (none, some ⟨"RegisterMetric: Call NewGraphite() before RegisterMetric()", []⟩)
  | some g =>
    match g.metrics with
    | none =>
      (some g, some ⟨"RegisterMetric: Call NewGraphite() before RegisterMetric()", []⟩)
    | some metrics =>
      if g.disabled = true then
        (some g, none)
      else if (metrics.lookup name).isSome then
        (some g, some ⟨"RegisterMetric: Metric %s already exist", [.str name]⟩)
      else
        (some { g with metrics := some (metrics ++ [(name,
            { mType := mType, value := 0, counter := 0,
              normalizeByInterval := normalizeByInterval,
              flushInterval := g.flushInterval,
              histRanges := histRanges,
              hist := List.replicate (histRanges.length + 1) 0 })]) },
          none)

/-- The method `RegisterCounter`. -/
def Graphite.RegisterCounter (graphite : Option Graphite) (name : String)
    (normalizeByInterval : Bool) : Option Graphite × Option Errorf :=
  Graphite.registerMetric graphite name .metricCounter normalizeByInterval []

/-- The method `RegisterAverage`. -/
def Graphite.RegisterAverage (graphite : Option Graphite) (name : String) :
    Option Graphite × Option Errorf :=
  Graphite.registerMetric graphite name .metricAverage false []

/-- The method `RegisterMaximum`. -/
def Graphite.RegisterMaximum (graphite : Option Graphite) (name : String) :
    Option Graphite × Option Errorf :=
  Graphite.registerMetric graphite name .metricMaximum false []

/-- The method `RegisterMinimum`. -/
def Graphite.RegisterMinimum (graphite : Option Graphite) (name : String) :
    Option Graphite × Option Errorf :=
  Graphite.registerMetric graphite name .metricMinimum false []

/-- The method `RegisterGauge`. -/
def Graphite.RegisterGauge (graphite : Option Graphite) (name : String) :
    Option Graphite × Option Errorf :=
  Graphite.registerMetric graphite name .metricGauge false []

/-- The method `RegisterHist`. -/
def Graphite.RegisterHist (graphite : Option Graphite) (name : String)
    (histRanges : List ℚ) : Option Graphite × Option Errorf :=
  Graphite.registerMetric graphite name .metricHist false histRanges

/-- How a call of a public method ends: it returns, leaving the receiver `gr` and giving
the error `err`, after executing `go graphite.handleChans()` when `spawn` is set; or it
panics; or it blocks on a channel that cannot take its send. -/
inductive CallResult where
  | returned (gr : Option Graphite) (err : Option Errorf) (spawn : Bool)
  | panicked
  | blocked
  deriving DecidableEq, Repr

/-- The method `Start`. `time.NewTicker` panics on a period that is not positive. -/
def Graphite.Start (graphite : Option Graphite) : CallResult :=
  match graphite with
  | none => .returned none (some ⟨"Start: Call NewGraphite() before Start()", []⟩) false
  | some g =>
    match g.metrics with
    | none => .returned (some g) (some ⟨"Start: Call NewGraphite() before Start()", []⟩) false
    | some _ =>
      if g.disabled = true then
        .returned (some g) none false
      else if g.started = true then
        .returned (some g) (some ⟨"Graphite already started", []⟩) false
      else if g.flushInterval ≤ 0 then
        .panicked
      else
        .returned (some { g with
          stopChan := some false,
          ticker := some g.flushInterval,
          started := true }) none true

/-- The method `Stop`. Closing a nil channel or a closed channel panics. -/
def Graphite.Stop (graphite : Option Graphite) : CallResult :=
  match graphite with
  | none => .returned none (some ⟨"Stop: Call NewGraphite() before Stop()", []⟩) false
  | some g =>
    match g.metrics with
    | none => .returned (some g) (some ⟨"Stop: Call NewGraphite() before Stop()", []⟩) false
    | some _ =>
      if g.disabled = true then
        .returned (some g) none false
      else if g.started ≠ true then
        .returned (some g) (some ⟨"Stop: Call Start() before Stop()", []⟩) false
      else
        match g.stopChan with
        | some false => .returned (some { g with stopChan := some true }) none false
        | _ => .panicked

/-- The method `HandleValue`. The send `graphite.valuesChan <- graphiteValue{name, value}`
appends to the queue while the channel holds fewer than `valuesChanSize` samples, and
blocks on a full or nil channel. -/
def Graphite.HandleValue (graphite : Option Graphite) (name : String) (value : ℚ) :
    CallResult :=
  match graphite with
  | none =>
    .returned none (some ⟨"HandleValue: Call NewGraphite() before HandleValue()", []⟩) false
  | some g =>
    match g.metrics with
    | none =>
      .returned (some g)
        (some ⟨"HandleValue: Call NewGraphite() before HandleValue()", []⟩) false
    | some metrics =>
      if g.disabled = true then
        .returned (some g) none false
      else if g.started ≠ true then
        .returned (some g) (some ⟨"HandleValue: Call Start() before HandleValue()", []⟩) false
      else if (metrics.lookup name).isNone then
        .returned (some g) (some ⟨"HandleValue: Metric %s don't exist", [.str name]⟩) false
      else
        match g.valuesChan with
        | none => .blocked
        | some queue =>
          if queue.length < valuesChanSize then
            .returned (some { g with valuesChan := some (queue ++ [⟨name, value⟩]) }) none false
          else .blocked

/-- Rounding of a rational to the nearest integer, ties to the even one. -/
def roundHalfEven (q : ℚ) : Int :=
  if q - q.floor < 1 / 2 then q.floor
  else if q - q.floor > 1 / 2 then q.floor + 1
  else if q.floor % 2 = 0 then q.floor else q.floor + 1

/-- The library function `strconv.FormatFloat(f, 'f', prec, 64)` read on exact rationals:
sign, integer part, point and `prec` fractional digits of the value rounded to nearest. -/
def FormatFloat (f : ℚ) (prec : Nat) : String :=
  (if f < 0 then "-" else "") ++
    toString ((roundHalfEven (|f| * 10 ^ prec)).toNat / 10 ^ prec) ++ "." ++
    String.mk (List.replicate
      (prec - (toString ((roundHalfEven (|f| * 10 ^ prec)).toNat % 10 ^ prec)).length) '0') ++
    toString ((roundHalfEven (|f| * 10 ^ prec)).toNat % 10 ^ prec)

/-- The library function `strconv.Itoa`. -/
def Itoa (i : Int) : String := toString i

/-- What a tick does to the outside world: `write p` is a call `gr.conn.Write(p)`,
`connect` a `net.DialTimeout`, `send p` a write on the `net.Conn`, `close` its `Close`. -/
inductive IOEvent where
  | write (p : String)
  | connect
  | send (p : String)
  | close
  deriving DecidableEq, Repr

/-- What the network answers during one write: whether dialing succeeds and whether the
write on the connection succeeds. -/
structure Network where
  dialOk : Bool
  writeOk : Bool
  deriving DecidableEq, Repr

/-- The method `connect` of `tcpConnection`: the connection afterwards and whether an error
is returned. -/
def tcpConnection.connect (c : tcpConnection) (net : Network) : tcpConnection × Bool :=
  if net.dialOk = true then ({ c with conn := true }, false) else ({ c with conn := false }, true)

/-- The method `Close` of `tcpConnection`. -/
def tcpConnection.Close (c : tcpConnection) : tcpConnection × List IOEvent :=
  if c.conn = true then ({ c with conn := false }, [.close]) else (c, [])

/-- The method `Write` of `tcpConnection`: the connection afterwards, whether an error is
returned, and what was done on the network. -/
def tcpConnection.Write (c : tcpConnection) (p : String) (net : Network) :
    tcpConnection × Bool × List IOEvent :=
  if c.conn = false then
    if (c.connect net).2 = true then
      ((c.connect net).1, true, [.connect])
    else
      ((c.connect net).1, !net.writeOk, [.connect, .send p])
  else
    (c, !net.writeOk, [.send p])

/-- The assignment through the pointer `gr.metrics[name]`: the entry under `name` becomes
`value`. -/
def setMetric (metrics : List (String × graphiteMetric)) (name : String)
    (value : graphiteMetric) : List (String × graphiteMetric) :=
  metrics.map fun e => if e.1 = name then (e.1, value) else e

/-- The loop `for i, v := range hist` of `fillBuffer`, started at index `i`: the lines
written. -/
def histLines (pfx name current_time : String) : List Int → Nat → String
  | [], _ => ""
  | v :: rest, i =>
    pfx ++ name ++ "." ++ Itoa i ++ " " ++ Itoa v ++ " " ++ current_time ++ "\n" ++
      histLines pfx name current_time rest (i + 1)

/-- The body of the loop `for name, value := range gr.metrics` of `fillBuffer`: the metric
afterwards and the text written to the buffer. -/
def fillEntry (pfx current_time name : String) (value : graphiteMetric) :
    graphiteMetric × String :=
  if value.mType ≠ .metricHist then
    if value.get.2 > 0 then
      (value.reset,
        pfx ++ name ++ " " ++ FormatFloat value.get.1 12 ++ " " ++ current_time ++ "\n")
    else (value, "")
  else
    if value.getHist.2 > 0 then
      (value.reset, histLines pfx name current_time value.getHist.1 0)
    else (value, "")

/-- The loop `for name, value := range gr.metrics` of `fillBuffer` over the names in the
order `visit`: the registry and the buffer afterwards. -/
def fillLoop (pfx current_time : String) :
    List String → List (String × graphiteMetric) × String →
      List (String × graphiteMetric) × String
  | [], st => st
  | name :: rest, st =>
    match st.1.lookup name with
    | none => fillLoop pfx current_time rest st
    | some value =>
      fillLoop pfx current_time rest
        (setMetric st.1 name (fillEntry pfx current_time name value).1,
          st.2 ++ (fillEntry pfx current_time name value).2)

/-- The method `fillBuffer`. `currentTime` is `currentTime.Unix()`; Go visits the entries
of the map in an order of its choice, here the order `visit` of the names. -/
def Graphite.fillBuffer (gr : Graphite) (currentTime : Int) (visit : List String) :
    Graphite :=
  { gr with
    metrics := gr.metrics.map fun metrics =>
      (fillLoop gr.pfx (Itoa currentTime) visit
        (metrics, if gr.buffer.utf8ByteSize > maxBufSize then "" else gr.buffer)).1,
    buffer :=
      (fillLoop gr.pfx (Itoa currentTime) visit
        (gr.metrics.getD [], if gr.buffer.utf8ByteSize > maxBufSize then "" else gr.buffer)).2 }

/-- The method `sendMetrics`: the Graphite afterwards and what the tick did to the outside
world; `none` when `gr.conn` is nil at the write. -/
def Graphite.sendMetrics (gr : Graphite) (currentTime : Int) (visit : List String)
    (net : Network) : Option (Graphite × List IOEvent) :=
  if (gr.fillBuffer currentTime visit).buffer.utf8ByteSize > 0 then
    match (gr.fillBuffer currentTime visit).conn with
    | none => none
    | some c =>
      if (c.Write (gr.fillBuffer currentTime visit).buffer net).2.1 = true then
        some ({ gr.fillBuffer currentTime visit with
            conn := some (c.Write (gr.fillBuffer currentTime visit).buffer net).1.Close.1 },
          IOEvent.write (gr.fillBuffer currentTime visit).buffer ::
            ((c.Write (gr.fillBuffer currentTime visit).buffer net).2.2 ++
              (c.Write (gr.fillBuffer currentTime visit).buffer net).1.Close.2))
      else
        some ({ gr.fillBuffer currentTime visit with
            conn := some (c.Write (gr.fillBuffer currentTime visit).buffer net).1,
            buffer := "" },
          IOEvent.write (gr.fillBuffer currentTime visit).buffer ::
            (c.Write (gr.fillBuffer currentTime visit).buffer net).2.2)
  else
    some (gr.fillBuffer currentTime visit, [])

/-- What the `select` of `handleChans` receives in one iteration of its loop: a tick of
the ticker (with the time, the order in which the map is visited and the answer of the
network), a sample of `valuesChan`, or the closing of `stopChan`. -/
inductive LoopEvent where
  | tick (t : Int) (visit : List String) (net : Network)
  | value
  | stop
  deriving DecidableEq, Repr

/-- How one iteration of the loop of `handleChans` ends: the loop goes on, or the function
returns, or the case had nothing to receive, or the iteration panics. -/
inductive LoopResult where
  | continues (gr : Graphite) (io : List IOEvent)
  | returns (gr : Graphite)
  | notReady
  | panicked
  deriving DecidableEq, Repr

/-- The statement `gr.metrics[name].handleValue(value)`; `none` when it panics (no entry
under `name`, or `handleValue` panics). -/
def Graphite.applyValue (gr : Graphite) (name : String) (value : ℚ) : Option Graphite :=
  match (gr.metrics.getD []).lookup name with
  | none => none
  | some mt =>
    match mt.handleValue value with
    | none => none
    | some mt' =>
      some { gr with metrics := gr.metrics.map fun metrics => setMetric metrics name mt' }

/-- One iteration of the loop of the method `handleChans`. -/
def Graphite.handleChans (gr : Graphite) : LoopEvent → LoopResult
  | .tick t visit net =>
    match gr.ticker with
    | none => .notReady
    | some _ =>
      match gr.sendMetrics t visit net with
      | none => .panicked
      | some r => .continues r.1 r.2
  | .value =>
    match gr.valuesChan with
    | some (v :: queue) =>
      match gr.applyValue v.name v.value with
      | none => .panicked
      | some g' => .continues { g' with valuesChan := some queue } []
    | _ => .notReady
  | .stop =>
    if gr.stopChan = some true then .returns gr else .notReady

/-- A call of a public method. -/
inductive Call where
  | RegisterCounter (name : String) (normalizeByInterval : Bool)
  | RegisterAverage (name : String)
  | RegisterMaximum (name : String)
  | RegisterMinimum (name : String)
  | RegisterGauge (name : String)
  | RegisterHist (name : String) (histRanges : List ℚ)
  | Start
  | Stop
  | HandleValue (name : String) (value : ℚ)
  deriving DecidableEq, Repr

/-- The result of a call on the receiver `gr`. -/
def Call.run (c : Call) (gr : Option Graphite) : CallResult :=
  match c with
  | .RegisterCounter name normalizeByInterval =>
    .returned (Graphite.RegisterCounter gr name normalizeByInterval).1
      (Graphite.RegisterCounter gr name normalizeByInterval).2 false
  | .RegisterAverage name =>
    .returned (Graphite.RegisterAverage gr name).1 (Graphite.RegisterAverage gr name).2 false
  | .RegisterMaximum name =>
    .returned (Graphite.RegisterMaximum gr name).1 (Graphite.RegisterMaximum gr name).2 false
  | .RegisterMinimum name =>
    .returned (Graphite.RegisterMinimum gr name).1 (Graphite.RegisterMinimum gr name).2 false
  | .RegisterGauge name =>
    .returned (Graphite.RegisterGauge gr name).1 (Graphite.RegisterGauge gr name).2 false
  | .RegisterHist name histRanges =>
    .returned (Graphite.RegisterHist gr name histRanges).1
      (Graphite.RegisterHist gr name histRanges).2 false
  | .Start => Graphite.Start gr
  | .Stop => Graphite.Stop gr
  | .HandleValue name value => Graphite.HandleValue gr name value

/-- The program as a whole: the Graphite the callers hold, whether a goroutine is running
`handleChans`, and what the ticks have done to the outside world so far. -/
structure System where
  gr : Option Graphite
  loop : Bool
  io : List IOEvent
  deriving DecidableEq, Repr

/-- One atomic step of the program: a call of a public method, or one iteration of the
loop of `handleChans`. -/
inductive Action where
  | call (c : Call)
  | loop (e : LoopEvent)
  deriving DecidableEq, Repr

/-- The state after one step; `none` when the step does not complete (the call panics or
blocks, no goroutine runs the loop, the case has nothing to receive, the iteration
panics). -/
def System.step (s : System) : Action → Option System
  | .call c =>
    match c.run s.gr with
    | .returned gr _ spawn => some { s with gr := gr, loop := s.loop || spawn }
    | _ => none
  | .loop e =>
    if s.loop = true then
      match s.gr with
      | none => none
      | some g =>
        match g.handleChans e with
        | .continues g' io => some { s with gr := some g', io := s.io ++ io }
        | .returns g' => some { s with gr := some g', loop := false }
        | _ => none
    else none

/-- The state after a sequence of steps, each of which completes. -/
def System.run (s : System) : List Action → Option System
  | [] => some s
  | a :: rest =>
    match s.step a with
    | some s' => System.run s' rest
    | none => none

/-- The results of a sequence of calls made one after the other on the receiver `gr`; the
sequence ends at a call that does not return. -/
def runCalls (gr : Option Graphite) : List Call → List CallResult
  | [] => []
  | c :: rest =>
    match c.run gr with
    | .returned gr' err spawn => .returned gr' err spawn :: runCalls gr' rest
    | r => [r]

/-- The names registered in a Graphite. -/
def registeredNames (gr : Option Graphite) : List String :=
  match gr with
  | none => []
  | some g => (g.metrics.getD []).map Prod.fst

/-! ## Notions used to state the properties -/

/-- The metric `graphiteMetric{}` of the tests with kind, flag and interval set. -/
def zeroMetric (mType : metricType) (normalizeByInterval : Bool) (flushInterval : Int)
    (histRanges : List ℚ) (hist : List Int) : graphiteMetric :=
  { mType := mType, value := 0, counter := 0, normalizeByInterval := normalizeByInterval,
    flushInterval := flushInterval, histRanges := histRanges, hist := hist }

/-- The Graphite that `NewGraphite("localhost", 0, "prefix", 2*time.Second, false)`
returns in `TestRegisterMetric`. -/
def testGraphite : Graphite :=
  { newGraphiteStruct with
    host := "localhost:0",
    conn := some (newConnection "localhost:0"),
    pfx := "prefix.",
    flushInterval := 2 * Second,
    metrics := some [],
    valuesChan := some [] }

/-- A constructed, enabled Graphite on which `Start` has succeeded. -/
def Started (g : Graphite) : Prop :=
  g.metrics.isSome = true ∧ g.disabled = false ∧ g.started = true

/-- The calls that register a metric. -/
def Call.isRegister : Call → Bool
  | .Start => false
  | .Stop => false
  | .HandleValue _ _ => false
  | _ => true

/-- The steps that are a call registering a metric. -/
def Action.isRegister : Action → Bool
  | .call c => c.isRegister
  | .loop _ => false

/-- The Graphite of `TestStart` and `TestHandleValue` once `Start` has succeeded. -/
def justStarted : Graphite :=
  { testGraphite with stopChan := some false, ticker := some (2 * Second), started := true }

/-- The Graphite of `TestHandleValue` once the sample 1 sent to "counter" has been
applied by the loop. -/
def countedGraphite : Graphite :=
  { justStarted with
    metrics := some [("counter",
      { zeroMetric .metricCounter true (2 * Second) [] [0] with value := 1, counter := 1 })],
    valuesChan := some [] }

/-- The Graphite of `TestHandleValue` once `Start` has succeeded and "counter" is
registered. -/
def startedGraphite : Graphite :=
  { testGraphite with
    metrics := some [("counter", zeroMetric .metricCounter true (2 * Second) [] [0])],
    stopChan := some false,
    ticker := some (2 * Second),
    started := true }

/-- The Graphite `startedGraphite` after a successful `Stop`. -/
def stoppedGraphite : Graphite :=
  { startedGraphite with stopChan := some true }

/-- The concatenation of a list of lines. -/
def joinLines : List String → String
  | [] => ""
  | l :: rest => l ++ joinLines rest

/-- The lines the wire protocol owes a metric at a flush with Unix time `t`: none without
samples; for a Histogram one line per bucket, in increasing index; for the other kinds one
line with the value of `get` in fixed point with 12 fractional digits. -/
def encodedLines (pfx : String) (t : Int) (name : String) (m : graphiteMetric) :
    List String :=
  if m.counter > 0 then
    if m.mType = .metricHist then
      (List.range m.hist.length).map fun (i : Nat) =>
        pfx ++ name ++ "." ++ Itoa (i : Int) ++ " " ++ Itoa (m.hist.getD i 0) ++ " " ++
          Itoa t ++ "\n"
    else
      [pfx ++ name ++ " " ++ FormatFloat m.get.1 12 ++ " " ++ Itoa t ++ "\n"]
  else []

/-- The text a flush at Unix time `t` owes the registry `ms` when the names are visited in
the order `visit`. -/
def encodedText (pfx : String) (t : Int) (ms : List (String × graphiteMetric))
    (visit : List String) : String :=
  joinLines (visit.map fun name =>
    match ms.lookup name with
    | none => ""
    | some m => joinLines (encodedLines pfx t name m))

/-- The Graphite of `TestFillBuffer` when `fillBuffer` is called: "minimum" holds the
sample 1, "gauge" the sample 8 and "hist", with the boundaries 10, 20, 30, the sample 12. -/
def filledGraphite : Graphite :=
  { newGraphiteStruct with
    host := ":0",
    conn := some (newConnection ":0"),
    pfx := "prefix.",
    flushInterval := 2 * Second,
    metrics := some [
      ("minimum", { zeroMetric .metricMinimum false (2 * Second) [] [0] with
        value := 1, counter := 1 }),
      ("gauge", { zeroMetric .metricGauge false (2 * Second) [] [0] with
        value := 8, counter := 1 }),
      ("hist", { zeroMetric .metricHist false (2 * Second) [10, 20, 30] [0, 1, 0, 0] with
        counter := 1 })],
    valuesChan := some [] }

/-- The text `expected_text` of `TestFillBuffer`, in the order hist, minimum, gauge. -/
def expected_text : String :=
  "prefix.hist.0 0 946782245\nprefix.hist.1 1 946782245\nprefix.hist.2 0 946782245\n" ++
  "prefix.hist.3 0 946782245\nprefix.minimum 1.000000000000 946782245\n" ++
  "prefix.gauge 8.000000000000 946782245\n"

/-- The Graphite of `TestBufferExceed` after `RegisterHist("hist", {10, 20, 30})`. -/
def histGraphite : Graphite :=
  { newGraphiteStruct with
    host := ":0",
    conn := some (newConnection ":0"),
    pfx := "prefix.",
    flushInterval := Second,
    metrics := some [("hist", zeroMetric .metricHist false Second [10, 20, 30] [0, 0, 0, 0])],
    valuesChan := some [] }

/-- The Graphite `histGraphite` once "hist" holds the sample 12. -/
def sampledGraphite : Graphite :=
  { histGraphite with
    metrics := some [("hist",
      { zeroMetric .metricHist false Second [10, 20, 30] [0, 1, 0, 0] with counter := 1 })] }

/-- The 104 bytes that one cycle of `TestBufferExceed` encodes. -/
def histBlock : String :=
  "prefix.hist.0 0 946782245\nprefix.hist.1 1 946782245\n" ++
  "prefix.hist.2 0 946782245\nprefix.hist.3 0 946782245\n"

/-- One cycle of the loops of `TestBufferExceed`: `graph.metrics["hist"].handleValue(12)`
and then `graph.fillBuffer(tm)`. -/
def histCycle (g : Graphite) : Option Graphite :=
  (g.applyValue "hist" 12).map fun g' => g'.fillBuffer 946782245 ["hist"]

/-- The Graphite after `n` cycles of `TestBufferExceed`. -/
def histCycles : Nat → Graphite → Option Graphite
  | 0, g => some g
  | n + 1, g => (histCycles n g).bind histCycle

/-- The events that are a call of `gr.conn.Write`. -/
def IOEvent.isWrite : IOEvent → Bool
  | .write _ => true
  | _ => false

/-- An integer that an `int32` can hold. -/
def inInt32 (x : Int) : Prop := -2147483648 ≤ x ∧ x < 2147483648

/-- A metric whose `hist` has one bucket more than `histRanges` has boundaries, as
`registerMetric` builds it; only the Histogram case of `handleValue` indexes `hist`. -/
def histShaped (mt : graphiteMetric) : Prop :=
  mt.mType = .metricHist → mt.hist.length = mt.histRanges.length + 1

/-- The bucket that `handleValue` increments on a Histogram metric of the registered
shape: the index the boundary loop stops at, or the last bucket. -/
def bucketIndex (ranges : List ℚ) (value : ℚ) : Nat :=
  (histHit value ranges 0).getD ranges.length

/-- A Graphite each of whose registered metrics has exactly one bucket more than it has
boundaries: `len(hist) == len(histRanges) + 1`. -/
def registryShaped (g : Graphite) : Prop :=
  ∀ e ∈ g.metrics.getD [], e.2.hist.length = e.2.histRanges.length + 1

/-- A call made on a metric: `handleValue(value)` or `reset()`. -/
inductive MetricOp where
  | handleValue (value : ℚ)
  | reset
  deriving DecidableEq, Repr

/-- The metric after a sequence of calls of `handleValue` and `reset`, made in order; a
panic of one call ends the run. -/
def runOps (mt : graphiteMetric) : List MetricOp → Option graphiteMetric
  | [] => some mt
  | .handleValue v :: rest =>
    match mt.handleValue v with
    | some mt' => runOps mt' rest
    | none => none
  | .reset :: rest => runOps mt.reset rest

/-- The number of calls of `handleValue` that a sequence of calls makes after its last
`reset`, added to `k` when the sequence has no `reset`. -/
def samplesSince (k : Nat) : List MetricOp → Nat
  | [] => k
  | .handleValue _ :: rest => samplesSince (k + 1) rest
  | .reset :: rest => samplesSince 0 rest

/-! ## Helper lemmas -/

theorem wrapInt32_of_inInt32 {x : Int} (h : inInt32 x) : wrapInt32 x = x := by
  unfold inInt32 at h
  unfold wrapInt32
  omega

theorem wrapInt32_inInt32 (x : Int) : inInt32 (wrapInt32 x) := by
  unfold inInt32 wrapInt32
  omega

theorem wrapInt32_succ (x : Int) : wrapInt32 (wrapInt32 x + 1) = wrapInt32 (x + 1) := by
  unfold wrapInt32
  omega

theorem wrapInt32_add (x y : Int) : wrapInt32 (wrapInt32 x + y) = wrapInt32 (x + y) := by
  unfold wrapInt32
  omega

theorem histIncr_length {hist hist' : List Int} {i : Nat} (h : histIncr hist i = some hist') :
    hist'.length = hist.length := by
  unfold histIncr at h
  split at h
  · simp only [Option.some.injEq] at h
    rw [← h, List.length_set]
  · exact absurd h (by simp)

/-- What one call of `handleValue` leaves alone, and what it does to the counter. -/
theorem handleValue_frame {mt mt' : graphiteMetric} {v : ℚ} (h : mt.handleValue v = some mt') :
    mt'.mType = mt.mType ∧ mt'.normalizeByInterval = mt.normalizeByInterval ∧
      mt'.flushInterval = mt.flushInterval ∧ mt'.histRanges = mt.histRanges ∧
      mt'.hist.length = mt.hist.length ∧ mt'.counter = wrapInt32 (mt.counter + 1) := by
  unfold graphiteMetric.handleValue at h
  split at h
  · cases h; simp
  · cases h; simp
  · split at h <;> (cases h; simp)
  · split at h <;> (cases h; simp)
  · cases h; simp
  · split at h
    · simp only [Option.map_eq_some'] at h
      obtain ⟨hist', hi, rfl⟩ := h
      simp [histIncr_length hi]
    · split at h
      · simp only [Option.map_eq_some'] at h
        obtain ⟨hist', hi, rfl⟩ := h
        simp [histIncr_length hi]
      · exact absurd h (by simp)

/-- What a run of `handleValue` calls leaves alone, and what it does to the counter. -/
theorem handleValues_frame {values : List ℚ} {mt mt' : graphiteMetric}
    (hc : inInt32 mt.counter) (h : handleValues mt values = some mt') :
    mt'.mType = mt.mType ∧ mt'.normalizeByInterval = mt.normalizeByInterval ∧
      mt'.flushInterval = mt.flushInterval ∧ mt'.histRanges = mt.histRanges ∧
      mt'.hist.length = mt.hist.length ∧
      mt'.counter = wrapInt32 (mt.counter + values.length) := by
  induction values generalizing mt with
  | nil =>
    simp only [handleValues, Option.some.injEq] at h
    subst h
    simp [wrapInt32_of_inInt32 hc]
  | cons v rest ih =>
    unfold handleValues at h
    cases h1 : mt.handleValue v with
    | none => simp [h1] at h
    | some m1 =>
      simp only [h1] at h
      obtain ⟨a1, a2, a3, a4, a5, a6⟩ := handleValue_frame h1
      obtain ⟨b1, b2, b3, b4, b5, b6⟩ := ih (a6 ▸ wrapInt32_inInt32 _) h
      refine ⟨b1.trans a1, b2.trans a2, b3.trans a3, b4.trans a4, b5.trans a5, ?_⟩
      rw [b6, a6, List.length_cons, wrapInt32_add]
      congr 1
      push_cast
      ring

theorem histHit_bound {value : ℚ} {ranges : List ℚ} {k i : Nat}
    (h : histHit value ranges k = some i) : k ≤ i ∧ i < k + ranges.length := by
  induction ranges generalizing k with
  | nil => simp [histHit] at h
  | cons v rest ih =>
    unfold histHit at h
    split at h
    · simp only [Option.some.injEq] at h
      subst h
      simp
    · have := ih h
      simp only [List.length_cons]
      omega

/-- On a metric of the registered shape `handleValue` returns. -/
theorem handleValue_returns (mt : graphiteMetric) (v : ℚ) (hs : histShaped mt) :
    ∃ mt', mt.handleValue v = some mt' := by
  unfold graphiteMetric.handleValue
  split
  · exact ⟨_, rfl⟩
  · exact ⟨_, rfl⟩
  · split <;> exact ⟨_, rfl⟩
  · split <;> exact ⟨_, rfl⟩
  · exact ⟨_, rfl⟩
  · next hk =>
    have hl := hs hk
    split
    · next i hi =>
      have hb := histHit_bound hi
      have : i < mt.hist.length := by omega
      simp [histIncr, this]
    · have : 0 < mt.hist.length := by omega
      simp [histIncr, this]

/-- On a metric of the registered shape every run of `handleValue` calls returns, and the
counter ends at the int32 image of its start plus the number of calls. -/
theorem handleValues_returns (values : List ℚ) (mt : graphiteMetric) (hs : histShaped mt)
    (hc : inInt32 mt.counter) :
    ∃ mt', handleValues mt values = some mt' ∧
      mt'.counter = wrapInt32 (mt.counter + values.length) := by
  induction values generalizing mt with
  | nil => exact ⟨mt, rfl, by simp [wrapInt32_of_inInt32 hc]⟩
  | cons v rest ih =>
    obtain ⟨m1, h1⟩ := handleValue_returns mt v hs
    obtain ⟨a1, -, -, a4, a5, a6⟩ := handleValue_frame h1
    have hs1 : histShaped m1 := by
      intro hk
      rw [a5, a4]
      exact hs (a1 ▸ hk)
    obtain ⟨mt', h2, -⟩ := ih m1 hs1 (a6 ▸ wrapInt32_inInt32 _)
    refine ⟨mt', ?_, ?_⟩
    · simp only [handleValues, h1, h2]
    · have h3 : handleValues mt (v :: rest) = some mt' := by
        simp only [handleValues, h1, h2]
      exact (handleValues_frame hc h3).2.2.2.2.2

/-- A run on a Counter metric adds the sum of the values to `value`. -/
theorem handleValues_counter (values : List ℚ) (mt : graphiteMetric)
    (hk : mt.mType = .metricCounter) :
    ∃ mt', handleValues mt values = some mt' ∧ mt'.value = mt.value + values.sum := by
  induction values generalizing mt with
  | nil => exact ⟨mt, rfl, by simp⟩
  | cons v rest ih =>
    have h1 : mt.handleValue v =
        some { mt with value := mt.value + v, counter := wrapInt32 (mt.counter + 1) } := by
      simp [graphiteMetric.handleValue, hk]
    obtain ⟨mt', h2, h3⟩ :=
      ih { mt with value := mt.value + v, counter := wrapInt32 (mt.counter + 1) } hk
    refine ⟨mt', ?_, ?_⟩
    · simp only [handleValues, h1, h2]
    · rw [h3, List.sum_cons]
      simp only
      ring

/-- The incremental mean: one more value turns the mean of `n` values into the mean of
`n + 1` values. -/
theorem mean_step (S v : ℚ) (n : Nat) (h0 : n = 0 → S = 0) :
    S / (n : ℚ) * ((n : ℚ) / ((n : ℚ) + 1)) + v / ((n : ℚ) + 1) = (S + v) / ((n : ℚ) + 1) := by
  have h1 : ((n : ℚ) + 1) ≠ 0 := by positivity
  rcases Nat.eq_zero_or_pos n with hn | hn
  · subst hn
    simp [h0 rfl]
  · have h2 : (n : ℚ) ≠ 0 := by exact_mod_cast hn.ne'
    field_simp

/-- A run on an Average metric that holds the mean of the values `pre` ends with the mean
of `pre ++ values`, as long as the counter stays below 2^31. -/
theorem handleValues_average (values pre : List ℚ) (mt : graphiteMetric)
    (hk : mt.mType = .metricAverage) (hc : mt.counter = (pre.length : Int))
    (hv : mt.value = pre.sum / (pre.length : ℚ))
    (hn : pre.length + values.length < 2147483648) :
    ∃ mt', handleValues mt values = some mt' ∧
      mt'.value = (pre ++ values).sum / ((pre ++ values).length : ℚ) := by
  induction values generalizing mt pre with
  | nil => exact ⟨mt, rfl, by simpa using hv⟩
  | cons v rest ih =>
    have hw : wrapInt32 (mt.counter + 1) = ((pre ++ [v]).length : Int) := by
      rw [hc, List.length_append, List.length_singleton]
      simp only [List.length_cons] at hn
      push_cast
      apply wrapInt32_of_inInt32
      unfold inInt32
      omega
    have h1 : mt.handleValue v = some { mt with
        value := mt.value * ((mt.counter : ℚ) / ((wrapInt32 (mt.counter + 1) : Int) : ℚ))
                  + v / ((wrapInt32 (mt.counter + 1) : Int) : ℚ),
        counter := wrapInt32 (mt.counter + 1) } := by
      simp [graphiteMetric.handleValue, hk]
    have hval : mt.value * ((mt.counter : ℚ) / ((wrapInt32 (mt.counter + 1) : Int) : ℚ))
                  + v / ((wrapInt32 (mt.counter + 1) : Int) : ℚ)
        = (pre ++ [v]).sum / ((pre ++ [v]).length : ℚ) := by
      rw [hw, hv, hc]
      have h0 : pre.length = 0 → pre.sum = 0 := by
        intro h
        rw [List.length_eq_zero.mp h]
        rfl
      have := mean_step pre.sum v pre.length h0
      simpa using this
    obtain ⟨mt', h2, h3⟩ := ih (pre ++ [v]) { mt with
        value := mt.value * ((mt.counter : ℚ) / ((wrapInt32 (mt.counter + 1) : Int) : ℚ))
                  + v / ((wrapInt32 (mt.counter + 1) : Int) : ℚ),
        counter := wrapInt32 (mt.counter + 1) } hk hw hval
      (by simp only [List.length_append, List.length_cons, List.length_nil] at hn ⊢; omega)
    refine ⟨mt', ?_, ?_⟩
    · simp only [handleValues, h1, h2]
    · rw [h3]
      simp

/-- A run on a Maximum metric that holds the greatest of the values `pre` ends with the
greatest of `pre ++ values`, as long as the counter stays below 2^31. -/
theorem handleValues_maximum (values pre : List ℚ) (mt : graphiteMetric)
    (hk : mt.mType = .metricMaximum) (hc : mt.counter = (pre.length : Int))
    (hinv : pre ≠ [] → mt.value ∈ pre ∧ ∀ x ∈ pre, x ≤ mt.value)
    (hn : pre.length + values.length < 2147483648) :
    ∃ mt', handleValues mt values = some mt' ∧ (values = [] → mt'.value = mt.value) ∧
      (pre ++ values ≠ [] →
        mt'.value ∈ pre ++ values ∧ ∀ x ∈ pre ++ values, x ≤ mt'.value) := by
  induction values generalizing mt pre with
  | nil => exact ⟨mt, rfl, fun _ => rfl, by simpa using hinv⟩
  | cons v rest ih =>
    simp only [List.length_cons] at hn
    have hw : wrapInt32 (mt.counter + 1) = ((pre ++ [v]).length : Int) := by
      rw [hc, List.length_append, List.length_singleton]
      push_cast
      apply wrapInt32_of_inInt32
      unfold inInt32
      omega
    have hz : mt.counter = 0 ↔ pre = [] := by
      rw [hc]
      constructor
      · intro h
        exact List.length_eq_zero.mp (by exact_mod_cast h)
      · intro h
        simp [h]
    obtain ⟨m1, h1, hm1k, hm1c, hm1v⟩ : ∃ m1, mt.handleValue v = some m1 ∧
        m1.mType = .metricMaximum ∧ m1.counter = ((pre ++ [v]).length : Int) ∧
        (m1.value ∈ pre ++ [v] ∧ ∀ x ∈ pre ++ [v], x ≤ m1.value) := by
      by_cases hcond : mt.counter = 0 ∨ mt.value < v
      · refine ⟨{ mt with value := v, counter := wrapInt32 (mt.counter + 1) }, ?_, hk, hw, ?_⟩
        · simp [graphiteMetric.handleValue, hk, hcond]
        · refine ⟨by simp, ?_⟩
          intro x hx
          rw [List.mem_append, List.mem_singleton] at hx
          rcases hx with hx | hx
          · have hne : pre ≠ [] := List.ne_nil_of_mem hx
            rcases hcond with h0 | hlt
            · exact absurd (hz.mp h0) hne
            · exact le_of_lt (lt_of_le_of_lt ((hinv hne).2 x hx) hlt)
          · rw [hx]
      · refine ⟨{ mt with counter := wrapInt32 (mt.counter + 1) }, ?_, hk, hw, ?_⟩
        · simp [graphiteMetric.handleValue, hk, hcond]
        · rw [not_or] at hcond
          have hne : pre ≠ [] := fun h => hcond.1 (hz.mpr h)
          refine ⟨List.mem_append_left _ (hinv hne).1, ?_⟩
          intro x hx
          rw [List.mem_append, List.mem_singleton] at hx
          rcases hx with hx | hx
          · exact (hinv hne).2 x hx
          · rw [hx]
            exact not_lt.mp hcond.2
    obtain ⟨mt', h2, -, h4⟩ := ih (pre ++ [v]) m1 hm1k hm1c (fun _ => hm1v)
      (by simp only [List.length_append, List.length_cons, List.length_nil]; omega)
    refine ⟨mt', ?_, fun h => absurd h (List.cons_ne_nil _ _), ?_⟩
    · simp only [handleValues, h1, h2]
    · intro _
      have := h4 (by simp)
      simpa using this

/-- A run on a Minimum metric that holds the least of the values `pre` ends with the
least of `pre ++ values`, as long as the counter stays below 2^31. -/
theorem handleValues_minimum (values pre : List ℚ) (mt : graphiteMetric)
    (hk : mt.mType = .metricMinimum) (hc : mt.counter = (pre.length : Int))
    (hinv : pre ≠ [] → mt.value ∈ pre ∧ ∀ x ∈ pre, mt.value ≤ x)
    (hn : pre.length + values.length < 2147483648) :
    ∃ mt', handleValues mt values = some mt' ∧ (values = [] → mt'.value = mt.value) ∧
      (pre ++ values ≠ [] →
        mt'.value ∈ pre ++ values ∧ ∀ x ∈ pre ++ values, mt'.value ≤ x) := by
  induction values generalizing mt pre with
  | nil => exact ⟨mt, rfl, fun _ => rfl, by simpa using hinv⟩
  | cons v rest ih =>
    simp only [List.length_cons] at hn
    have hw : wrapInt32 (mt.counter + 1) = ((pre ++ [v]).length : Int) := by
      rw [hc, List.length_append, List.length_singleton]
      push_cast
      apply wrapInt32_of_inInt32
      unfold inInt32
      omega
    have hz : mt.counter = 0 ↔ pre = [] := by
      rw [hc]
      constructor
      · intro h
        exact List.length_eq_zero.mp (by exact_mod_cast h)
      · intro h
        simp [h]
    obtain ⟨m1, h1, hm1k, hm1c, hm1v⟩ : ∃ m1, mt.handleValue v = some m1 ∧
        m1.mType = .metricMinimum ∧ m1.counter = ((pre ++ [v]).length : Int) ∧
        (m1.value ∈ pre ++ [v] ∧ ∀ x ∈ pre ++ [v], m1.value ≤ x) := by
      by_cases hcond : mt.counter = 0 ∨ mt.value > v
      · refine ⟨{ mt with value := v, counter := wrapInt32 (mt.counter + 1) }, ?_, hk, hw, ?_⟩
        · simp [graphiteMetric.handleValue, hk, hcond]
        · refine ⟨by simp, ?_⟩
          intro x hx
          rw [List.mem_append, List.mem_singleton] at hx
          rcases hx with hx | hx
          · have hne : pre ≠ [] := List.ne_nil_of_mem hx
            rcases hcond with h0 | hlt
            · exact absurd (hz.mp h0) hne
            · exact le_of_lt (lt_of_lt_of_le hlt ((hinv hne).2 x hx))
          · rw [hx]
      · refine ⟨{ mt with counter := wrapInt32 (mt.counter + 1) }, ?_, hk, hw, ?_⟩
        · simp [graphiteMetric.handleValue, hk, hcond]
        · rw [not_or] at hcond
          have hne : pre ≠ [] := fun h => hcond.1 (hz.mpr h)
          refine ⟨List.mem_append_left _ (hinv hne).1, ?_⟩
          intro x hx
          rw [List.mem_append, List.mem_singleton] at hx
          rcases hx with hx | hx
          · exact (hinv hne).2 x hx
          · rw [hx]
            exact not_lt.mp hcond.2
    obtain ⟨mt', h2, -, h4⟩ := ih (pre ++ [v]) m1 hm1k hm1c (fun _ => hm1v)
      (by simp only [List.length_append, List.length_cons, List.length_nil]; omega)
    refine ⟨mt', ?_, fun h => absurd h (List.cons_ne_nil _ _), ?_⟩
    · simp only [handleValues, h1, h2]
    · intro _
      have := h4 (by simp)
      simpa using this

theorem get_snd (mt : graphiteMetric) : mt.get.2 = mt.counter := by
  unfold graphiteMetric.get
  split <;> rfl

/-- From a counter at zero, a run on a metric of the registered shape returns and reports
the int32 image of the number of values as its count. -/
theorem handleValues_count (mt : graphiteMetric) (values : List ℚ) (hs : histShaped mt)
    (hc : mt.counter = 0) :
    ∃ mt', handleValues mt values = some mt' ∧ mt'.counter = wrapInt32 values.length := by
  obtain ⟨mt', h1, h2⟩ := handleValues_returns values mt hs
    (by rw [hc]; unfold inInt32; omega)
  exact ⟨mt', h1, by rw [h2, hc, zero_add]⟩

theorem wrapInt32_two_pow_31 : wrapInt32 ((2147483648 : Nat) : Int) = -2147483648 := by
  norm_num [wrapInt32]

/-- A run on a Gauge metric leaves the last value applied, or the old value when nothing
was applied. -/
theorem handleValues_gauge (values : List ℚ) (mt : graphiteMetric)
    (hk : mt.mType = .metricGauge) :
    ∃ mt', handleValues mt values = some mt' ∧ mt'.value = values.getLast?.getD mt.value := by
  induction values generalizing mt with
  | nil => exact ⟨mt, rfl, rfl⟩
  | cons v rest ih =>
    have h1 : mt.handleValue v =
        some { mt with value := v, counter := wrapInt32 (mt.counter + 1) } := by
      simp [graphiteMetric.handleValue, hk]
    obtain ⟨mt', h2, h3⟩ := ih { mt with value := v, counter := wrapInt32 (mt.counter + 1) } hk
    refine ⟨mt', ?_, ?_⟩
    · simp only [handleValues, h1, h2]
    · rw [h3, List.getLast?_cons]
      rfl

theorem histHit_eq_findIdx (value : ℚ) (ranges : List ℚ) (k : Nat) :
    histHit value ranges k =
      if ranges.findIdx (fun b => decide (value < b)) < ranges.length
      then some (k + ranges.findIdx (fun b => decide (value < b))) else none := by
  induction ranges generalizing k with
  | nil => simp [histHit]
  | cons b rest ih =>
    unfold histHit
    rw [List.findIdx_cons]
    by_cases hb : value < b
    · simp [hb]
    · simp only [hb, if_false, decide_False, cond_false, List.length_cons,
        Nat.add_lt_add_iff_right]
      rw [ih (k + 1)]
      split
      · congr 1
        omega
      · rfl

theorem bucketIndex_eq_findIdx (ranges : List ℚ) (value : ℚ) :
    bucketIndex ranges value = ranges.findIdx (fun b => decide (value < b)) := by
  unfold bucketIndex
  rw [histHit_eq_findIdx]
  split
  · simp
  · have := @List.findIdx_le_length _ (fun b => decide (value < b)) ranges
    simp only [Option.getD_none]
    omega

theorem bucketIndex_le (ranges : List ℚ) (value : ℚ) :
    bucketIndex ranges value ≤ ranges.length := by
  rw [bucketIndex_eq_findIdx]
  exact List.findIdx_le_length _

/-- One call of `handleValue` on a Histogram metric of the registered shape: bucket
`bucketIndex` goes up by one (in int32), and so does the counter. -/
theorem handleValue_hist (mt : graphiteMetric) (v : ℚ) (hk : mt.mType = .metricHist)
    (hlen : mt.hist.length = mt.histRanges.length + 1) :
    mt.handleValue v = some { mt with
      hist := mt.hist.set (bucketIndex mt.histRanges v)
        (wrapInt32 (mt.hist.getD (bucketIndex mt.histRanges v) 0 + 1)),
      counter := wrapInt32 (mt.counter + 1) } := by
  have hb := bucketIndex_le mt.histRanges v
  have hlt : bucketIndex mt.histRanges v < mt.hist.length := by omega
  unfold bucketIndex at hb hlt ⊢
  unfold graphiteMetric.handleValue
  simp only [hk]
  cases hh : histHit v mt.histRanges 0 with
  | some i =>
    simp only [hh, Option.getD_some] at hlt ⊢
    simp [histIncr, hlt]
  | none =>
    simp only [hh, Option.getD_none] at hlt ⊢
    have e : mt.hist.length - 1 = mt.histRanges.length := by omega
    have h0 : 0 < mt.hist.length := by omega
    simp [histIncr, e, hlt, hlen]

/-- A run on a Histogram metric of the registered shape adds to every bucket (in int32)
the number of values that `bucketIndex` sends to it. -/
theorem handleValues_hist (values : List ℚ) (mt : graphiteMetric)
    (hk : mt.mType = .metricHist) (hlen : mt.hist.length = mt.histRanges.length + 1)
    (hin : ∀ i, inInt32 (mt.hist.getD i 0)) :
    ∃ mt', handleValues mt values = some mt' ∧ mt'.hist.length = mt.hist.length ∧
      ∀ i, i < mt.hist.length → mt'.hist.getD i 0 = wrapInt32 (mt.hist.getD i 0 +
        (values.countP (fun v => decide (bucketIndex mt.histRanges v = i)) : Nat)) := by
  induction values generalizing mt with
  | nil =>
    refine ⟨mt, rfl, rfl, ?_⟩
    intro i _
    rw [List.countP_nil, Nat.cast_zero, add_zero, wrapInt32_of_inInt32 (hin i)]
  | cons v rest ih =>
    have h1 := handleValue_hist mt v hk hlen
    have hb := bucketIndex_le mt.histRanges v
    have hget : ∀ i, (mt.hist.set (bucketIndex mt.histRanges v)
        (wrapInt32 (mt.hist.getD (bucketIndex mt.histRanges v) 0 + 1))).getD i 0 =
        if bucketIndex mt.histRanges v = i then wrapInt32 (mt.hist.getD i 0 + 1)
        else mt.hist.getD i 0 := by
      intro i
      simp only [List.getD_eq_getElem?_getD, List.getElem?_set]
      by_cases hbi : bucketIndex mt.histRanges v = i
      · subst hbi
        have : bucketIndex mt.histRanges v < mt.hist.length := by omega
        simp [this]
      · simp [hbi]
    obtain ⟨mt', h2, h3, h4⟩ := ih { mt with
      hist := mt.hist.set (bucketIndex mt.histRanges v)
        (wrapInt32 (mt.hist.getD (bucketIndex mt.histRanges v) 0 + 1)),
      counter := wrapInt32 (mt.counter + 1) } hk
      (by simp only [List.length_set]; exact hlen)
      (by
        intro i
        simp only [hget]
        split
        · exact wrapInt32_inInt32 _
        · exact hin i)
    simp only [List.length_set] at h3 h4
    refine ⟨mt', ?_, h3, ?_⟩
    · simp only [handleValues, h1, h2]
    · intro i hi
      rw [h4 i hi, hget, List.countP_cons]
      by_cases hbi : bucketIndex mt.histRanges v = i
      · simp only [hbi, if_true, decide_True]
        rw [wrapInt32_add]
        congr 1
        push_cast
        ring
      · simp [hbi]

/-- Over strictly ascending boundaries, the bucket of a value is fixed by its two
neighbouring boundaries. -/
theorem bucketIndex_eq_iff (b : List ℚ) (hasc : b.Chain' (· < ·)) (v : ℚ) (i : Nat)
    (hi : i ≤ b.length) :
    bucketIndex b v = i ↔
      (∀ h : i < b.length, v < b[i]) ∧ (∀ h : 0 < i, b[i - 1] ≤ v) := by
  have hpw := List.pairwise_iff_getElem.mp (List.chain'_iff_pairwise.mp hasc)
  have hmono : ∀ (j m : Nat) (hm : m < b.length), j ≤ m → ∀ hj : j < b.length,
      b[j] ≤ b[m] := by
    intro j m hm hjm hj
    rcases Nat.eq_or_lt_of_le hjm with e | l
    · subst e
      exact le_refl _
    · exact le_of_lt (hpw j m hj hm l)
  rw [bucketIndex_eq_findIdx]
  constructor
  · intro h
    constructor
    · intro hlt
      have hw : b.findIdx (fun x => decide (v < x)) < b.length := by omega
      have := @List.findIdx_getElem _ (fun x => decide (v < x)) b hw
      simp only [h, decide_eq_true_eq] at this
      exact this
    · intro hpos
      have hlt : i - 1 < b.findIdx (fun x => decide (v < x)) := by omega
      have := List.not_of_lt_findIdx hlt
      simpa using this
  · rintro ⟨h1, h2⟩
    rcases Nat.eq_or_lt_of_le hi with e | l
    · rw [e, List.findIdx_eq_length]
      intro x hx
      obtain ⟨j, hj, rfl⟩ := List.getElem_of_mem hx
      have hpos : 0 < i := by omega
      have := hmono j (i - 1) (by omega) (by omega) hj
      simpa using le_trans this (h2 hpos)
    · rw [List.findIdx_eq l]
      refine ⟨by simpa using h1 l, ?_⟩
      intro j hji
      have := hmono j (i - 1) (by omega) (by omega) (by omega)
      simpa using le_trans this (h2 (by omega))

/-- Looking a name up after one entry was appended to the registry. -/
theorem lookup_append_entry (ms : List (String × graphiteMetric)) (name other : String)
    (v : graphiteMetric) :
    (ms ++ [(name, v)]).lookup other =
      if other = name then (ms.lookup other).or (some v) else ms.lookup other := by
  rw [List.lookup_append]
  by_cases h : other = name
  · simp [h, List.lookup_cons]
  · have hb : (other == name) = false := by simpa using h
    simp [h, hb, List.lookup_cons]

theorem length_pos_iff_ne_empty (p : String) : p.length > 0 ↔ p ≠ "" := by
  obtain ⟨l⟩ := p
  cases l with
  | nil => simp
  | cons c cs =>
    simp only [String.length_mk, List.length_cons, gt_iff_lt, Nat.zero_lt_succ, true_iff]
    intro h
    have := congrArg String.data h
    simp at this

/-- The last character of a non-empty string, as `NewGraphite` reads it. -/
theorem back_eq_dot_iff (p : String) (hne : p ≠ "") :
    p.back = '.' ↔ p.data.getLast? = some '.' := by
  rw [String.back_eq]
  obtain ⟨l⟩ := p
  cases l with
  | nil => exact absurd rfl hne
  | cons c cs =>
    simp only [List.getLastD_eq_getLast?, List.getLast?_cons, Option.getD_some,
      Option.some.injEq]

/-- The prefix that an enabled `NewGraphite` stores. -/
theorem NewGraphite_enabled (host : String) (port : Fin 65536) (pfx : String)
    (flushInterval : Int) (h : Second ≤ flushInterval) :
    ∃ g, NewGraphite host port pfx flushInterval false = (some g, none) ∧
      g.pfx = if pfx.length > 0 then (if pfx.back ≠ '.' then pfx ++ "." else pfx) else "" := by
  have h' : ¬ flushInterval < Second := not_lt.mpr h
  refine ⟨{ newGraphiteStruct with
      host := host ++ ":" ++ toString port.val,
      conn := some (newConnection (host ++ ":" ++ toString port.val)),
      pfx := if pfx.length > 0 then (if pfx.back ≠ '.' then pfx ++ "." else pfx) else "",
      flushInterval := flushInterval,
      metrics := some [],
      valuesChan := some [] }, ?_, rfl⟩
  simp only [NewGraphite, h', if_false, Bool.false_eq_true]

/-- The call of `TestRegisterMetric` does return `testGraphite`. -/
theorem NewGraphite_testGraphite :
    NewGraphite "localhost" 0 "prefix" (2 * Second) false = (some testGraphite, none) := by
  decide

/-- On a constructed, disabled Graphite every public call returns nil and changes
nothing. -/
theorem Call_run_disabled (c : Call) (g : Graphite) (ms : List (String × graphiteMetric))
    (hm : g.metrics = some ms) (hd : g.disabled = true) :
    c.run (some g) = .returned (some g) none false := by
  cases c <;>
    simp [Call.run, Graphite.RegisterCounter, Graphite.RegisterAverage,
      Graphite.RegisterMaximum, Graphite.RegisterMinimum, Graphite.RegisterGauge,
      Graphite.RegisterHist, Graphite.registerMetric, Graphite.Start, Graphite.Stop,
      Graphite.HandleValue, hm, hd]

theorem runCalls_disabled (calls : List Call) (g : Graphite)
    (ms : List (String × graphiteMetric)) (hm : g.metrics = some ms) (hd : g.disabled = true) :
    runCalls (some g) calls = calls.map (fun _ => CallResult.returned (some g) none false) := by
  induction calls with
  | nil => rfl
  | cons c rest ih =>
    simp only [runCalls, List.map_cons, Call_run_disabled c g ms hm hd, ih]

theorem System_run_disabled (calls : List Call) (g : Graphite)
    (ms : List (String × graphiteMetric)) (hm : g.metrics = some ms) (hd : g.disabled = true)
    (loop : Bool) (io : List IOEvent) :
    System.run ⟨some g, loop, io⟩ (calls.map Action.call) = some ⟨some g, loop, io⟩ := by
  induction calls with
  | nil => rfl
  | cons c rest ih =>
    simp only [System.run, System.step, List.map_cons, Call_run_disabled c g ms hm hd,
      Bool.or_false]
    exact ih

theorem setMetric_keys (ms : List (String × graphiteMetric)) (name : String)
    (v : graphiteMetric) : (setMetric ms name v).map Prod.fst = ms.map Prod.fst := by
  induction ms with
  | nil => rfl
  | cons e rest ih =>
    simp only [setMetric, List.map_cons] at ih ⊢
    rw [ih]
    split <;> rfl

theorem fillLoop_keys (pfx ct : String) (visit : List String)
    (st : List (String × graphiteMetric) × String) :
    (fillLoop pfx ct visit st).1.map Prod.fst = st.1.map Prod.fst := by
  induction visit generalizing st with
  | nil => rfl
  | cons name rest ih =>
    unfold fillLoop
    split
    · exact ih st
    · rw [ih, setMetric_keys]

/-- What `registerMetric` leaves alone on a non-nil receiver: the flags, and every name
already registered. -/
theorem registerMetric_frame (g : Graphite) (name : String) (kind : metricType) (norm : Bool)
    (ranges : List ℚ) :
    ∃ g', (Graphite.registerMetric (some g) name kind norm ranges).1 = some g' ∧
      g'.started = g.started ∧ g'.disabled = g.disabled ∧
      g'.metrics.isSome = g.metrics.isSome ∧
      registeredNames (some g) <+: registeredNames (some g') := by
  cases hm : g.metrics with
  | none =>
    exact ⟨g, by simp [Graphite.registerMetric, hm], rfl, rfl, by rw [hm], List.prefix_refl _⟩
  | some ms =>
    by_cases hd : g.disabled = true
    · exact ⟨g, by simp [Graphite.registerMetric, hm, hd], rfl, rfl, by rw [hm], List.prefix_refl _⟩
    · by_cases hl : (ms.lookup name).isSome = true
      · exact ⟨g, by simp [Graphite.registerMetric, hm, hd, hl], rfl, rfl, by rw [hm],
          List.prefix_refl _⟩
      · refine ⟨{ g with metrics := some (ms ++ [(name,
            { mType := kind, value := 0, counter := 0, normalizeByInterval := norm,
              flushInterval := g.flushInterval, histRanges := ranges,
              hist := List.replicate (ranges.length + 1) 0 })]) }, ?_, rfl, rfl, ?_, ?_⟩
        · simp only [Graphite.registerMetric, hm, hd, hl, if_false, Bool.false_eq_true]
        · rfl
        · simp only [registeredNames, hm, Option.getD_some, List.map_append]
          exact List.prefix_append _ _

/-- What a public call that returns leaves alone: a nil receiver stays nil; on a non-nil
receiver `started` is never cleared, `disabled` and the presence of the registry are kept,
every registered name stays, and only a `Register*` call can change the registry. -/
theorem Call_run_frame (c : Call) (gr gr' : Option Graphite) (err : Option Errorf)
    (spawn : Bool) (h : c.run gr = .returned gr' err spawn) :
    (gr = none → gr' = none) ∧
    ∀ g, gr = some g → ∃ g', gr' = some g' ∧
      (g.started = true → g'.started = true) ∧ g'.disabled = g.disabled ∧
      g'.metrics.isSome = g.metrics.isSome ∧
      registeredNames (some g) <+: registeredNames (some g') ∧
      (c.isRegister = false → g'.metrics = g.metrics) := by
  have hreg : ∀ (name : String) (kind : metricType) (norm : Bool) (ranges : List ℚ),
      gr' = (Graphite.registerMetric gr name kind norm ranges).1 →
      (gr = none → gr' = none) ∧
      ∀ g, gr = some g → ∃ g', gr' = some g' ∧
        (g.started = true → g'.started = true) ∧ g'.disabled = g.disabled ∧
        g'.metrics.isSome = g.metrics.isSome ∧
        registeredNames (some g) <+: registeredNames (some g') ∧
        (true = false → g'.metrics = g.metrics) := by
    intro name kind norm ranges hg
    constructor
    · intro h0
      rw [hg, h0]
      rfl
    · intro g h0
      obtain ⟨g', h1, h2, h3, h4, h5⟩ := registerMetric_frame g name kind norm ranges
      refine ⟨g', by rw [hg, h0, h1], fun hs => by rw [h2]; exact hs, h3, h4, h5, ?_⟩
      intro hf
      cases hf
  have hsame : ∀ g g' : Graphite, g'.metrics = g.metrics → g'.disabled = g.disabled →
      (g.started = true → g'.started = true) →
      ∃ g'', some g' = some g'' ∧
        (g.started = true → g''.started = true) ∧ g''.disabled = g.disabled ∧
        g''.metrics.isSome = g.metrics.isSome ∧
        registeredNames (some g) <+: registeredNames (some g'') ∧
        (false = false → g''.metrics = g.metrics) := by
    intro g g' hm hd hs
    refine ⟨g', rfl, hs, hd, by rw [hm], ?_, fun _ => hm⟩
    simp only [registeredNames, hm]
    exact List.prefix_refl _
  cases c with
  | RegisterCounter name norm =>
    simp only [Call.run, Graphite.RegisterCounter, CallResult.returned.injEq] at h
    exact hreg name _ norm _ h.1.symm
  | RegisterAverage name =>
    simp only [Call.run, Graphite.RegisterAverage, CallResult.returned.injEq] at h
    exact hreg name _ _ _ h.1.symm
  | RegisterMaximum name =>
    simp only [Call.run, Graphite.RegisterMaximum, CallResult.returned.injEq] at h
    exact hreg name _ _ _ h.1.symm
  | RegisterMinimum name =>
    simp only [Call.run, Graphite.RegisterMinimum, CallResult.returned.injEq] at h
    exact hreg name _ _ _ h.1.symm
  | RegisterGauge name =>
    simp only [Call.run, Graphite.RegisterGauge, CallResult.returned.injEq] at h
    exact hreg name _ _ _ h.1.symm
  | RegisterHist name ranges =>
    simp only [Call.run, Graphite.RegisterHist, CallResult.returned.injEq] at h
    exact hreg name _ _ ranges h.1.symm
  | Start =>
    simp only [Call.run] at h
    constructor
    · intro h0
      subst h0
      simp only [Graphite.Start, CallResult.returned.injEq] at h
      exact h.1.symm
    · intro g h0
      subst h0
      unfold Graphite.Start at h
      simp only at h
      split at h
      · cases h
        exact hsame g g rfl rfl id
      · split at h
        · cases h
          exact hsame g g rfl rfl id
        · split at h
          · cases h
            exact hsame g g rfl rfl id
          · split at h
            · cases h
            · cases h
              exact hsame g _ rfl rfl (fun _ => rfl)
  | Stop =>
    simp only [Call.run] at h
    constructor
    · intro h0
      subst h0
      simp only [Graphite.Stop, CallResult.returned.injEq] at h
      exact h.1.symm
    · intro g h0
      subst h0
      unfold Graphite.Stop at h
      simp only at h
      split at h
      · cases h
        exact hsame g g rfl rfl id
      · split at h
        · cases h
          exact hsame g g rfl rfl id
        · split at h
          · cases h
            exact hsame g g rfl rfl id
          · split at h
            · cases h
              exact hsame g _ rfl rfl id
            · cases h
  | HandleValue name value =>
    simp only [Call.run] at h
    constructor
    · intro h0
      subst h0
      simp only [Graphite.HandleValue, CallResult.returned.injEq] at h
      exact h.1.symm
    · intro g h0
      subst h0
      unfold Graphite.HandleValue at h
      simp only at h
      split at h
      · cases h
        exact hsame g g rfl rfl id
      · split at h
        · cases h
          exact hsame g g rfl rfl id
        · split at h
          · cases h
            exact hsame g g rfl rfl id
          · split at h
            · cases h
              exact hsame g g rfl rfl id
            · split at h
              · cases h
              · split at h
                · cases h
                  exact hsame g _ rfl rfl id
                · cases h

theorem fillBuffer_names (g : Graphite) (t : Int) (visit : List String) :
    registeredNames (some (g.fillBuffer t visit)) = registeredNames (some g) := by
  cases hm : g.metrics with
  | none => simp [registeredNames, Graphite.fillBuffer, hm]
  | some ms =>
    simp only [registeredNames, Graphite.fillBuffer, hm, Option.map_some', Option.getD_some]
    exact fillLoop_keys _ _ _ _

/-- What `sendMetrics` changes besides the metrics and the buffer that `fillBuffer` leaves:
the connection, and the buffer when the write succeeds. -/
theorem sendMetrics_frame (g : Graphite) (t : Int) (visit : List String) (net : Network)
    (r : Graphite × List IOEvent) (h : g.sendMetrics t visit net = some r) :
    r.1.metrics = (g.fillBuffer t visit).metrics ∧ r.1.started = g.started ∧
      r.1.disabled = g.disabled ∧ r.1.valuesChan = g.valuesChan ∧
      r.1.stopChan = g.stopChan ∧ r.1.ticker = g.ticker := by
  unfold Graphite.sendMetrics at h
  split at h
  · split at h
    · cases h
    · split at h <;> (cases h; exact ⟨rfl, rfl, rfl, rfl, rfl, rfl⟩)
  · cases h
    exact ⟨rfl, rfl, rfl, rfl, rfl, rfl⟩

theorem applyValue_frame (g g' : Graphite) (name : String) (value : ℚ)
    (h : g.applyValue name value = some g') :
    registeredNames (some g') = registeredNames (some g) ∧ g'.started = g.started ∧
      g'.disabled = g.disabled ∧ g'.metrics.isSome = g.metrics.isSome ∧
      g'.valuesChan = g.valuesChan ∧ g'.stopChan = g.stopChan ∧ g'.buffer = g.buffer := by
  unfold Graphite.applyValue at h
  split at h
  · cases h
  · split at h
    · cases h
    · cases h
      refine ⟨?_, rfl, rfl, ?_, rfl, rfl, rfl⟩
      · cases hm : g.metrics with
        | none => simp [registeredNames, hm]
        | some ms =>
          simp only [registeredNames, hm, Option.map_some', Option.getD_some]
          exact setMetric_keys _ _ _
      · cases hm : g.metrics <;> rfl

/-- What an iteration of `handleChans` leaves alone: the flags, the presence of the
registry and the registered names; and when the function returns, the whole Graphite. -/
theorem handleChans_frame (g : Graphite) (e : LoopEvent) :
    (∀ g' io, g.handleChans e = .continues g' io →
      registeredNames (some g') = registeredNames (some g) ∧ g'.started = g.started ∧
        g'.disabled = g.disabled ∧ g'.metrics.isSome = g.metrics.isSome) ∧
    (∀ g', g.handleChans e = .returns g' → g' = g) := by
  cases e with
  | tick t visit net =>
    constructor
    · intro g' io h
      unfold Graphite.handleChans at h
      simp only at h
      split at h
      · cases h
      · split at h
        · cases h
        · next r hr =>
          cases h
          obtain ⟨h1, h2, h3, -, -, -⟩ := sendMetrics_frame g t visit net r hr
          refine ⟨?_, h2, h3, ?_⟩
          · rw [← fillBuffer_names g t visit]
            simp only [registeredNames, h1]
          · rw [h1]
            cases hm : g.metrics <;> simp [Graphite.fillBuffer, hm]
    · intro g' h
      unfold Graphite.handleChans at h
      simp only at h
      split at h
      · cases h
      · split at h <;> cases h
  | value =>
    constructor
    · intro g' io h
      unfold Graphite.handleChans at h
      simp only at h
      split at h
      · split at h
        · cases h
        · next g1 hg1 =>
          cases h
          obtain ⟨h1, h2, h3, h4, -, -, -⟩ := applyValue_frame g g1 _ _ hg1
          exact ⟨h1, h2, h3, h4⟩
      · cases h
    · intro g' h
      unfold Graphite.handleChans at h
      simp only at h
      split at h
      · split at h <;> cases h
      · cases h
  | stop =>
    constructor
    · intro g' io h
      unfold Graphite.handleChans at h
      simp only at h
      split at h <;> cases h
    · intro g' h
      unfold Graphite.handleChans at h
      simp only at h
      split at h
      · cases h
        rfl
      · cases h

/-- What a step of the program leaves alone: a nil Graphite stays nil; a started Graphite
stays started, every registered name stays, and the names change only in a `Register*`
call. -/
theorem System_step_frame (s s' : System) (a : Action) (h : s.step a = some s') :
    (s.gr = none → s'.gr = none) ∧
    ∀ g, s.gr = some g → ∃ g', s'.gr = some g' ∧ (Started g → Started g') ∧
      registeredNames (some g) <+: registeredNames (some g') ∧
      (a.isRegister = false → registeredNames (some g') = registeredNames (some g)) := by
  cases a with
  | call c =>
    unfold System.step at h
    simp only at h
    split at h
    · next gr' err spawn hr =>
      cases h
      obtain ⟨f0, f1⟩ := Call_run_frame c s.gr gr' err spawn hr
      refine ⟨f0, ?_⟩
      intro g hg
      obtain ⟨g', h1, h2, h3, h4, h5, h6⟩ := f1 g hg
      refine ⟨g', h1, ?_, h5, ?_⟩
      · rintro ⟨a1, a2, a3⟩
        exact ⟨by rw [h4]; exact a1, by rw [h3]; exact a2, h2 a3⟩
      · intro hreg
        simp only [registeredNames, h6 hreg]
    · cases h
  | loop e =>
    unfold System.step at h
    simp only at h
    split at h
    · split at h
      · cases h
      · next g hg =>
        obtain ⟨f1, f2⟩ := handleChans_frame g e
        split at h
        · next g' io hr =>
          cases h
          obtain ⟨h1, h2, h3, h4⟩ := f1 g' io hr
          refine ⟨fun h0 => (by rw [hg] at h0; cases h0), ?_⟩
          intro g0 hg0
          rw [hg] at hg0
          cases hg0
          refine ⟨g', rfl, ?_, by rw [h1], fun _ => h1⟩
          rintro ⟨a1, a2, a3⟩
          exact ⟨by rw [h4]; exact a1, by rw [h3]; exact a2, by rw [h2]; exact a3⟩
        · next g' hr =>
          cases h
          have := f2 g' hr
          subst this
          refine ⟨fun h0 => (by rw [hg] at h0; cases h0), ?_⟩
          intro g0 hg0
          rw [hg] at hg0
          cases hg0
          exact ⟨g', rfl, id, List.prefix_refl _, fun _ => rfl⟩
        · cases h
    · cases h

/-- The frame of one step, carried along a sequence of steps. -/
theorem System_run_frame (acts : List Action) (s s' : System) (h : s.run acts = some s') :
    (s.gr = none → s'.gr = none) ∧
    ∀ g, s.gr = some g → ∃ g', s'.gr = some g' ∧ (Started g → Started g') ∧
      registeredNames (some g) <+: registeredNames (some g') ∧
      ((∀ a ∈ acts, a.isRegister = false) →
        registeredNames (some g') = registeredNames (some g)) := by
  induction acts generalizing s with
  | nil =>
    simp only [System.run, Option.some.injEq] at h
    subst h
    exact ⟨id, fun g hg => ⟨g, hg, id, List.prefix_refl _, fun _ => rfl⟩⟩
  | cons a rest ih =>
    unfold System.run at h
    cases hs : s.step a with
    | none => simp [hs] at h
    | some s1 =>
      simp only [hs] at h
      obtain ⟨a0, a1⟩ := System_step_frame s s1 a hs
      obtain ⟨b0, b1⟩ := ih s1 h
      refine ⟨fun h0 => b0 (a0 h0), ?_⟩
      intro g hg
      obtain ⟨g1, c1, c2, c3, c4⟩ := a1 g hg
      obtain ⟨g', d1, d2, d3, d4⟩ := b1 g1 c1
      refine ⟨g', d1, fun hst => d2 (c2 hst), c3.trans d3, ?_⟩
      intro hall
      rw [d4 (fun x hx => hall x (List.mem_cons_of_mem _ hx)),
        c4 (hall a (List.mem_cons_self _ _))]

/-- On a started Graphite `Start` returns an error and changes nothing. -/
theorem Start_of_Started (g : Graphite) (h : Started g) :
    Graphite.Start (some g) = .returned (some g) (some ⟨"Graphite already started", []⟩) false := by
  obtain ⟨h1, h2, h3⟩ := h
  cases hm : g.metrics with
  | none => rw [hm] at h1; cases h1
  | some ms => simp [Graphite.Start, hm, h2, h3]

/-- On a started Graphite `HandleValue` for a registered name queues the sample while the
queue has room. -/
theorem HandleValue_of_Started (g : Graphite) (h : Started g) (name : String) (value : ℚ)
    (m : graphiteMetric) (queue : List graphiteValue)
    (hl : (g.metrics.getD []).lookup name = some m) (hq : g.valuesChan = some queue)
    (hroom : queue.length < valuesChanSize) :
    Graphite.HandleValue (some g) name value =
      .returned (some { g with valuesChan := some (queue ++ [⟨name, value⟩]) }) none false := by
  obtain ⟨h1, h2, h3⟩ := h
  cases hm : g.metrics with
  | none => rw [hm] at h1; cases h1
  | some ms =>
    rw [hm] at hl
    simp only [Option.getD_some] at hl
    simp [Graphite.HandleValue, hm, h2, h3, hl, hq, hroom]

/-- A `Stop` that returns nil on an enabled Graphite was called on a started Graphite and
leaves it started. -/
theorem Started_of_Stop (g g1 : Graphite) (hen : g.disabled = false)
    (h : Graphite.Stop (some g) = .returned (some g1) none false) : Started g1 := by
  unfold Graphite.Stop at h
  simp only at h
  split at h
  · cases h
  · next ms hm =>
    split at h
    · next hd => rw [hen] at hd; cases hd
    · split at h
      · cases h
      · next hs =>
        split at h
        · cases h
          exact ⟨by simp [hm], hen, by simpa using hs⟩
        · cases h

/-- A `Start` that returns nil after starting the loop leaves a started Graphite. -/
theorem Started_of_Start (g g1 : Graphite) (hen : g.disabled = false)
    (h : Graphite.Start (some g) = .returned (some g1) none true) : Started g1 := by
  unfold Graphite.Start at h
  simp only at h
  split at h
  · cases h
  · next ms hm =>
    split at h
    · cases h
    · split at h
      · cases h
      · split at h
        · cases h
        · cases h
          exact ⟨by simp [hm], hen, rfl⟩

theorem TestHandleValue_calls :
    runCalls (some testGraphite) [.Start, .RegisterCounter "counter" true, .Stop] =
      [.returned (some { testGraphite with
          stopChan := some false, ticker := some (2 * Second), started := true }) none true,
        .returned (some startedGraphite) none false,
        .returned (some stoppedGraphite) none false] := by
  decide!

theorem lookup_setMetric (ms : List (String × graphiteMetric)) (name other : String)
    (v : graphiteMetric) :
    (setMetric ms name v).lookup other =
      if other = name then (ms.lookup other).map (fun _ => v) else ms.lookup other := by
  induction ms with
  | nil => simp [setMetric]
  | cons e rest ih =>
    obtain ⟨k, m⟩ := e
    simp only [setMetric, List.map_cons] at ih ⊢
    by_cases hk : k = name
    · subst hk
      by_cases ho : other = k
      · subst ho
        simp [List.lookup_cons]
      · have hb : (other == k) = false := by simpa using ho
        simp only [if_true, List.lookup_cons, hb, ih, if_neg ho]
    · by_cases ho : other = k
      · subst ho
        simp [List.lookup_cons, hk]
      · have hb : (other == k) = false := by simpa using ho
        simp only [if_neg hk, List.lookup_cons, hb, ih]

theorem joinLines_append (xs ys : List String) :
    joinLines (xs ++ ys) = joinLines xs ++ joinLines ys := by
  induction xs with
  | nil => simp [joinLines]
  | cons x rest ih => simp [joinLines, ih, String.append_assoc]

theorem histLines_eq (pfx name ct : String) (hist : List Int) (k : Nat) :
    histLines pfx name ct hist k = joinLines ((List.range hist.length).map fun i =>
      pfx ++ name ++ "." ++ Itoa ((k + i : Nat) : Int) ++ " " ++ Itoa (hist.getD i 0) ++ " " ++
        ct ++ "\n") := by
  induction hist generalizing k with
  | nil => rfl
  | cons v rest ih =>
    rw [List.length_cons, List.range_succ_eq_map, List.map_cons, List.map_map]
    simp only [histLines, joinLines, ih (k + 1)]
    congr 1
    congr 1
    apply List.map_congr_left
    intro i _
    simp only [Function.comp, List.getD_cons_succ]
    have e : k + 1 + i = k + (i + 1) := by omega
    rw [e]

/-- The loop body of `fillBuffer` against the lines owed: a metric with samples is reset
and its lines are written; any other metric is left as it is and nothing is written. -/
theorem fillEntry_eq (pfx : String) (t : Int) (name : String) (m : graphiteMetric) :
    fillEntry pfx (Itoa t) name m =
      (if m.counter > 0 then m.reset else m, joinLines (encodedLines pfx t name m)) := by
  unfold fillEntry encodedLines
  by_cases hk : m.mType = .metricHist
  · by_cases hc : m.counter > 0
    · simp only [hk, ne_eq, not_true_eq_false, if_false, graphiteMetric.getHist, hc, if_true]
      rw [histLines_eq]
      simp
    · simp [hk, graphiteMetric.getHist, hc, joinLines]
  · by_cases hc : m.counter > 0
    · simp [hk, get_snd, hc, joinLines]
    · simp [hk, get_snd, hc, joinLines]

/-- The buffer that `fillLoop` starts from is a prefix of its result and does not affect
the metrics. -/
theorem fillLoop_buffer (pfx ct : String) (visit : List String)
    (ms : List (String × graphiteMetric)) (buf : String) :
    fillLoop pfx ct visit (ms, buf) =
      ((fillLoop pfx ct visit (ms, "")).1, buf ++ (fillLoop pfx ct visit (ms, "")).2) := by
  induction visit generalizing ms buf with
  | nil => simp [fillLoop]
  | cons name rest ih =>
    unfold fillLoop
    simp only
    cases hl : ms.lookup name with
    | none => exact ih ms buf
    | some v =>
      simp only
      rw [ih _ (buf ++ _), ih _ ("" ++ _)]
      simp [String.append_assoc]

/-- The loop of `fillBuffer` over distinct names: the text written is the text owed, in
the order of the visit, and every visited metric is as its loop body leaves it. -/
theorem fillLoop_spec (pfx : String) (t : Int) (visit : List String) (hv : visit.Nodup)
    (ms : List (String × graphiteMetric)) (buf : String) :
    (fillLoop pfx (Itoa t) visit (ms, buf)).2 = buf ++ encodedText pfx t ms visit ∧
    ∀ name, (fillLoop pfx (Itoa t) visit (ms, buf)).1.lookup name =
      if name ∈ visit then (ms.lookup name).map (fun m => if m.counter > 0 then m.reset else m)
      else ms.lookup name := by
  induction visit generalizing ms buf with
  | nil => simp [fillLoop, encodedText, joinLines]
  | cons n rest ih =>
    obtain ⟨hn, hrest⟩ := List.nodup_cons.mp hv
    unfold fillLoop
    simp only
    cases hl : ms.lookup n with
    | none =>
      simp only
      obtain ⟨i1, i2⟩ := ih hrest ms buf
      constructor
      · rw [i1]
        simp [encodedText, joinLines, hl]
      · intro name
        rw [i2 name]
        by_cases hnm : name = n
        · subst hnm
          simp [hn, hl]
        · simp [hnm]
    | some v =>
      simp only
      obtain ⟨i1, i2⟩ := ih hrest (setMetric ms n (fillEntry pfx (Itoa t) n v).1)
        (buf ++ (fillEntry pfx (Itoa t) n v).2)
      have hsame : ∀ x ∈ rest,
          (setMetric ms n (fillEntry pfx (Itoa t) n v).1).lookup x = ms.lookup x := by
        intro x hx
        rw [lookup_setMetric, if_neg]
        intro hxn
        exact hn (hxn ▸ hx)
      constructor
      · rw [i1]
        have htext : encodedText pfx t (setMetric ms n (fillEntry pfx (Itoa t) n v).1) rest =
            encodedText pfx t ms rest := by
          unfold encodedText
          congr 1
          apply List.map_congr_left
          intro x hx
          rw [hsame x hx]
        rw [htext]
        simp only [encodedText, List.map_cons, joinLines, hl, fillEntry_eq,
          String.append_assoc]
      · intro name
        rw [i2 name, lookup_setMetric]
        by_cases hnm : name = n
        · subst hnm
          simp [hn, hl, fillEntry_eq]
        · simp [hnm]

/-- The buffer after `fillBuffer`, for a visit of distinct names: what was kept of the
pending buffer, then the text owed. -/
theorem fillBuffer_buffer (g : Graphite) (t : Int) (visit : List String) (hv : visit.Nodup) :
    (g.fillBuffer t visit).buffer =
      (if g.buffer.utf8ByteSize > maxBufSize then "" else g.buffer) ++
        encodedText g.pfx t (g.metrics.getD []) visit :=
  (fillLoop_spec g.pfx t visit hv _ _).1

/-- The metrics after `fillBuffer`, for a visit of distinct names. -/
theorem fillBuffer_lookup (g : Graphite) (t : Int) (visit : List String) (hv : visit.Nodup)
    (name : String) :
    ((g.fillBuffer t visit).metrics.getD []).lookup name =
      if name ∈ visit then
        ((g.metrics.getD []).lookup name).map (fun m => if m.counter > 0 then m.reset else m)
      else (g.metrics.getD []).lookup name := by
  cases hm : g.metrics with
  | none =>
    simp [Graphite.fillBuffer, hm]
  | some ms =>
    simp only [Graphite.fillBuffer, hm, Option.map_some', Option.getD_some]
    exact (fillLoop_spec g.pfx t visit hv ms _).2 name

theorem TestFillBuffer_calls :
    ((((Graphite.RegisterMinimum (NewGraphite "" 0 "prefix" (2 * Second) false).1
        "minimum").1.bind (·.applyValue "minimum" 1)).bind fun g =>
      (Graphite.RegisterGauge (some g) "gauge").1.bind (·.applyValue "gauge" 8)).bind fun g =>
      (Graphite.RegisterHist (some g) "hist" [10, 20, 30]).1.bind (·.applyValue "hist" 12)) =
      some filledGraphite := by
  decide!

theorem utf8ByteSize_append (a b : String) :
    (a ++ b).utf8ByteSize = a.utf8ByteSize + b.utf8ByteSize := by
  obtain ⟨x⟩ := a
  obtain ⟨y⟩ := b
  show String.utf8ByteSize ⟨x ++ y⟩ = _
  simp only [String.utf8ByteSize_mk, String.utf8Len_append]

/-- The buffer after `fillBuffer` is what was kept of the pending buffer followed by what
the call writes on an empty buffer, and the metrics do not depend on the pending buffer. -/
theorem fillBuffer_split (g : Graphite) (t : Int) (visit : List String) :
    (g.fillBuffer t visit).buffer =
        (if g.buffer.utf8ByteSize > maxBufSize then "" else g.buffer) ++
          ({ g with buffer := "" }.fillBuffer t visit).buffer ∧
      (g.fillBuffer t visit).metrics = ({ g with buffer := "" }.fillBuffer t visit).metrics := by
  have hz : ¬ ("" : String).utf8ByteSize > maxBufSize := by decide
  constructor
  · simp only [Graphite.fillBuffer, hz, if_false]
    rw [fillLoop_buffer]
  · simp only [Graphite.fillBuffer, hz, if_false]
    cases g.metrics with
    | none => rfl
    | some ms =>
      simp only [Option.map_some']
      rw [fillLoop_buffer]

theorem histGraphite_applyValue (b : String) :
    ({ histGraphite with buffer := b } : Graphite).applyValue "hist" 12 =
      some { sampledGraphite with buffer := b } := by
  have h0 : histGraphite.applyValue "hist" 12 = some sampledGraphite := by decide!
  simp only [Graphite.applyValue] at h0 ⊢
  revert h0
  split
  · intro h0; cases h0
  · split
    · intro h0; cases h0
    · intro h0
      simp only [Option.some.injEq] at h0 ⊢
      rw [← h0]

theorem histCycles_succ (n : Nat) (g : Graphite) :
    histCycles (n + 1) g = (histCycles n g).bind histCycle := rfl

theorem histCycle_eq (b : String) :
    histCycle { histGraphite with buffer := b } = some { histGraphite with
      buffer := (if b.utf8ByteSize > maxBufSize then "" else b) ++ histBlock } := by
  have h1 := histGraphite_applyValue b
  have h2 : ({ sampledGraphite with buffer := "" } : Graphite).fillBuffer 946782245 ["hist"] =
      { histGraphite with buffer := histBlock } := by decide!
  obtain ⟨s1, s2⟩ := fillBuffer_split { sampledGraphite with buffer := b } 946782245 ["hist"]
  simp only [histCycle, h1, Option.map_some', Option.some.injEq]
  have e : ({ ({ sampledGraphite with buffer := b } : Graphite) with buffer := "" } : Graphite)
      = { sampledGraphite with buffer := "" } := rfl
  rw [e, h2] at s1 s2
  have hrest : ∀ x y : Graphite, x.buffer = y.buffer → x.metrics = y.metrics →
      x.host = y.host → x.pfx = y.pfx → x.flushInterval = y.flushInterval → x.conn = y.conn →
      x.ticker = y.ticker → x.valuesChan = y.valuesChan → x.stopChan = y.stopChan →
      x.disabled = y.disabled → x.started = y.started → x = y := by
    intro x y
    cases x
    cases y
    simp only [Graphite.mk.injEq]
    intro a1 a2 a3 a4 a5 a6 a7 a8 a9 a10 a11
    exact ⟨a3, a4, a5, a2, a6, a7, a8, a9, a1, a10, a11⟩
  exact hrest _ _ s1 s2 rfl rfl rfl rfl rfl rfl rfl rfl rfl

/-- While the buffer stays within the cap, `n` cycles of `TestBufferExceed` leave `104 n`
bytes in it. -/
theorem histCycles_size (n : Nat) (hn : n ≤ 50413) :
    ∃ b, histCycles n histGraphite = some { histGraphite with buffer := b } ∧
      b.utf8ByteSize = 104 * n := by
  induction n with
  | zero => exact ⟨"", rfl, rfl⟩
  | succ k ih =>
    obtain ⟨b, h1, h2⟩ := ih (by omega)
    have hcap : ¬ b.utf8ByteSize > maxBufSize := by
      rw [h2]
      unfold maxBufSize
      omega
    refine ⟨b ++ histBlock, ?_, ?_⟩
    · rw [histCycles_succ, h1, Option.some_bind, histCycle_eq, if_neg hcap]
    · rw [utf8ByteSize_append, h2]
      have : histBlock.utf8ByteSize = 104 := by decide
      rw [this]
      omega

theorem tcpWrite_events (c : tcpConnection) (p : String) (net : Network) :
    ∀ e ∈ (c.Write p net).2.2 ++ (c.Write p net).1.Close.2, e.isWrite = false := by
  intro e he
  unfold tcpConnection.Write tcpConnection.Close tcpConnection.connect at he
  cases hc : c.conn <;> cases hd : net.dialOk <;> cases hw : net.writeOk <;>
    simp [hc, hd, hw] at he <;>
    (first
      | (rcases he with h | h | h <;> (subst h; rfl))
      | (rcases he with h | h <;> (subst h; rfl))
      | (subst he; rfl))

theorem tcpClose_conn (c : tcpConnection) : c.Close.1.conn = false := by
  unfold tcpConnection.Close
  cases hc : c.conn <;> simp [hc]

/-- The method `sendMetrics` on a Graphite whose connection is not nil. -/
theorem sendMetrics_of_conn (g : Graphite) (t : Int) (visit : List String) (net : Network)
    (c : tcpConnection) (hc : g.conn = some c) :
    g.sendMetrics t visit net = some (
      if (g.fillBuffer t visit).buffer.utf8ByteSize > 0 then
        if (c.Write (g.fillBuffer t visit).buffer net).2.1 = true then
          ({ g.fillBuffer t visit with
              conn := some (c.Write (g.fillBuffer t visit).buffer net).1.Close.1 },
            IOEvent.write (g.fillBuffer t visit).buffer ::
              ((c.Write (g.fillBuffer t visit).buffer net).2.2 ++
                (c.Write (g.fillBuffer t visit).buffer net).1.Close.2))
        else
          ({ g.fillBuffer t visit with
              conn := some (c.Write (g.fillBuffer t visit).buffer net).1,
              buffer := "" },
            IOEvent.write (g.fillBuffer t visit).buffer ::
              (c.Write (g.fillBuffer t visit).buffer net).2.2)
      else (g.fillBuffer t visit, [])) := by
  have hfc : (g.fillBuffer t visit).conn = some c := hc
  unfold Graphite.sendMetrics
  simp only [hfc]
  split
  · split <;> rfl
  · rfl

theorem getD_set_ne (l : List Int) (b i : Nat) (x : Int) (h : i ≠ b) :
    (l.set b x).getD i 0 = l.getD i 0 := by
  rw [List.getD_eq_getElem?_getD, List.getD_eq_getElem?_getD, List.getElem?_set_ne (Ne.symm h)]

theorem getD_set_self (l : List Int) (b : Nat) (x : Int) (h : b < l.length) :
    (l.set b x).getD b 0 = x := by
  rw [List.getD_eq_getElem?_getD, List.getElem?_set_self h]
  rfl

/-- The bucket of a value is the least index whose boundary exceeds the value, and the
number of boundaries when none does; the boundaries need not be sorted. -/
theorem bucketIndex_least (ranges : List ℚ) (v : ℚ) :
    (∀ h : bucketIndex ranges v < ranges.length, v < ranges[bucketIndex ranges v]) ∧
    (∀ i (h : i < ranges.length), i < bucketIndex ranges v → ¬ v < ranges[i]) ∧
    ((∀ i (h : i < ranges.length), ¬ v < ranges[i]) → bucketIndex ranges v = ranges.length) := by
  rw [bucketIndex_eq_findIdx]
  refine ⟨fun h => ?_, fun i h hi => ?_, fun hall => ?_⟩
  · have := @List.findIdx_getElem _ (fun b => decide (v < b)) ranges h
    simpa using this
  · have := @List.not_of_lt_findIdx _ (fun b => decide (v < b)) ranges i hi
    simpa using this
  · apply le_antisymm (List.findIdx_le_length _)
    by_contra hlt
    push_neg at hlt
    have := @List.findIdx_getElem _ (fun b => decide (v < b)) ranges hlt
    exact hall _ hlt (by simpa using this)

/-- A metric found by a lookup is an entry of the registry. -/
theorem mem_of_lookup {ms : List (String × graphiteMetric)} {name : String}
    {m : graphiteMetric} (h : ms.lookup name = some m) : ∃ k, (k, m) ∈ ms := by
  induction ms with
  | nil => cases h
  | cons e rest ih =>
    obtain ⟨k, v⟩ := e
    rw [List.lookup_cons] at h
    cases hk : (name == k) with
    | true =>
      rw [hk] at h
      cases h
      exact ⟨k, List.mem_cons_self _ _⟩
    | false =>
      rw [hk] at h
      obtain ⟨k', hk'⟩ := ih h
      exact ⟨k', List.mem_cons_of_mem _ hk'⟩

theorem setMetric_forall (P : graphiteMetric → Prop) (ms : List (String × graphiteMetric))
    (name : String) (v : graphiteMetric) (h : ∀ e ∈ ms, P e.2) (hv : P v) :
    ∀ e ∈ setMetric ms name v, P e.2 := by
  intro e he
  unfold setMetric at he
  rw [List.mem_map] at he
  obtain ⟨e0, h0, rfl⟩ := he
  split
  · exact hv
  · exact h e0 h0

/-- The body of the loop of `fillBuffer` keeps the length of `hist` and `histRanges`. -/
theorem fillEntry_shape (pfx ct name : String) (m : graphiteMetric) :
    (fillEntry pfx ct name m).1.hist.length = m.hist.length ∧
      (fillEntry pfx ct name m).1.histRanges = m.histRanges := by
  unfold fillEntry
  split <;> split <;> simp [graphiteMetric.reset]

theorem fillLoop_shaped (pfx ct : String) (visit : List String)
    (st : List (String × graphiteMetric) × String)
    (h : ∀ e ∈ st.1, e.2.hist.length = e.2.histRanges.length + 1) :
    ∀ e ∈ (fillLoop pfx ct visit st).1, e.2.hist.length = e.2.histRanges.length + 1 := by
  induction visit generalizing st with
  | nil => exact h
  | cons name rest ih =>
    unfold fillLoop
    cases hl : st.1.lookup name with
    | none => exact ih st h
    | some value =>
      apply ih
      obtain ⟨k, hk⟩ := mem_of_lookup hl
      have hv := h _ hk
      have hf := fillEntry_shape pfx ct name value
      apply setMetric_forall (fun m => m.hist.length = m.histRanges.length + 1) _ _ _ h
      show (fillEntry pfx ct name value).1.hist.length =
        (fillEntry pfx ct name value).1.histRanges.length + 1
      rw [hf.1, hf.2]
      exact hv

theorem fillBuffer_shaped (g : Graphite) (t : Int) (visit : List String)
    (h : registryShaped g) : registryShaped (g.fillBuffer t visit) := by
  unfold registryShaped at h ⊢
  unfold Graphite.fillBuffer
  cases hm : g.metrics with
  | none =>
    intro e he
    cases he
  | some ms =>
    rw [hm] at h
    exact fillLoop_shaped _ _ _ _ h

theorem applyValue_shaped (g g' : Graphite) (name : String) (value : ℚ)
    (hs : registryShaped g) (h : g.applyValue name value = some g') : registryShaped g' := by
  unfold Graphite.applyValue at h
  split at h
  · cases h
  · next mt hl =>
    split at h
    · cases h
    · next mt' hv =>
      cases h
      unfold registryShaped at hs ⊢
      cases hm : g.metrics with
      | none =>
        intro e he
        cases he
      | some ms =>
        rw [hm] at hs hl
        obtain ⟨k, hk⟩ := mem_of_lookup hl
        have hf := handleValue_frame hv
        apply setMetric_forall (fun m => m.hist.length = m.histRanges.length + 1) _ _ _ hs
        show mt'.hist.length = mt'.histRanges.length + 1
        rw [hf.2.2.2.2.1, hf.2.2.2.1]
        exact hs _ hk

theorem registerMetric_shaped (g g' : Graphite) (name : String) (kind : metricType)
    (norm : Bool) (ranges : List ℚ) (hs : registryShaped g)
    (h : (Graphite.registerMetric (some g) name kind norm ranges).1 = some g') :
    registryShaped g' := by
  cases hm : g.metrics with
  | none =>
    simp only [Graphite.registerMetric, hm, Option.some.injEq] at h
    subst h
    exact hs
  | some ms =>
    by_cases hd : g.disabled = true
    · simp only [Graphite.registerMetric, hm, hd, if_true, Option.some.injEq] at h
      subst h
      exact hs
    · by_cases hl : (ms.lookup name).isSome = true
      · simp only [Graphite.registerMetric, hm, hd, hl, if_true, if_false, Bool.false_eq_true,
          Option.some.injEq] at h
        subst h
        exact hs
      · simp only [Graphite.registerMetric, hm, hd, hl, if_false, Bool.false_eq_true,
          Option.some.injEq] at h
        subst h
        unfold registryShaped at hs ⊢
        rw [hm] at hs
        intro e he
        simp only [Option.getD_some, List.mem_append, List.mem_singleton] at he
        rcases he with he | rfl
        · exact hs e he
        · exact List.length_replicate _ _

theorem Call_run_shaped (c : Call) (g : Graphite) (gr' : Option Graphite)
    (err : Option Errorf) (spawn : Bool) (hs : registryShaped g)
    (h : c.run (some g) = .returned gr' err spawn) :
    ∃ g', gr' = some g' ∧ registryShaped g' := by
  obtain ⟨g', hg', -, -, -, -, hkeep⟩ := (Call_run_frame c (some g) gr' err spawn h).2 g rfl
  refine ⟨g', hg', ?_⟩
  subst hg'
  have hreg : ∀ kind norm ranges name,
      (Graphite.registerMetric (some g) name kind norm ranges).1 = some g' →
        registryShaped g' := fun kind norm ranges name hr =>
    registerMetric_shaped g g' name kind norm ranges hs hr
  have hsame : g'.metrics = g.metrics → registryShaped g' := by
    intro he
    unfold registryShaped at hs ⊢
    rw [he]
    exact hs
  cases c with
  | RegisterCounter name norm =>
    simp only [Call.run, CallResult.returned.injEq] at h
    exact hreg _ _ _ _ h.1
  | RegisterAverage name =>
    simp only [Call.run, CallResult.returned.injEq] at h
    exact hreg _ _ _ _ h.1
  | RegisterMaximum name =>
    simp only [Call.run, CallResult.returned.injEq] at h
    exact hreg _ _ _ _ h.1
  | RegisterMinimum name =>
    simp only [Call.run, CallResult.returned.injEq] at h
    exact hreg _ _ _ _ h.1
  | RegisterGauge name =>
    simp only [Call.run, CallResult.returned.injEq] at h
    exact hreg _ _ _ _ h.1
  | RegisterHist name ranges =>
    simp only [Call.run, CallResult.returned.injEq] at h
    exact hreg _ _ _ _ h.1
  | Start => exact hsame (hkeep rfl)
  | Stop => exact hsame (hkeep rfl)
  | HandleValue name value => exact hsame (hkeep rfl)

theorem handleChans_shaped (g : Graphite) (e : LoopEvent) (hs : registryShaped g) :
    (∀ g' io, g.handleChans e = .continues g' io → registryShaped g') ∧
    (∀ g', g.handleChans e = .returns g' → registryShaped g') := by
  refine ⟨fun g' io h => ?_, fun g' h => ?_⟩
  · cases e with
    | tick t visit net =>
      unfold Graphite.handleChans at h
      simp only at h
      split at h
      · cases h
      · split at h
        · cases h
        · next r hr =>
          cases h
          have hf := (sendMetrics_frame g t visit net r hr).1
          have hb := fillBuffer_shaped g t visit hs
          unfold registryShaped at hb ⊢
          rw [hf]
          exact hb
    | value =>
      unfold Graphite.handleChans at h
      simp only at h
      split at h
      · split at h
        · cases h
        · next g1 hg1 =>
          cases h
          exact applyValue_shaped g g1 _ _ hs hg1
      · cases h
    | stop =>
      unfold Graphite.handleChans at h
      simp only at h
      split at h <;> cases h
  · rw [(handleChans_frame g e).2 g' h]
    exact hs

theorem System_step_shaped (s s' : System) (a : Action) (h : s.step a = some s')
    (hs : ∀ g, s.gr = some g → registryShaped g) : ∀ g', s'.gr = some g' → registryShaped g' := by
  intro g' hg'
  cases a with
  | call c =>
    unfold System.step at h
    simp only at h
    split at h
    · next gr err spawn hr =>
      cases h
      cases hgr : s.gr with
      | none =>
        rw [hgr] at hr
        have := (Call_run_frame c none gr err spawn hr).1 rfl
        rw [this] at hg'
        cases hg'
      | some g =>
        rw [hgr] at hr
        obtain ⟨g1, h1, h2⟩ := Call_run_shaped c g gr err spawn (hs g hgr) hr
        rw [h1] at hg'
        cases hg'
        exact h2
    · cases h
  | loop e =>
    unfold System.step at h
    simp only at h
    split at h
    · split at h
      · cases h
      · next g hg =>
        have hh := handleChans_shaped g e (hs g hg)
        split at h
        · next g1 io hr =>
          cases h
          cases hg'
          exact hh.1 _ _ hr
        · next g1 hr =>
          cases h
          cases hg'
          exact hh.2 _ hr
        · cases h
    · cases h

/-- The shape of the registered metrics is kept along every sequence of steps. -/
theorem System_run_shaped (acts : List Action) (s s' : System) (h : s.run acts = some s')
    (hs : ∀ g, s.gr = some g → registryShaped g) : ∀ g', s'.gr = some g' → registryShaped g' := by
  induction acts generalizing s with
  | nil =>
    cases h
    exact hs
  | cons a rest ih =>
    unfold System.run at h
    cases hst : s.step a with
    | none => rw [hst] at h; cases h
    | some s1 =>
      rw [hst] at h
      exact ih s1 h (System_step_shaped s s1 a hst hs)

theorem NewGraphite_shaped (host : String) (port : Fin 65536) (pfx : String)
    (flushInterval : Int) (disabled : Bool) (g : Graphite)
    (h : (NewGraphite host port pfx flushInterval disabled).1 = some g) : registryShaped g := by
  unfold NewGraphite at h
  split at h
  · cases h
    intro e he
    cases he
  · split at h
    · cases h
    · cases h
      intro e he
      cases he

/-- One call of `handleValue` on a Histogram metric whose buckets are non-negative and sum
to the counter `k`, with `k + 1` in the int32 range, keeps this with `k + 1`. -/
theorem handleValue_hist_sum (mt : graphiteMetric) (v : ℚ) (k : Nat)
    (hk : mt.mType = .metricHist) (hlen : mt.hist.length = mt.histRanges.length + 1)
    (hpos : ∀ x ∈ mt.hist, 0 ≤ x) (hsum : mt.hist.sum = (k : Int))
    (hc : mt.counter = (k : Int)) (hn : k + 1 < 2147483648) :
    ∃ mt', mt.handleValue v = some mt' ∧ mt'.mType = .metricHist ∧
      mt'.hist.length = mt'.histRanges.length + 1 ∧ (∀ x ∈ mt'.hist, 0 ≤ x) ∧
      mt'.hist.sum = ((k + 1 : Nat) : Int) ∧ mt'.counter = ((k + 1 : Nat) : Int) := by
  have hb := bucketIndex_le mt.histRanges v
  have hblt : bucketIndex mt.histRanges v < mt.hist.length := by omega
  have hget : mt.hist.getD (bucketIndex mt.histRanges v) 0 =
      mt.hist[bucketIndex mt.histRanges v] := by
    rw [List.getD_eq_getElem?_getD, List.getElem?_eq_getElem hblt]
    rfl
  have hmem : mt.hist[bucketIndex mt.histRanges v] ∈ mt.hist := List.getElem_mem _
  have h0 := hpos _ hmem
  have hle := List.single_le_sum hpos _ hmem
  have hw : wrapInt32 (mt.hist[bucketIndex mt.histRanges v] + 1) =
      mt.hist[bucketIndex mt.histRanges v] + 1 := by
    apply wrapInt32_of_inInt32
    unfold inInt32
    omega
  have hwc : wrapInt32 (mt.counter + 1) = ((k + 1 : Nat) : Int) := by
    rw [hc]
    push_cast
    apply wrapInt32_of_inInt32
    unfold inInt32
    omega
  refine ⟨_, handleValue_hist mt v hk hlen, hk, ?_, ?_, ?_, hwc⟩
  · show (mt.hist.set _ _).length = _
    rw [List.length_set]
    exact hlen
  · intro x hx
    rw [hget, hw] at hx
    rcases List.mem_or_eq_of_mem_set hx with hx | rfl
    · exact hpos x hx
    · omega
  · show (mt.hist.set _ _).sum = _
    rw [hget, hw, List.sum_set', dif_pos hblt, hsum]
    push_cast
    ring

/-- Along calls of `handleValue` and `reset` the buckets sum to the counter as long as fewer
than 2^31 values were handled since the last `reset`; `k` counts the values already
handled. -/
theorem runOps_hist_sum (ops : List MetricOp) (mt : graphiteMetric) (k : Nat)
    (hk : mt.mType = .metricHist) (hlen : mt.hist.length = mt.histRanges.length + 1)
    (hinv : k < 2147483648 →
      (∀ x ∈ mt.hist, 0 ≤ x) ∧ mt.hist.sum = (k : Int) ∧ mt.counter = (k : Int))
    (hn : samplesSince k ops < 2147483648) :
    ∃ mt', runOps mt ops = some mt' ∧ mt'.hist.sum = mt'.counter ∧
      mt'.counter = (samplesSince k ops : Int) ∧ mt'.hist.length = mt.hist.length ∧
      mt'.histRanges = mt.histRanges := by
  induction ops generalizing mt k with
  | nil =>
    obtain ⟨-, h2, h3⟩ := hinv hn
    exact ⟨mt, rfl, by rw [h2, h3], h3, rfl, rfl⟩
  | cons op rest ih =>
    cases op with
    | handleValue v =>
      obtain ⟨m1, hret⟩ : ∃ m1, mt.handleValue v = some m1 :=
        ⟨_, handleValue_hist mt v hk hlen⟩
      have hfr := handleValue_frame hret
      have hnext := ih m1 (k + 1) (by rw [hfr.1]; exact hk)
        (by rw [hfr.2.2.2.2.1, hfr.2.2.2.1]; exact hlen)
        (fun hk1 => by
          obtain ⟨a1, a2, a3⟩ := hinv (by omega)
          obtain ⟨m2, b1, -, -, b4, b5, b6⟩ := handleValue_hist_sum mt v k hk hlen a1 a2 a3 hk1
          rw [hret] at b1
          cases b1
          exact ⟨b4, b5, b6⟩)
        hn
      obtain ⟨mt', c1, c2, c3, c4, c5⟩ := hnext
      refine ⟨mt', ?_, c2, c3, ?_, ?_⟩
      · show (match mt.handleValue v with
          | some mt' => runOps mt' rest
          | none => none) = some mt'
        rw [hret]
        exact c1
      · rw [c4]
        exact hfr.2.2.2.2.1
      · rw [c5]
        exact hfr.2.2.2.1
    | reset =>
      have hnext := ih mt.reset 0 hk
        (by
          show (mt.hist.map fun _ => (0 : Int)).length = _
          rw [List.length_map]
          exact hlen)
        (fun _ => by
          refine ⟨?_, ?_, rfl⟩
          · intro x hx
            have : x ∈ mt.hist.map fun _ => (0 : Int) := hx
            rw [List.mem_map] at this
            obtain ⟨_, _, rfl⟩ := this
            exact le_refl _
          · show (mt.hist.map fun _ => (0 : Int)).sum = _
            rw [List.map_const', List.sum_replicate]
            simp)
        hn
      obtain ⟨mt', c1, c2, c3, c4, c5⟩ := hnext
      refine ⟨mt', c1, c2, c3, ?_, c5⟩
      rw [c4]
      show (mt.hist.map fun _ => (0 : Int)).length = _
      exact List.length_map _ _

/-- A Histogram metric keeps its `value` in `handleValue`, the other kinds keep `hist`. -/
theorem handleValue_keeps {mt mt' : graphiteMetric} {v : ℚ} (h : mt.handleValue v = some mt') :
    (mt.mType = .metricHist → mt'.value = mt.value) ∧
      (mt.mType ≠ .metricHist → mt'.hist = mt.hist) := by
  unfold graphiteMetric.handleValue at h
  cases hk : mt.mType <;> rw [hk] at h <;> simp only at h
  · cases h
    exact ⟨fun h0 => (by cases h0), fun _ => rfl⟩
  · cases h
    exact ⟨fun h0 => (by cases h0), fun _ => rfl⟩
  · split at h <;> cases h <;> exact ⟨fun h0 => (by cases h0), fun _ => rfl⟩
  · split at h <;> cases h <;> exact ⟨fun h0 => (by cases h0), fun _ => rfl⟩
  · cases h
    exact ⟨fun h0 => (by cases h0), fun _ => rfl⟩
  · refine ⟨fun _ => ?_, fun h0 => absurd rfl h0⟩
    split at h
    · cases hi : histIncr mt.hist _ with
      | none => rw [hi] at h; cases h
      | some l =>
        rw [hi] at h
        cases h
        rfl
    · split at h
      · cases hi : histIncr mt.hist _ with
        | none => rw [hi] at h; cases h
        | some l =>
          rw [hi] at h
          cases h
          rfl
      · cases h

theorem handleValues_keeps {values : List ℚ} {mt mt' : graphiteMetric}
    (h : handleValues mt values = some mt') :
    (mt.mType = .metricHist → mt'.value = mt.value) ∧
      (mt.mType ≠ .metricHist → mt'.hist = mt.hist) := by
  induction values generalizing mt with
  | nil =>
    cases h
    exact ⟨fun _ => rfl, fun _ => rfl⟩
  | cons v rest ih =>
    unfold handleValues at h
    split at h
    · next m1 h1 =>
      have hf := (handleValue_frame h1).1
      have hk := handleValue_keeps h1
      have hr := ih h
      rw [hf] at hr
      exact ⟨fun h0 => by rw [hr.1 h0, hk.1 h0], fun h0 => by rw [hr.2 h0, hk.2 h0]⟩
    · cases h

theorem handleValues_append (a b : List ℚ) (mt : graphiteMetric) :
    handleValues mt (a ++ b) = (handleValues mt a).bind fun m => handleValues m b := by
  induction a generalizing mt with
  | nil => rfl
  | cons v rest ih =>
    show (match mt.handleValue v with
      | some mt' => handleValues mt' (rest ++ b)
      | none => none) = Option.bind (match mt.handleValue v with
      | some mt' => handleValues mt' rest
      | none => none) _
    cases mt.handleValue v with
    | none => rfl
    | some m1 => exact ih m1

theorem handleValue_maximum_le (mt : graphiteMetric) (x : ℚ) (hk : mt.mType = .metricMaximum)
    (hv : mt.value ≤ x) :
    mt.handleValue x = some { mt with value := x, counter := wrapInt32 (mt.counter + 1) } := by
  unfold graphiteMetric.handleValue
  rw [hk]
  simp only
  split
  · rfl
  · next hc =>
    have : mt.value = x := le_antisymm hv (not_lt.mp (fun hl => hc (Or.inr hl)))
    rw [← this]

/-- A run of `n > 0` equal values `x` on a Maximum metric whose value is at most `x`
leaves `x`, whatever the counter does meanwhile. -/
theorem handleValues_maximum_replicate (n : Nat) (x : ℚ) (mt : graphiteMetric)
    (hk : mt.mType = .metricMaximum) (hv : mt.value ≤ x) (hn : n ≠ 0) :
    handleValues mt (List.replicate n x) =
      some { mt with value := x, counter := wrapInt32 (mt.counter + (n : Int)) } := by
  obtain ⟨k, rfl⟩ := Nat.exists_eq_succ_of_ne_zero hn
  clear hn
  induction k generalizing mt with
  | zero =>
    show (match mt.handleValue x with
      | some mt' => handleValues mt' []
      | none => none) = _
    rw [handleValue_maximum_le mt x hk hv]
    rfl
  | succ k ih =>
    show (match mt.handleValue x with
      | some mt' => handleValues mt' (List.replicate (k + 1) x)
      | none => none) = _
    rw [handleValue_maximum_le mt x hk hv]
    simp only
    rw [ih { mt with value := x, counter := wrapInt32 (mt.counter + 1) } hk (le_refl x)]
    simp only [Option.some.injEq, graphiteMetric.mk.injEq, true_and, and_true]
    rw [wrapInt32_add]
    congr 1
    push_cast
    ring

theorem perm_snoc_cons (n : Nat) (x y : ℚ) :
    (List.replicate n x ++ [y]).Perm (y :: List.replicate n x) :=
  List.perm_append_comm

/-- When `n` values 5 bring the int32 counter of a zeroed Maximum metric back to 0, a value
1 submitted after them replaces the maximum, and submitted before them it does not. -/
theorem maximum_wrapped_last (n : Nat) (hn : n ≠ 0) (hw : wrapInt32 (n : Int) = 0) :
    (handleValues (zeroMetric .metricMaximum false Second [] [0])
        (List.replicate n 5 ++ [1])).map graphiteMetric.get = some (1, 1) ∧
      (handleValues (zeroMetric .metricMaximum false Second [] [0])
        (1 :: List.replicate n 5)).map graphiteMetric.get = some (5, 1) := by
  constructor
  · rw [handleValues_append, handleValues_maximum_replicate n 5 _ rfl (by norm_num [zeroMetric]) hn]
    simp only [zeroMetric, zero_add, hw, Option.some_bind]
    norm_num [handleValues, graphiteMetric.handleValue, graphiteMetric.get, wrapInt32]
  · have h1 : (zeroMetric .metricMaximum false Second [] [0]).handleValue 1 =
        some { zeroMetric .metricMaximum false Second [] [0] with value := 1, counter := 1 } := by
      norm_num [graphiteMetric.handleValue, zeroMetric, wrapInt32]
    show Option.map graphiteMetric.get (match (zeroMetric .metricMaximum false Second [] [0]).handleValue 1 with
      | some mt' => handleValues mt' (List.replicate n 5)
      | none => none) = _
    rw [h1]
    simp only
    rw [handleValues_maximum_replicate n 5 _ rfl (by norm_num) hn]
    have e : wrapInt32 (1 + (n : Int)) = 1 := by
      rw [add_comm, ← wrapInt32_add, hw]
      norm_num [wrapInt32]
    simp only [Option.map_some', e]
    norm_num [graphiteMetric.get, zeroMetric]

theorem getD_ext (a b : List Int) (hl : a.length = b.length)
    (h : ∀ i, i < a.length → a.getD i 0 = b.getD i 0) : a = b := by
  apply List.ext_getElem hl
  intro i h1 h2
  have := h i h1
  rw [List.getD_eq_getElem?_getD, List.getD_eq_getElem?_getD, List.getElem?_eq_getElem h1,
    List.getElem?_eq_getElem h2] at this
  exact this

/-- Below 2^32 the int32 image of a count is zero only for the count zero. -/
theorem wrapInt32_nat_eq_zero (n : Nat) (h : n < 4294967296) :
    wrapInt32 (n : Int) = 0 ↔ n = 0 := by
  unfold wrapInt32
  omega

/-- The incremental mean with the counts as the code holds them: from the sum `S` over the
count `c`, one more value gives the sum over the next count `d`. -/
theorem mean_step_wide (S v c d : ℚ) (h0 : c = 0 → S = 0) :
    S / c * (c / d) + v / d = (S + v) / d := by
  by_cases hc : c = 0
  · rw [h0 hc, hc]
    simp
  · by_cases hd : d = 0
    · rw [hd]
      simp
    · field_simp

/-- A run on an Average metric that holds the sum of the values `pre` over their int32
count ends with the sum of `pre ++ values` over their int32 count, as long as fewer than
2^32 values are handled in all: the count is then never zero when it divides. -/
theorem handleValues_average_wide (values pre : List ℚ) (mt : graphiteMetric)
    (hk : mt.mType = .metricAverage) (hc : mt.counter = wrapInt32 (pre.length : Int))
    (hv : mt.value = pre.sum / ((wrapInt32 (pre.length : Int) : Int) : ℚ))
    (hn : pre.length + values.length < 4294967296) :
    ∃ mt', handleValues mt values = some mt' ∧
      mt'.value = (pre ++ values).sum /
        ((wrapInt32 ((pre ++ values).length : Int) : Int) : ℚ) := by
  induction values generalizing mt pre with
  | nil => exact ⟨mt, rfl, by simpa using hv⟩
  | cons v rest ih =>
    simp only [List.length_cons] at hn
    have hw : wrapInt32 (mt.counter + 1) = wrapInt32 ((pre ++ [v]).length : Int) := by
      rw [hc, wrapInt32_succ, List.length_append, List.length_singleton]
      push_cast
      rfl
    have h1 : mt.handleValue v = some { mt with
        value := mt.value * ((mt.counter : ℚ) / ((wrapInt32 (mt.counter + 1) : Int) : ℚ))
                  + v / ((wrapInt32 (mt.counter + 1) : Int) : ℚ),
        counter := wrapInt32 (mt.counter + 1) } := by
      simp [graphiteMetric.handleValue, hk]
    have hval : mt.value * ((mt.counter : ℚ) / ((wrapInt32 (mt.counter + 1) : Int) : ℚ))
                  + v / ((wrapInt32 (mt.counter + 1) : Int) : ℚ)
        = (pre ++ [v]).sum / ((wrapInt32 ((pre ++ [v]).length : Int) : Int) : ℚ) := by
      rw [hw, hv, hc]
      have h0 : ((wrapInt32 (pre.length : Int) : Int) : ℚ) = 0 → pre.sum = 0 := by
        intro h
        have h2 : wrapInt32 (pre.length : Int) = 0 := by exact_mod_cast h
        have h3 := (wrapInt32_nat_eq_zero pre.length (by omega)).mp h2
        rw [List.length_eq_zero.mp h3]
        rfl
      rw [mean_step_wide _ _ _ _ h0, List.sum_append, List.sum_singleton]
    obtain ⟨mt', h2, h3⟩ := ih (pre ++ [v]) { mt with
        value := mt.value * ((mt.counter : ℚ) / ((wrapInt32 (mt.counter + 1) : Int) : ℚ))
                  + v / ((wrapInt32 (mt.counter + 1) : Int) : ℚ),
        counter := wrapInt32 (mt.counter + 1) } hk hw hval
      (by simp only [List.length_append, List.length_cons, List.length_nil]; omega)
    refine ⟨mt', ?_, ?_⟩
    · simp only [handleValues, h1, h2]
    · rw [h3]
      simp

/-- A run on a Maximum metric that holds the greatest of the values `pre` ends with the
greatest of `pre ++ values`, as long as at most 2^32 values are handled in all: the int32
counter is then zero only before the first value. -/
theorem handleValues_maximum_wide (values pre : List ℚ) (mt : graphiteMetric)
    (hk : mt.mType = .metricMaximum) (hc : mt.counter = wrapInt32 (pre.length : Int))
    (hinv : pre ≠ [] → mt.value ∈ pre ∧ ∀ x ∈ pre, x ≤ mt.value)
    (hn : pre.length + values.length ≤ 4294967296) :
    ∃ mt', handleValues mt values = some mt' ∧ (values = [] → mt'.value = mt.value) ∧
      (pre ++ values ≠ [] →
        mt'.value ∈ pre ++ values ∧ ∀ x ∈ pre ++ values, x ≤ mt'.value) := by
  induction values generalizing mt pre with
  | nil => exact ⟨mt, rfl, fun _ => rfl, by simpa using hinv⟩
  | cons v rest ih =>
    simp only [List.length_cons] at hn
    have hw : wrapInt32 (mt.counter + 1) = wrapInt32 ((pre ++ [v]).length : Int) := by
      rw [hc, wrapInt32_succ, List.length_append, List.length_singleton]
      push_cast
      rfl
    have hz : mt.counter = 0 ↔ pre = [] := by
      rw [hc, wrapInt32_nat_eq_zero pre.length (by omega)]
      exact List.length_eq_zero
    obtain ⟨m1, h1, hm1k, hm1c, hm1v⟩ : ∃ m1, mt.handleValue v = some m1 ∧
        m1.mType = .metricMaximum ∧ m1.counter = wrapInt32 ((pre ++ [v]).length : Int) ∧
        (m1.value ∈ pre ++ [v] ∧ ∀ x ∈ pre ++ [v], x ≤ m1.value) := by
      by_cases hcond : mt.counter = 0 ∨ mt.value < v
      · refine ⟨{ mt with value := v, counter := wrapInt32 (mt.counter + 1) }, ?_, hk, hw, ?_⟩
        · simp [graphiteMetric.handleValue, hk, hcond]
        · refine ⟨by simp, ?_⟩
          intro x hx
          rw [List.mem_append, List.mem_singleton] at hx
          rcases hx with hx | hx
          · have hne : pre ≠ [] := List.ne_nil_of_mem hx
            rcases hcond with h0 | hlt
            · exact absurd (hz.mp h0) hne
            · exact le_of_lt (lt_of_le_of_lt ((hinv hne).2 x hx) hlt)
          · rw [hx]
      · refine ⟨{ mt with counter := wrapInt32 (mt.counter + 1) }, ?_, hk, hw, ?_⟩
        · simp [graphiteMetric.handleValue, hk, hcond]
        · rw [not_or] at hcond
          have hne : pre ≠ [] := fun h => hcond.1 (hz.mpr h)
          refine ⟨List.mem_append_left _ (hinv hne).1, ?_⟩
          intro x hx
          rw [List.mem_append, List.mem_singleton] at hx
          rcases hx with hx | hx
          · exact (hinv hne).2 x hx
          · rw [hx]
            exact not_lt.mp hcond.2
    obtain ⟨mt', h2, -, h4⟩ := ih (pre ++ [v]) m1 hm1k hm1c (fun _ => hm1v)
      (by simp only [List.length_append, List.length_cons, List.length_nil]; omega)
    refine ⟨mt', ?_, fun h => absurd h (List.cons_ne_nil _ _), ?_⟩
    · simp only [handleValues, h1, h2]
    · intro _
      have := h4 (by simp)
      simpa using this

/-- A run on a Minimum metric that holds the least of the values `pre` ends with the least
of `pre ++ values`, as long as at most 2^32 values are handled in all. -/
theorem handleValues_minimum_wide (values pre : List ℚ) (mt : graphiteMetric)
    (hk : mt.mType = .metricMinimum) (hc : mt.counter = wrapInt32 (pre.length : Int))
    (hinv : pre ≠ [] → mt.value ∈ pre ∧ ∀ x ∈ pre, mt.value ≤ x)
    (hn : pre.length + values.length ≤ 4294967296) :
    ∃ mt', handleValues mt values = some mt' ∧ (values = [] → mt'.value = mt.value) ∧
      (pre ++ values ≠ [] →
        mt'.value ∈ pre ++ values ∧ ∀ x ∈ pre ++ values, mt'.value ≤ x) := by
  induction values generalizing mt pre with
  | nil => exact ⟨mt, rfl, fun _ => rfl, by simpa using hinv⟩
  | cons v rest ih =>
    simp only [List.length_cons] at hn
    have hw : wrapInt32 (mt.counter + 1) = wrapInt32 ((pre ++ [v]).length : Int) := by
      rw [hc, wrapInt32_succ, List.length_append, List.length_singleton]
      push_cast
      rfl
    have hz : mt.counter = 0 ↔ pre = [] := by
      rw [hc, wrapInt32_nat_eq_zero pre.length (by omega)]
      exact List.length_eq_zero
    obtain ⟨m1, h1, hm1k, hm1c, hm1v⟩ : ∃ m1, mt.handleValue v = some m1 ∧
        m1.mType = .metricMinimum ∧ m1.counter = wrapInt32 ((pre ++ [v]).length : Int) ∧
        (m1.value ∈ pre ++ [v] ∧ ∀ x ∈ pre ++ [v], m1.value ≤ x) := by
      by_cases hcond : mt.counter = 0 ∨ mt.value > v
      · refine ⟨{ mt with value := v, counter := wrapInt32 (mt.counter + 1) }, ?_, hk, hw, ?_⟩
        · simp [graphiteMetric.handleValue, hk, hcond]
        · refine ⟨by simp, ?_⟩
          intro x hx
          rw [List.mem_append, List.mem_singleton] at hx
          rcases hx with hx | hx
          · have hne : pre ≠ [] := List.ne_nil_of_mem hx
            rcases hcond with h0 | hlt
            · exact absurd (hz.mp h0) hne
            · exact le_of_lt (lt_of_lt_of_le hlt ((hinv hne).2 x hx))
          · rw [hx]
      · refine ⟨{ mt with counter := wrapInt32 (mt.counter + 1) }, ?_, hk, hw, ?_⟩
        · simp [graphiteMetric.handleValue, hk, hcond]
        · rw [not_or] at hcond
          have hne : pre ≠ [] := fun h => hcond.1 (hz.mpr h)
          refine ⟨List.mem_append_left _ (hinv hne).1, ?_⟩
          intro x hx
          rw [List.mem_append, List.mem_singleton] at hx
          rcases hx with hx | hx
          · exact (hinv hne).2 x hx
          · rw [hx]
            exact not_lt.mp hcond.2
    obtain ⟨mt', h2, -, h4⟩ := ih (pre ++ [v]) m1 hm1k hm1c (fun _ => hm1v)
      (by simp only [List.length_append, List.length_cons, List.length_nil]; omega)
    refine ⟨mt', ?_, fun h => absurd h (List.cons_ne_nil _ _), ?_⟩
    · simp only [handleValues, h1, h2]
    · intro _
      have := h4 (by simp)
      simpa using this

/-- A value at most the one a Minimum metric holds becomes its value. -/
theorem handleValue_minimum_ge (mt : graphiteMetric) (x : ℚ) (hk : mt.mType = .metricMinimum)
    (hv : x ≤ mt.value) :
    mt.handleValue x = some { mt with value := x, counter := wrapInt32 (mt.counter + 1) } := by
  unfold graphiteMetric.handleValue
  rw [hk]
  simp only
  split
  · rfl
  · next hc =>
    have : mt.value = x := le_antisymm (not_lt.mp (fun hl => hc (Or.inr hl))) hv
    rw [← this]

/-- A run of `n > 0` equal values `x` on a Minimum metric whose value is at least `x`
leaves `x`, whatever the counter does meanwhile. -/
theorem handleValues_minimum_replicate (n : Nat) (x : ℚ) (mt : graphiteMetric)
    (hk : mt.mType = .metricMinimum) (hv : x ≤ mt.value) (hn : n ≠ 0) :
    handleValues mt (List.replicate n x) =
      some { mt with value := x, counter := wrapInt32 (mt.counter + (n : Int)) } := by
  obtain ⟨k, rfl⟩ := Nat.exists_eq_succ_of_ne_zero hn
  clear hn
  induction k generalizing mt with
  | zero =>
    show (match mt.handleValue x with
      | some mt' => handleValues mt' []
      | none => none) = _
    rw [handleValue_minimum_ge mt x hk hv]
    rfl
  | succ k ih =>
    show (match mt.handleValue x with
      | some mt' => handleValues mt' (List.replicate (k + 1) x)
      | none => none) = _
    rw [handleValue_minimum_ge mt x hk hv]
    simp only
    rw [ih { mt with value := x, counter := wrapInt32 (mt.counter + 1) } hk (le_refl x)]
    simp only [Option.some.injEq, graphiteMetric.mk.injEq, true_and, and_true]
    rw [wrapInt32_add]
    congr 1
    push_cast
    ring

/-- When `n` values -5 bring the int32 counter of a zeroed Minimum metric back to 0, a
value -1 submitted after them replaces the minimum, and submitted before them it does
not. -/
theorem minimum_wrapped_last (n : Nat) (hn : n ≠ 0) (hw : wrapInt32 (n : Int) = 0) :
    (handleValues (zeroMetric .metricMinimum false Second [] [0])
        (List.replicate n (-5) ++ [-1])).map graphiteMetric.get = some (-1, 1) ∧
      (handleValues (zeroMetric .metricMinimum false Second [] [0])
        (-1 :: List.replicate n (-5))).map graphiteMetric.get = some (-5, 1) := by
  constructor
  · rw [handleValues_append,
      handleValues_minimum_replicate n (-5) _ rfl (by norm_num [zeroMetric]) hn]
    simp only [zeroMetric, zero_add, hw, Option.some_bind]
    norm_num [handleValues, graphiteMetric.handleValue, graphiteMetric.get, wrapInt32]
  · have h1 : (zeroMetric .metricMinimum false Second [] [0]).handleValue (-1) =
        some { zeroMetric .metricMinimum false Second [] [0] with
          value := -1, counter := 1 } := by
      norm_num [graphiteMetric.handleValue, zeroMetric, wrapInt32]
    show Option.map graphiteMetric.get
      (match (zeroMetric .metricMinimum false Second [] [0]).handleValue (-1) with
      | some mt' => handleValues mt' (List.replicate n (-5))
      | none => none) = _
    rw [h1]
    simp only
    rw [handleValues_minimum_replicate n (-5) _ rfl (by norm_num) hn]
    have e : wrapInt32 (1 + (n : Int)) = 1 := by
      rw [add_comm, ← wrapInt32_add, hw]
      norm_num [wrapInt32]
    simp only [Option.map_some', e]
    norm_num [graphiteMetric.get, zeroMetric]

/-! ## The claims -/

/-- C1, as amended: for every sequence of N < 2^31 values applied with `handleValue` to a
zeroed Counter metric, every call returns and `get` gives (sum of the values, N) when
`normalizeByInterval` is false, and (sum divided by the flush interval in seconds, N) when
it is true. -/
theorem counter_get_of_values (mt : graphiteMetric) (values : List ℚ)
    (hk : mt.mType = .metricCounter) (hv : mt.value = 0) (hc : mt.counter = 0)
    (hn : values.length < 2147483648) :
    ∃ mt', handleValues mt values = some mt' ∧
      mt'.get = (if mt.normalizeByInterval = true
                  then values.sum / ((mt.flushInterval : ℚ) / (Second : ℚ))
                  else values.sum, (values.length : Int)) := by
  obtain ⟨mt', h1, h2⟩ := handleValues_counter values mt hk
  have hin : inInt32 mt.counter := by rw [hc]; unfold inInt32; omega
  obtain ⟨-, f2, f3, -, -, f6⟩ := handleValues_frame hin h1
  refine ⟨mt', h1, ?_⟩
  have hcnt : mt'.counter = (values.length : Int) := by
    rw [f6, hc, zero_add]
    apply wrapInt32_of_inInt32
    unfold inInt32
    omega
  unfold graphiteMetric.get
  rw [f2, f3, h2, hv, hcnt, zero_add]
  split <;> rfl

/-- C1 at the values of `TestCounterNormalized5Values`: [1,2,3,4,5] over 3 s give (5, 5). -/
theorem counter_get_of_values_witness :
    ∃ mt', handleValues (zeroMetric .metricCounter true (3 * Second) [] []) [1, 2, 3, 4, 5]
        = some mt' ∧ mt'.get = (5, 5) := by
  have h := counter_get_of_values (zeroMetric .metricCounter true (3 * Second) [] [])
    [1, 2, 3, 4, 5] rfl rfl rfl (by decide)
  obtain ⟨mt', h1, h2⟩ := h
  refine ⟨mt', h1, ?_⟩
  rw [h2]
  norm_num [zeroMetric, Second]

/-- C1 as stated fails at N = 2^31: after 2147483648 samples of value 1 the int32 counter
has wrapped, and `get` returns the count -2147483648 instead of N. -/
theorem counter_get_count_wraps :
    (handleValues (zeroMetric .metricCounter false 0 [] []) (List.replicate 2147483648 1)).map
        graphiteMetric.get = some (2147483648, -2147483648) ∧
      ((List.replicate 2147483648 (1 : ℚ)).length : Int) ≠ -2147483648 := by
  have key : ∀ n : Nat,
      (handleValues (zeroMetric .metricCounter false 0 [] []) (List.replicate n 1)).map
        graphiteMetric.get = some ((n : ℚ), wrapInt32 n) := by
    intro n
    obtain ⟨mt', h1, h2⟩ := handleValues_counter (List.replicate n 1)
      (zeroMetric .metricCounter false 0 [] []) rfl
    have hin : inInt32 (zeroMetric .metricCounter false 0 [] []).counter := by
      unfold inInt32 zeroMetric; simp
    obtain ⟨-, f2, -, -, -, f6⟩ := handleValues_frame hin h1
    rw [h1, Option.map_some']
    congr 1
    unfold graphiteMetric.get
    rw [f2, h2, f6, List.sum_replicate, List.length_replicate]
    simp [zeroMetric]
  constructor
  · rw [key 2147483648]
    norm_num [wrapInt32]
  · rw [List.length_replicate]
    norm_num

/-- C2, as amended: for every sequence of N < 2^31 values applied with `handleValue` to a
zeroed Average metric with `normalizeByInterval` false, every call returns and `get` gives
(arithmetic mean of the values, N) when the sequence is non-empty and (0, 0) when it is
empty, the arithmetic being exact. -/
theorem average_get_of_values (mt : graphiteMetric) (values : List ℚ)
    (hk : mt.mType = .metricAverage) (hnorm : mt.normalizeByInterval = false)
    (hv : mt.value = 0) (hc : mt.counter = 0) (hn : values.length < 2147483648) :
    ∃ mt', handleValues mt values = some mt' ∧
      mt'.get = (if values = [] then 0 else values.sum / (values.length : ℚ),
        (values.length : Int)) := by
  obtain ⟨mt', h1, h2⟩ := handleValues_average values [] mt hk (by simpa using hc)
    (by simpa using hv) (by simpa using hn)
  have hin : inInt32 mt.counter := by rw [hc]; unfold inInt32; omega
  obtain ⟨-, f2, -, -, -, f6⟩ := handleValues_frame hin h1
  refine ⟨mt', h1, ?_⟩
  have hcnt : mt'.counter = (values.length : Int) := by
    rw [f6, hc, zero_add]
    apply wrapInt32_of_inInt32
    unfold inInt32
    omega
  unfold graphiteMetric.get
  rw [f2, hnorm, h2, hcnt, List.nil_append]
  by_cases he : values = []
  · subst he
    simp
  · simp [he]

/-- C2 at the values of `TestAverage5Values`: [1,2,3,4,5] give (3, 5). -/
theorem average_get_of_values_witness :
    ∃ mt', handleValues (zeroMetric .metricAverage false 0 [] []) [1, 2, 3, 4, 5] = some mt' ∧
      mt'.get = (3, 5) := by
  obtain ⟨mt', h1, h2⟩ := average_get_of_values (zeroMetric .metricAverage false 0 [] [])
    [1, 2, 3, 4, 5] rfl rfl rfl rfl (by decide)
  refine ⟨mt', h1, ?_⟩
  rw [h2, if_neg (List.cons_ne_nil _ _)]
  norm_num

/-- C2 as stated fails at N = 2^31: after 2147483648 samples the int32 counter of an
Average metric has wrapped, and `get` returns the count -2147483648 instead of N. -/
theorem average_get_count_wraps :
    ∃ mt', handleValues (zeroMetric .metricAverage false 0 [] [])
        (List.replicate 2147483648 1) = some mt' ∧
      mt'.get.2 = -2147483648 ∧
      mt'.get ≠ ((List.replicate 2147483648 (1 : ℚ)).sum / 2147483648, 2147483648) := by
  obtain ⟨mt', h1, h2⟩ := handleValues_count (zeroMetric .metricAverage false 0 [] [])
    (List.replicate 2147483648 1) (by intro h; cases h) rfl
  have h3 : mt'.get.2 = -2147483648 := by
    rw [get_snd, h2, List.length_replicate, wrapInt32_two_pow_31]
  refine ⟨mt', h1, h3, ?_⟩
  intro h
  rw [h] at h3
  norm_num at h3

/-- C3, as amended: for every sequence of fewer than 2^31 values applied with `handleValue`
to a zeroed Maximum (respectively Minimum) metric with `normalizeByInterval` false, every
call returns and `get` gives the length of the sequence as count and, when the sequence is
non-empty, a member of the sequence that no member exceeds (respectively none is below),
whatever the signs of the values; for the empty sequence it gives (0, 0). -/
theorem extremum_get_of_values (mt : graphiteMetric) (values : List ℚ)
    (hnorm : mt.normalizeByInterval = false) (hv : mt.value = 0) (hc : mt.counter = 0)
    (hn : values.length < 2147483648) :
    (mt.mType = .metricMaximum →
      ∃ mt', handleValues mt values = some mt' ∧ mt'.get.2 = (values.length : Int) ∧
        (values = [] → mt'.get.1 = 0) ∧
        (values ≠ [] → mt'.get.1 ∈ values ∧ ∀ x ∈ values, x ≤ mt'.get.1)) ∧
    (mt.mType = .metricMinimum →
      ∃ mt', handleValues mt values = some mt' ∧ mt'.get.2 = (values.length : Int) ∧
        (values = [] → mt'.get.1 = 0) ∧
        (values ≠ [] → mt'.get.1 ∈ values ∧ ∀ x ∈ values, mt'.get.1 ≤ x)) := by
  have hin : inInt32 mt.counter := by rw [hc]; unfold inInt32; omega
  have hcnt : ∀ mt', handleValues mt values = some mt' →
      mt'.get.2 = (values.length : Int) ∧ mt'.get.1 = mt'.value := by
    intro mt' h1
    obtain ⟨-, f2, -, -, -, f6⟩ := handleValues_frame hin h1
    constructor
    · rw [get_snd, f6, hc, zero_add]
      apply wrapInt32_of_inInt32
      unfold inInt32
      omega
    · unfold graphiteMetric.get
      rw [f2, hnorm]
      rfl
  constructor
  · intro hk
    obtain ⟨mt', h1, h2, h3⟩ := handleValues_maximum values [] mt hk (by simpa using hc)
      (fun h => absurd rfl h) (by simpa using hn)
    obtain ⟨c1, c2⟩ := hcnt mt' h1
    refine ⟨mt', h1, c1, ?_, ?_⟩
    · intro he
      rw [c2, h2 he, hv]
    · intro hne
      rw [c2]
      simpa using h3 (by simpa using hne)
  · intro hk
    obtain ⟨mt', h1, h2, h3⟩ := handleValues_minimum values [] mt hk (by simpa using hc)
      (fun h => absurd rfl h) (by simpa using hn)
    obtain ⟨c1, c2⟩ := hcnt mt' h1
    refine ⟨mt', h1, c1, ?_, ?_⟩
    · intro he
      rw [c2, h2 he, hv]
    · intro hne
      rw [c2]
      simpa using h3 (by simpa using hne)

/-- C3 on all-negative values: the Maximum of [-3, -1, -2] is -1, with count 3. -/
theorem extremum_get_of_values_witness :
    ∃ mt', handleValues (zeroMetric .metricMaximum false 0 [] []) [-3, -1, -2] = some mt' ∧
      mt'.get = (-1, 3) := by
  obtain ⟨mt', h1, h2, -, h4⟩ := (extremum_get_of_values
    (zeroMetric .metricMaximum false 0 [] []) [-3, -1, -2] rfl rfl rfl (by decide)).1 rfl
  refine ⟨mt', h1, ?_⟩
  obtain ⟨hm, hub⟩ := h4 (List.cons_ne_nil _ _)
  have h5 : (-1 : ℚ) ≤ mt'.get.1 := hub (-1) (by simp)
  have h6 : mt'.get.1 = -1 := by
    simp only [List.mem_cons, List.mem_singleton, List.not_mem_nil, or_false] at hm
    rcases hm with h | h | h
    · rw [h] at h5; norm_num at h5
    · exact h
    · rw [h] at h5; norm_num at h5
  apply Prod.ext
  · exact h6
  · rw [h2]; rfl

/-- C3 as stated fails in two ways. A zeroed Maximum metric with `normalizeByInterval`
set (as `registerMetric` can build it) and a 2 s interval reports 2 for the single value 4.
And after 2147483648 samples the int32 counter has wrapped to -2147483648. -/
theorem extremum_get_normalized_or_wrapped :
    (handleValues (zeroMetric .metricMaximum true (2 * Second) [] []) [4]).map
        graphiteMetric.get = some (2, 1) ∧
      ∃ mt', handleValues (zeroMetric .metricMaximum false 0 [] [])
          (List.replicate 2147483648 1) = some mt' ∧ mt'.get.2 = -2147483648 := by
  constructor
  · norm_num [handleValues, graphiteMetric.handleValue, graphiteMetric.get, zeroMetric,
      wrapInt32, Second]
  · obtain ⟨mt', h1, h2⟩ := handleValues_count (zeroMetric .metricMaximum false 0 [] [])
      (List.replicate 2147483648 1) (by intro h; cases h) rfl
    exact ⟨mt', h1, by rw [get_snd, h2, List.length_replicate, wrapInt32_two_pow_31]⟩

/-- C4: for every non-empty sequence of values applied with `handleValue` to a Gauge metric
with `normalizeByInterval` false, whatever its prior state, every call returns and the value
given by `get` is the last value of the sequence. -/
theorem gauge_get_last (mt : graphiteMetric) (values : List ℚ)
    (hk : mt.mType = .metricGauge) (hnorm : mt.normalizeByInterval = false)
    (hne : values ≠ []) :
    ∃ mt', handleValues mt values = some mt' ∧ mt'.get.1 = values.getLast hne := by
  obtain ⟨mt', h1, h2⟩ := handleValues_gauge values mt hk
  refine ⟨mt', h1, ?_⟩
  have f2 : mt'.normalizeByInterval = mt.normalizeByInterval := by
    cases values with
    | nil => exact absurd rfl hne
    | cons v rest =>
      unfold handleValues at h1
      cases h0 : mt.handleValue v with
      | none => simp [h0] at h1
      | some m1 =>
        simp only [h0] at h1
        obtain ⟨-, a2, -, -, -, a6⟩ := handleValue_frame h0
        exact (handleValues_frame (a6 ▸ wrapInt32_inInt32 _) h1).2.1.trans a2
  unfold graphiteMetric.get
  rw [f2, hnorm, h2, List.getLast?_eq_getLast _ hne]
  rfl

/-- C4 at the values of `TestGauge3Values`, from a state that already holds samples:
[1, 1000000, 42] leave 42. -/
theorem gauge_get_last_witness :
    ∃ mt', handleValues { zeroMetric .metricGauge false 0 [] [] with value := 7, counter := 3 }
        [1, 1000000, 42] = some mt' ∧ mt'.get.1 = 42 := by
  obtain ⟨mt', h1, h2⟩ := gauge_get_last
    { zeroMetric .metricGauge false 0 [] [] with value := 7, counter := 3 }
    [1, 1000000, 42] rfl rfl (List.cons_ne_nil _ _)
  exact ⟨mt', h1, by rw [h2]; rfl⟩

/-- C5, as amended: for strictly ascending boundaries b0 < ... < b(k-1) with k ≥ 1 and every
sequence of fewer than 2^31 values applied with `handleValue` to a zeroed Histogram metric
with k+1 buckets, every call returns and `getHist` gives k+1 buckets and the count N, where
bucket 0 is the number of values v < b0, bucket i (0 < i < k) the number of values with
b(i-1) ≤ v < b(i), and bucket k the number of values v ≥ b(k-1). -/
theorem hist_buckets_of_values (mt : graphiteMetric) (values : List ℚ)
    (hk : mt.mType = .metricHist) (hc : mt.counter = 0)
    (hz : mt.hist = List.replicate (mt.histRanges.length + 1) 0)
    (hpos : 0 < mt.histRanges.length) (hasc : mt.histRanges.Chain' (· < ·))
    (hn : values.length < 2147483648) :
    ∃ mt', handleValues mt values = some mt' ∧
      mt'.getHist.2 = (values.length : Int) ∧
      mt'.getHist.1.length = mt.histRanges.length + 1 ∧
      mt'.getHist.1[0]? =
        some ((values.countP fun v => decide (v < mt.histRanges[0]) : Nat) : Int) ∧
      (∀ i (_ : 0 < i) (_ : i < mt.histRanges.length), mt'.getHist.1[i]? =
        some ((values.countP fun v =>
          decide (mt.histRanges[i - 1] ≤ v ∧ v < mt.histRanges[i]) : Nat) : Int)) ∧
      mt'.getHist.1[mt.histRanges.length]? =
        some ((values.countP fun v =>
          decide (mt.histRanges[mt.histRanges.length - 1] ≤ v) : Nat) : Int) := by
  have hlen : mt.hist.length = mt.histRanges.length + 1 := by
    rw [hz, List.length_replicate]
  have hin : ∀ i, inInt32 (mt.hist.getD i 0) := by
    intro i
    have : mt.hist.getD i 0 = 0 := by
      rw [hz, List.getD_eq_getElem?_getD, List.getElem?_replicate]
      split <;> rfl
    rw [this]
    unfold inInt32
    omega
  obtain ⟨mt', h1, h2, h3⟩ := handleValues_hist values mt hk hlen hin
  obtain ⟨-, -, -, -, -, f6⟩ :=
    handleValues_frame (by rw [hc]; unfold inInt32; omega) h1
  have hpt : ∀ i, i ≤ mt.histRanges.length → mt'.hist[i]? =
      some ((values.countP fun v => decide (bucketIndex mt.histRanges v = i) : Nat) : Int) := by
    intro i hi
    have hi' : i < mt.hist.length := by omega
    have hi'' : i < mt'.hist.length := by omega
    have hcount := @List.countP_le_length _ (fun v => decide (bucketIndex mt.histRanges v = i))
      values
    have h4 := h3 i hi'
    have h0 : mt.hist.getD i 0 = 0 := by
      rw [hz, List.getD_eq_getElem?_getD, List.getElem?_replicate]
      split <;> rfl
    rw [h0, zero_add, wrapInt32_of_inInt32 (by unfold inInt32; omega),
      List.getD_eq_getElem?_getD, List.getElem?_eq_getElem hi'', Option.getD_some] at h4
    rw [List.getElem?_eq_getElem hi'', h4]
  refine ⟨mt', h1, ?_, ?_, ?_, ?_, ?_⟩
  · show mt'.counter = _
    rw [f6, hc, zero_add]
    apply wrapInt32_of_inInt32
    unfold inInt32
    omega
  · show mt'.hist.length = _
    omega
  · show mt'.hist[0]? = _
    rw [hpt 0 (Nat.zero_le _)]
    congr 2
    apply List.countP_congr
    intro v _
    simp only [decide_eq_true_eq]
    rw [bucketIndex_eq_iff _ hasc v 0 (Nat.zero_le _)]
    constructor
    · intro h
      exact h.1 hpos
    · intro h
      exact ⟨fun _ => h, fun h0 => absurd h0 (lt_irrefl 0)⟩
  · intro i h0 hi
    show mt'.hist[i]? = _
    rw [hpt i (le_of_lt hi)]
    congr 2
    apply List.countP_congr
    intro v _
    simp only [decide_eq_true_eq]
    rw [bucketIndex_eq_iff _ hasc v i (le_of_lt hi)]
    constructor
    · intro h
      exact ⟨h.2 h0, h.1 hi⟩
    · intro h
      exact ⟨fun _ => h.2, fun _ => h.1⟩
  · show mt'.hist[mt.histRanges.length]? = _
    rw [hpt _ (le_refl _)]
    congr 2
    apply List.countP_congr
    intro v _
    simp only [decide_eq_true_eq]
    rw [bucketIndex_eq_iff _ hasc v _ (le_refl _)]
    constructor
    · intro h
      exact h.2 hpos
    · intro h
      exact ⟨fun hlt => absurd hlt (lt_irrefl _), fun _ => h⟩

/-- C5 at the values of `TestHist15Values`: boundaries [5,10,15,20] and the fifteen values
of the test give the buckets [3,4,3,4,1] and the count 15. -/
theorem hist_buckets_of_values_witness :
    ∃ mt', handleValues (zeroMetric .metricHist false 0 [5, 10, 15, 20] [0, 0, 0, 0, 0])
        [7, 10, -8, 6, 11, 0, 1, 5, 1000000, 17, 17, 17, 19, 6, 10] = some mt' ∧
      mt'.getHist = ([3, 4, 3, 4, 1], 15) := by
  obtain ⟨mt', h1, h2, h3, h4, h5, h6⟩ := hist_buckets_of_values
    (zeroMetric .metricHist false 0 [5, 10, 15, 20] [0, 0, 0, 0, 0])
    [7, 10, -8, 6, 11, 0, 1, 5, 1000000, 17, 17, 17, 19, 6, 10] rfl rfl rfl
    (by simp [zeroMetric]) (by norm_num [zeroMetric]) (by simp)
  refine ⟨mt', h1, ?_⟩
  have e1 := h5 1 (by omega) (by simp [zeroMetric])
  have e2 := h5 2 (by omega) (by simp [zeroMetric])
  have e3 := h5 3 (by omega) (by simp [zeroMetric])
  simp only [zeroMetric, List.length_cons, List.length_nil] at h3 h6
  norm_num [zeroMetric, List.countP_cons] at h4 e1 e2 e3 h6
  apply Prod.ext
  · apply List.ext_getElem?
    intro n
    rcases n with _ | _ | _ | _ | _ | n
    · simpa using h4
    · simpa using e1
    · simpa using e2
    · simpa using e3
    · simpa using h6
    · rw [List.getElem?_eq_none (by rw [h3]; omega)]
      simp
  · rw [h2]
    rfl

/-- C5 as stated fails once a bucket receives 2^31 values: with the single boundary 0 and
2147483648 samples of value -1, all below the boundary, bucket 0 has wrapped to
-2147483648. -/
theorem hist_bucket_wraps :
    ∃ mt', handleValues (zeroMetric .metricHist false 0 [0] [0, 0])
        (List.replicate 2147483648 (-1)) = some mt' ∧
      mt'.getHist.1[0]? = some (-2147483648) ∧
      (List.replicate 2147483648 (-1 : ℚ)).countP (fun v => decide (v < 0)) = 2147483648 := by
  have hb : bucketIndex [0] (-1) = 0 := by
    norm_num [bucketIndex, histHit]
  have hin : ∀ i, inInt32 ((zeroMetric .metricHist false 0 [0] [0, 0]).hist.getD i 0) := by
    intro i
    have : (zeroMetric .metricHist false 0 [0] [0, 0]).hist.getD i 0 = 0 := by
      rcases i with _ | _ | i <;> simp [zeroMetric]
    rw [this]
    unfold inInt32
    omega
  obtain ⟨mt', h1, h2, h3⟩ := handleValues_hist (List.replicate 2147483648 (-1))
    (zeroMetric .metricHist false 0 [0] [0, 0]) rfl rfl hin
  have h4 := h3 0 (by simp [zeroMetric])
  have hl : 0 < mt'.hist.length := by rw [h2]; simp [zeroMetric]
  refine ⟨mt', h1, ?_, ?_⟩
  · show mt'.hist[0]? = _
    rw [List.getD_eq_getElem?_getD, List.getElem?_eq_getElem hl, Option.getD_some] at h4
    rw [List.getElem?_eq_getElem hl, h4, List.countP_replicate]
    have : (zeroMetric .metricHist false 0 [0] [0, 0]).histRanges = [0] := rfl
    rw [this, hb]
    norm_num [zeroMetric, wrapInt32]
  · rw [List.countP_replicate]
    norm_num

/-- C6, as amended: for every metric kind, every value and every metric state of the
registered shape whose counter is an int32 below 2147483647, one call of `handleValue`
returns and increases the counter by exactly one; consequently after N < 2^31 calls from a
counter at zero the count given by `get` and by `getHist` is N. -/
theorem handleValue_counter_succ (mt : graphiteMetric) (hs : histShaped mt) :
    (∀ v : ℚ, -2147483648 ≤ mt.counter → mt.counter < 2147483647 →
      ∃ mt', mt.handleValue v = some mt' ∧ mt'.counter = mt.counter + 1) ∧
    (∀ values : List ℚ, mt.counter = 0 → values.length < 2147483648 →
      ∃ mt', handleValues mt values = some mt' ∧
        mt'.get.2 = (values.length : Int) ∧ mt'.getHist.2 = (values.length : Int)) := by
  constructor
  · intro v hlo hhi
    obtain ⟨mt', h1⟩ := handleValue_returns mt v hs
    refine ⟨mt', h1, ?_⟩
    rw [(handleValue_frame h1).2.2.2.2.2]
    apply wrapInt32_of_inInt32
    unfold inInt32
    omega
  · intro values hc hn
    obtain ⟨mt', h1, h2⟩ := handleValues_count mt values hs hc
    have h3 : mt'.counter = (values.length : Int) := by
      rw [h2]
      apply wrapInt32_of_inInt32
      unfold inInt32
      omega
    exact ⟨mt', h1, by rw [get_snd, h3], h3⟩

/-- C6 on a Histogram metric with boundaries [5, 10]: one call takes the counter from 0
to 1, two calls give the count 2. -/
theorem handleValue_counter_succ_witness :
    (∃ mt', (zeroMetric .metricHist false 0 [5, 10] [0, 0, 0]).handleValue 7 = some mt' ∧
      mt'.counter = 1) ∧
    (∃ mt', handleValues (zeroMetric .metricHist false 0 [5, 10] [0, 0, 0]) [7, 3]
        = some mt' ∧ mt'.get.2 = 2 ∧ mt'.getHist.2 = 2) := by
  have h := handleValue_counter_succ (zeroMetric .metricHist false 0 [5, 10] [0, 0, 0])
    (fun _ => rfl)
  exact ⟨h.1 7 (by decide) (by decide), h.2 [7, 3] rfl (by decide)⟩

/-- C6 as stated fails on two states. At counter 2147483647 the increment wraps to
-2147483648. And on a Histogram metric without buckets (the zero value of the struct with
only the kind set) `handleValue` indexes `hist` out of range and does not return. -/
theorem handleValue_counter_wraps_or_faults :
    ({ zeroMetric .metricCounter false 0 [] [] with counter := 2147483647 }.handleValue 1).map
        graphiteMetric.counter = some (-2147483648) ∧
      (zeroMetric .metricHist false 0 [] []).handleValue 1 = none := by
  constructor
  · norm_num [graphiteMetric.handleValue, zeroMetric, wrapInt32]
  · simp [graphiteMetric.handleValue, zeroMetric, histHit]

/-- C7: for every metric state, `reset` sets `value` and `counter` to 0 and every bucket
to 0, keeps the number of buckets, and leaves `mType`, `normalizeByInterval`,
`flushInterval` and `histRanges` unchanged. -/
theorem reset_zeroes_and_keeps_config (mt : graphiteMetric) :
    mt.reset.value = 0 ∧ mt.reset.counter = 0 ∧
      mt.reset.hist = List.replicate mt.hist.length 0 ∧
      mt.reset.hist.length = mt.hist.length ∧
      mt.reset.mType = mt.mType ∧
      mt.reset.normalizeByInterval = mt.normalizeByInterval ∧
      mt.reset.flushInterval = mt.flushInterval ∧
      mt.reset.histRanges = mt.histRanges := by
  refine ⟨rfl, rfl, ?_, ?_, rfl, rfl, rfl, rfl⟩
  · show mt.hist.map (fun _ => (0 : Int)) = _
    exact List.map_const' mt.hist 0
  · show (mt.hist.map (fun _ => (0 : Int))).length = _
    exact List.length_map _ _

/-- C8: on a constructed, enabled Graphite, `registerMetric` returns an error if and only
if the name is already in the registry, and then the Graphite, with its registry and the
existing metric, is unchanged; otherwise it returns nil and only the registry changes: it
gains exactly one entry, under the name, all other entries staying as they were, whose
kind, `normalizeByInterval` and `histRanges` are the arguments, whose `flushInterval` is
the Graphite's, whose `value` and `counter` are 0 and whose `hist` is `len(ranges)+1`
zeroed counters. -/
theorem registerMetric_spec (g : Graphite) (ms : List (String × graphiteMetric))
    (name : String) (kind : metricType) (norm : Bool) (ranges : List ℚ)
    (hm : g.metrics = some ms) (hen : g.disabled = false) :
    ((Graphite.registerMetric (some g) name kind norm ranges).2 ≠ none ↔
        ∃ m, ms.lookup name = some m) ∧
      ((∃ m, ms.lookup name = some m) →
        (Graphite.registerMetric (some g) name kind norm ranges).1 = some g) ∧
      (ms.lookup name = none →
        ∃ ms' v, Graphite.registerMetric (some g) name kind norm ranges
            = (some { g with metrics := some ms' }, none) ∧
          ms'.lookup name = some v ∧
          (∀ other, other ≠ name → ms'.lookup other = ms.lookup other) ∧
          ms'.length = ms.length + 1 ∧
          v.mType = kind ∧ v.normalizeByInterval = norm ∧ v.histRanges = ranges ∧
          v.flushInterval = g.flushInterval ∧ v.value = 0 ∧ v.counter = 0 ∧
          v.hist = List.replicate (ranges.length + 1) 0) := by
  cases hl : ms.lookup name with
  | some m =>
    have hr : Graphite.registerMetric (some g) name kind norm ranges =
        (some g, some ⟨"RegisterMetric: Metric %s already exist", [.str name]⟩) := by
      simp [Graphite.registerMetric, hm, hen, hl]
    rw [hr]
    refine ⟨?_, fun _ => rfl, fun h => absurd h (by simp)⟩
    simp
  | none =>
    have hr : Graphite.registerMetric (some g) name kind norm ranges =
        (some { g with metrics := some (ms ++ [(name,
            { mType := kind, value := 0, counter := 0, normalizeByInterval := norm,
              flushInterval := g.flushInterval, histRanges := ranges,
              hist := List.replicate (ranges.length + 1) 0 })]) }, none) := by
      simp [Graphite.registerMetric, hm, hen, hl]
    rw [hr]
    refine ⟨by simp, fun h => ?_, fun _ => ?_⟩
    · obtain ⟨m, h⟩ := h
      exact absurd h (by simp)
    · refine ⟨ms ++ [(name,
            { mType := kind, value := 0, counter := 0, normalizeByInterval := norm,
              flushInterval := g.flushInterval, histRanges := ranges,
              hist := List.replicate (ranges.length + 1) 0 })],
          { mType := kind, value := 0, counter := 0, normalizeByInterval := norm,
              flushInterval := g.flushInterval, histRanges := ranges,
              hist := List.replicate (ranges.length + 1) 0 },
          rfl, ?_, ?_, ?_, rfl, rfl, rfl, rfl, rfl, rfl, rfl⟩
      · rw [lookup_append_entry, if_pos rfl, hl]
        rfl
      · intro other hne
        rw [lookup_append_entry, if_neg hne]
      · simp

/-- C8 on the Graphite of `TestRegisterMetric`: registering "average" with the boundaries
[1, 2, 3] succeeds and stores a metric with four zeroed buckets and the 2 s interval. -/
theorem registerMetric_spec_witness :
    ∃ ms' v, Graphite.registerMetric (some testGraphite) "average" .metricAverage true
        [1, 2, 3] = (some { testGraphite with metrics := some ms' }, none) ∧
      ms'.lookup "average" = some v ∧ ms'.length = 1 ∧ v.mType = .metricAverage ∧
      v.normalizeByInterval = true ∧ v.histRanges = [1, 2, 3] ∧
      v.flushInterval = 2 * Second ∧ v.hist = [0, 0, 0, 0] := by
  obtain ⟨ms', v, h1, h2, -, h4, h5, h6, h7, h8, -, -, h11⟩ :=
    (registerMetric_spec testGraphite [] "average" .metricAverage true [1, 2, 3]
      rfl rfl).2.2 rfl
  exact ⟨ms', v, h1, h2, h4, h5, h6, h7, h8, h11⟩

/-- C9: `NewGraphite` with `disabled = false` returns an error and a nil Graphite if and
only if `flushInterval` is less than one second, and returns a Graphite and no error
otherwise; with `disabled = true` it returns a Graphite and no error for every
`flushInterval` (0 included) and every host, port and prefix. -/
theorem NewGraphite_error_iff (host : String) (port : Fin 65536) (pfx : String)
    (flushInterval : Int) :
    (((NewGraphite host port pfx flushInterval false).2 ≠ none ∧
        (NewGraphite host port pfx flushInterval false).1 = none) ↔ flushInterval < Second) ∧
      (¬ flushInterval < Second →
        (NewGraphite host port pfx flushInterval false).2 = none ∧
        (NewGraphite host port pfx flushInterval false).1 ≠ none) ∧
      (NewGraphite host port pfx flushInterval true).2 = none ∧
      (NewGraphite host port pfx flushInterval true).1 ≠ none := by
  by_cases h : flushInterval < Second
  · simp [NewGraphite, h]
  · simp [NewGraphite, h]

/-- C10: for every enabled `NewGraphite` call that succeeds, the stored prefix is empty
when the given prefix is empty, the given prefix when that ends with '.', and the given
prefix followed by one '.' otherwise; so the stored prefix is empty or ends with '.', and
giving the stored prefix to `NewGraphite` again stores it unchanged. -/
theorem NewGraphite_prefix (host : String) (port : Fin 65536) (pfx : String)
    (flushInterval : Int) (h : Second ≤ flushInterval) :
    ∃ g, NewGraphite host port pfx flushInterval false = (some g, none) ∧
      (pfx = "" → g.pfx = "") ∧
      (pfx.data.getLast? = some '.' → g.pfx = pfx) ∧
      (pfx ≠ "" → pfx.data.getLast? ≠ some '.' → g.pfx = pfx ++ ".") ∧
      (g.pfx = "" ∨ g.pfx.data.getLast? = some '.') ∧
      ∃ g', NewGraphite host port g.pfx flushInterval false = (some g', none) ∧
        g'.pfx = g.pfx := by
  have key : ∀ p : String,
      (p = "" → (if p.length > 0 then (if p.back ≠ '.' then p ++ "." else p) else "") = "") ∧
      (p.data.getLast? = some '.' →
        (if p.length > 0 then (if p.back ≠ '.' then p ++ "." else p) else "") = p) ∧
      (p ≠ "" → p.data.getLast? ≠ some '.' →
        (if p.length > 0 then (if p.back ≠ '.' then p ++ "." else p) else "") = p ++ ".") := by
    intro p
    refine ⟨?_, ?_, ?_⟩
    · intro he
      subst he
      rfl
    · intro hd
      have hne : p ≠ "" := by
        intro he
        subst he
        simp at hd
      rw [if_pos ((length_pos_iff_ne_empty p).mpr hne),
        if_neg (not_not.mpr ((back_eq_dot_iff p hne).mpr hd))]
    · intro hne hd
      rw [if_pos ((length_pos_iff_ne_empty p).mpr hne),
        if_pos (fun hb => hd ((back_eq_dot_iff p hne).mp hb))]
  obtain ⟨g, hg, hp⟩ := NewGraphite_enabled host port pfx flushInterval h
  obtain ⟨k1, k2, k3⟩ := key pfx
  have hnorm : g.pfx = "" ∨ g.pfx.data.getLast? = some '.' := by
    by_cases he : pfx = ""
    · exact Or.inl (hp.trans (k1 he))
    · by_cases hd : pfx.data.getLast? = some '.'
      · exact Or.inr (by rw [hp.trans (k2 hd)]; exact hd)
      · refine Or.inr ?_
        rw [hp.trans (k3 he hd), String.data_append]
        simp
  refine ⟨g, hg, fun he => hp.trans (k1 he), fun hd => hp.trans (k2 hd),
    fun he hd => hp.trans (k3 he hd), hnorm, ?_⟩
  obtain ⟨g', hg', hp'⟩ := NewGraphite_enabled host port g.pfx flushInterval h
  refine ⟨g', hg', ?_⟩
  rcases hnorm with he | hd
  · exact hp'.trans ((key g.pfx).1 he |>.trans he.symm)
  · exact hp'.trans ((key g.pfx).2.1 hd)

/-- C10 at the calls of `TestNewGraphite`: the prefix "prefix" is stored as "prefix.". -/
theorem NewGraphite_prefix_witness :
    ∃ g, NewGraphite "localhost" 0 "prefix" (2 * Second) false = (some g, none) ∧
      g.pfx = "prefix." := by
  obtain ⟨g, h1, -, -, h4, -, -⟩ :=
    NewGraphite_prefix "localhost" 0 "prefix" (2 * Second) (by decide)
  exact ⟨g, h1, h4 (by decide) (by decide)⟩

/-- C13: on an enabled Graphite, `Start` returns an error and changes nothing when the
Graphite is not constructed (nil, or nil registry) or has already been started, and
otherwise returns nil, sets `started`, makes the stop channel and the ticker and starts the
loop; `Stop` returns an error and changes nothing when the Graphite is not constructed or
`Start` has not been called, and returns nil, closing the stop channel, when called after
a successful `Start`. -/
theorem Start_Stop_spec (g : Graphite) (ms : List (String × graphiteMetric))
    (hm : g.metrics = some ms) (hen : g.disabled = false) (hfi : 0 < g.flushInterval) :
    (∃ e, Graphite.Start none = .returned none (some e) false) ∧
    (∀ g0 : Graphite, g0.metrics = none →
      ∃ e, Graphite.Start (some g0) = .returned (some g0) (some e) false) ∧
    (g.started = true → ∃ e, Graphite.Start (some g) = .returned (some g) (some e) false) ∧
    (g.started = false →
      Graphite.Start (some g) = .returned (some { g with
        stopChan := some false, ticker := some g.flushInterval, started := true }) none true) ∧
    (∃ e, Graphite.Stop none = .returned none (some e) false) ∧
    (∀ g0 : Graphite, g0.metrics = none →
      ∃ e, Graphite.Stop (some g0) = .returned (some g0) (some e) false) ∧
    (g.started = false → ∃ e, Graphite.Stop (some g) = .returned (some g) (some e) false) ∧
    (∀ g' : Graphite, Graphite.Start (some g) = .returned (some g') none true →
      Graphite.Stop (some g') = .returned (some { g' with stopChan := some true }) none false) ∧
    (g.started = true → g.stopChan = some false →
      Graphite.Stop (some g) = .returned (some { g with stopChan := some true }) none false) := by
  have hfi' : ¬ g.flushInterval ≤ 0 := not_le.mpr hfi
  refine ⟨⟨_, rfl⟩, ?_, ?_, ?_, ⟨_, rfl⟩, ?_, ?_, ?_, ?_⟩
  · intro g0 h0
    exact ⟨⟨"Start: Call NewGraphite() before Start()", []⟩, by simp [Graphite.Start, h0]⟩
  · intro hs
    exact ⟨⟨"Graphite already started", []⟩, by simp [Graphite.Start, hm, hen, hs]⟩
  · intro hs
    simp [Graphite.Start, hm, hen, hs, hfi']
  · intro g0 h0
    exact ⟨⟨"Stop: Call NewGraphite() before Stop()", []⟩, by simp [Graphite.Stop, h0]⟩
  · intro hs
    exact ⟨⟨"Stop: Call Start() before Stop()", []⟩, by simp [Graphite.Stop, hm, hen, hs]⟩
  · intro g' hg'
    by_cases hs : g.started = true
    · simp [Graphite.Start, hm, hen, hs] at hg'
    · simp only [Bool.not_eq_true] at hs
      simp only [Graphite.Start, hm, hen, hs, hfi', if_false, Bool.false_eq_true,
        CallResult.returned.injEq, Option.some.injEq, and_true] at hg'
      subst hg'
      simp [Graphite.Stop, hm, hen]
  · intro hs hc
    simp [Graphite.Stop, hm, hen, hs, hc]

/-- C13 on the Graphite of `TestStart` and `TestStop`: `Start` returns nil and sets
`started`, a second `Start` returns an error, and `Stop` then returns nil. -/
theorem Start_Stop_spec_witness :
    Graphite.Start (some testGraphite) = .returned (some { testGraphite with
        stopChan := some false, ticker := some (2 * Second), started := true }) none true ∧
    (∃ e, Graphite.Start (some { testGraphite with
        stopChan := some false, ticker := some (2 * Second), started := true }) =
      .returned (some { testGraphite with
        stopChan := some false, ticker := some (2 * Second), started := true })
        (some e) false) ∧
    Graphite.Stop (some { testGraphite with
        stopChan := some false, ticker := some (2 * Second), started := true }) =
      .returned (some { testGraphite with
        stopChan := some true, ticker := some (2 * Second), started := true }) none false := by
  have h := Start_Stop_spec testGraphite [] rfl rfl (by decide)
  have h1 := h.2.2.2.1 rfl
  exact ⟨h1,
    (Start_Stop_spec { testGraphite with
      stopChan := some false, ticker := some (2 * Second), started := true } [] rfl rfl
      (by decide)).2.2.1 rfl,
    h.2.2.2.2.2.2.2.1 _ h1⟩

/-- C12: on an enabled Graphite, `HandleValue(name, value)` returns an error if and only
if the Graphite is not constructed (nil, or nil registry), or `Start` has not been called,
or the name is not in the registry; when it returns an error the Graphite is unchanged, so
nothing is enqueued; when it returns nil exactly the sample `{name, value}` has been
appended at the tail of the queue and nothing else changed, no metric in particular; and
it does return nil in the remaining case while the queue has room. -/
theorem HandleValue_spec (gr : Option Graphite) (name : String) (value : ℚ)
    (hen : ∀ g, gr = some g → g.disabled = false) :
    ((∃ gr' e spawn, Graphite.HandleValue gr name value = .returned gr' (some e) spawn) ↔
      (gr = none ∨ ∃ g, gr = some g ∧
        (g.metrics = none ∨ g.started = false ∨ (g.metrics.getD []).lookup name = none))) ∧
    (∀ gr' e spawn, Graphite.HandleValue gr name value = .returned gr' (some e) spawn →
      gr' = gr ∧ spawn = false) ∧
    (∀ gr' spawn, Graphite.HandleValue gr name value = .returned gr' none spawn →
      ∃ g queue, gr = some g ∧ g.valuesChan = some queue ∧
        gr' = some { g with valuesChan := some (queue ++ [⟨name, value⟩]) } ∧
        spawn = false) ∧
    (∀ g ms m queue, gr = some g → g.metrics = some ms → g.started = true →
      ms.lookup name = some m → g.valuesChan = some queue → queue.length < valuesChanSize →
      Graphite.HandleValue gr name value =
        .returned (some { g with valuesChan := some (queue ++ [⟨name, value⟩]) }) none false) := by
  cases gr with
  | none =>
    have hr : Graphite.HandleValue none name value = .returned none
        (some ⟨"HandleValue: Call NewGraphite() before HandleValue()", []⟩) false := rfl
    rw [hr]
    refine ⟨⟨fun _ => Or.inl rfl, fun _ => ⟨_, _, _, rfl⟩⟩, ?_, ?_, ?_⟩
    · intro gr' e spawn h
      cases h
      exact ⟨rfl, rfl⟩
    · intro gr' spawn h
      cases h
    · intro g ms m queue hg
      cases hg
  | some g =>
    have hd := hen g rfl
    cases hm : g.metrics with
    | none =>
      have hr : Graphite.HandleValue (some g) name value = .returned (some g) (some ⟨"HandleValue: Call NewGraphite() before HandleValue()", []⟩) false := by
        simp [Graphite.HandleValue, hm]
      rw [hr]
      refine ⟨⟨fun _ => Or.inr ⟨g, rfl, Or.inl hm⟩, fun _ => ⟨_, _, _, rfl⟩⟩, ?_, ?_, ?_⟩
      · intro gr' e spawn h
        cases h
        exact ⟨rfl, rfl⟩
      · intro gr' spawn h
        cases h
      · intro g' ms' m' queue hg hm' hs' hl'
        cases hg
        exact absurd (by rw [hm] at hm'; cases hm') id
    | some ms =>
      by_cases hs : g.started = true
      · cases hl : ms.lookup name with
        | none =>
          have hr : Graphite.HandleValue (some g) name value = .returned (some g) (some ⟨"HandleValue: Metric %s don't exist", [.str name]⟩) false := by
            simp [Graphite.HandleValue, hm, hd, hs, hl]
          rw [hr]
          refine ⟨⟨fun _ => Or.inr ⟨g, rfl, Or.inr (Or.inr (by rw [hm]; simpa using hl))⟩, fun _ => ⟨_, _, _, rfl⟩⟩, ?_, ?_, ?_⟩
          · intro gr' e spawn h
            cases h
            exact ⟨rfl, rfl⟩
          · intro gr' spawn h
            cases h
          · intro g' ms' m' queue hg hm' hs' hl'
            cases hg
            exact absurd (by rw [hm] at hm'; cases hm'; rw [hl] at hl'; cases hl') id
        | some m =>
          have hcond : ¬ (g.metrics = none ∨ g.started = false ∨
              (g.metrics.getD []).lookup name = none) := by
            rw [hm]
            simp [hs, hl]
          have hiff : ∀ r : CallResult, (∀ gr' e spawn, r ≠ .returned gr' (some e) spawn) →
              ((∃ gr' e spawn, r = .returned gr' (some e) spawn) ↔
                (some g = none ∨ ∃ g', some g = some g' ∧
                  (g'.metrics = none ∨ g'.started = false ∨
                    (g'.metrics.getD []).lookup name = none))) := by
            intro r hne
            constructor
            · rintro ⟨gr', e, spawn, h⟩
              exact absurd h (hne gr' e spawn)
            · rintro (h | ⟨g', hg, h⟩)
              · cases h
              · cases hg
                rw [hm] at hcond h
                exact absurd h hcond
          cases hq : g.valuesChan with
          | none =>
            have hr : Graphite.HandleValue (some g) name value = .blocked := by
              simp [Graphite.HandleValue, hm, hd, hs, hl, hq]
            rw [hr]
            refine ⟨hiff _ (fun _ _ _ h => by cases h), ?_, ?_, ?_⟩
            · intro gr' e spawn h
              cases h
            · intro gr' spawn h
              cases h
            · intro g' ms' m' queue hg _ _ _ hq'
              cases hg
              rw [hq] at hq'
              cases hq'
          | some queue =>
            by_cases hroom : queue.length < valuesChanSize
            · have hr : Graphite.HandleValue (some g) name value = .returned
                  (some { g with valuesChan := some (queue ++ [⟨name, value⟩]) }) none false := by
                simp [Graphite.HandleValue, hm, hd, hs, hl, hq, hroom]
              rw [hr]
              refine ⟨hiff _ (fun _ _ _ h => by cases h), ?_, ?_, ?_⟩
              · intro gr' e spawn h
                cases h
              · intro gr' spawn h
                cases h
                exact ⟨g, queue, rfl, hq, rfl, rfl⟩
              · intro g' ms' m' queue' hg _ _ _ hq' _
                cases hg
                rw [hq] at hq'
                cases hq'
                rfl
            · have hr : Graphite.HandleValue (some g) name value = .blocked := by
                simp [Graphite.HandleValue, hm, hd, hs, hl, hq, hroom]
              rw [hr]
              refine ⟨hiff _ (fun _ _ _ h => by cases h), ?_, ?_, ?_⟩
              · intro gr' e spawn h
                cases h
              · intro gr' spawn h
                cases h
              · intro g' ms' m' queue' hg _ _ _ hq' hroom'
                cases hg
                rw [hq] at hq'
                cases hq'
                exact absurd hroom' hroom
      · simp only [Bool.not_eq_true] at hs
        have hr : Graphite.HandleValue (some g) name value = .returned (some g) (some ⟨"HandleValue: Call Start() before HandleValue()", []⟩) false := by
          simp [Graphite.HandleValue, hm, hd, hs]
        rw [hr]
        refine ⟨⟨fun _ => Or.inr ⟨g, rfl, Or.inr (Or.inl hs)⟩, fun _ => ⟨_, _, _, rfl⟩⟩, ?_, ?_, ?_⟩
        · intro gr' e spawn h
          cases h
          exact ⟨rfl, rfl⟩
        · intro gr' spawn h
          cases h
        · intro g' ms' m' queue hg hm' hs' hl'
          cases hg
          exact absurd (by rw [hs] at hs'; cases hs') id

/-- C12 on the calls of `TestHandleValue`: before `Start` the call returns an error; once
started and with "counter" registered it returns nil and the sample is queued. -/
theorem HandleValue_spec_witness :
    (∃ gr' e spawn, Graphite.HandleValue (some testGraphite) "counter" 1 =
      .returned gr' (some e) spawn) ∧
    Graphite.HandleValue (some { testGraphite with
        metrics := some [("counter", zeroMetric .metricCounter true (2 * Second) [] [0])],
        stopChan := some false, ticker := some (2 * Second), started := true }) "counter" 1 =
      .returned (some { testGraphite with
        metrics := some [("counter", zeroMetric .metricCounter true (2 * Second) [] [0])],
        stopChan := some false, ticker := some (2 * Second), started := true,
        valuesChan := some [⟨"counter", 1⟩] }) none false := by
  constructor
  · exact (HandleValue_spec (some testGraphite) "counter" 1
      (by intro g h; cases h; rfl)).1.mpr (Or.inr ⟨testGraphite, rfl, Or.inr (Or.inl rfl)⟩)
  · exact (HandleValue_spec (some { testGraphite with
        metrics := some [("counter", zeroMetric .metricCounter true (2 * Second) [] [0])],
        stopChan := some false, ticker := some (2 * Second), started := true }) "counter" 1
      (by intro g h; cases h; rfl)).2.2.2 _ _ _ [] rfl rfl rfl rfl rfl (by decide)

/-- C11: a Graphite constructed with `disabled = true` has an empty registry, `started`
false, no ticker, no stop channel and no sample queue; every finite sequence, in any
order, of `Register*`, `Start`, `HandleValue` and `Stop` calls on it returns nil for each
call and leaves it unchanged, no loop is started and nothing is written; and no iteration
of `handleChans` can take place. -/
theorem disabled_calls_are_noops (host : String) (port : Fin 65536) (pfx : String)
    (flushInterval : Int) (calls : List Call) :
    ∃ g, NewGraphite host port pfx flushInterval true = (some g, none) ∧
      g.metrics = some [] ∧ g.started = false ∧ g.ticker = none ∧ g.stopChan = none ∧
      g.valuesChan = none ∧ g.conn = none ∧
      runCalls (some g) calls = calls.map (fun _ => CallResult.returned (some g) none false) ∧
      System.run ⟨some g, false, []⟩ (calls.map Action.call) = some ⟨some g, false, []⟩ ∧
      ∀ e, System.step ⟨some g, false, []⟩ (Action.loop e) = none := by
  refine ⟨{ newGraphiteStruct with disabled := true, metrics := some [] }, rfl, rfl, rfl, rfl,
    rfl, rfl, rfl, ?_, ?_, ?_⟩
  · exact runCalls_disabled calls _ [] rfl rfl
  · exact System_run_disabled calls _ [] rfl rfl false []
  · intro e
    rfl

/-- What the methods do after a successful `Stop` on an enabled Graphite, whatever steps
follow: every later `Start` returns an error, changes nothing and does not start a loop;
a later `HandleValue` for a registered name is not refused: while the queue has room it
returns nil and appends the sample to the queue. -/
theorem after_Stop_spec (g g1 : Graphite) (hen : g.disabled = false)
    (hstop : Graphite.Stop (some g) = .returned (some g1) none false)
    (loop : Bool) (io : List IOEvent) (acts : List Action) (s2 : System)
    (hrun : System.run ⟨some g1, loop, io⟩ acts = some s2) :
    ∃ g2, s2.gr = some g2 ∧
      (∃ e, Graphite.Start (some g2) = .returned (some g2) (some e) false) ∧
      s2.step (.call .Start) = some s2 ∧
      ∀ name value m queue, (g2.metrics.getD []).lookup name = some m →
        g2.valuesChan = some queue → queue.length < valuesChanSize →
        Graphite.HandleValue (some g2) name value =
          .returned (some { g2 with valuesChan := some (queue ++ [⟨name, value⟩]) }) none
            false := by
  have hst := Started_of_Stop g g1 hen hstop
  obtain ⟨g2, h1, h2, -, -⟩ := (System_run_frame acts _ s2 hrun).2 g1 rfl
  have hst2 := h2 hst
  refine ⟨g2, h1, ⟨_, Start_of_Started g2 hst2⟩, ?_, ?_⟩
  · simp only [System.step, Call.run, h1, Start_of_Started g2 hst2, Bool.or_false]
    cases s2
    simp only at h1
    subst h1
    rfl
  · intro name value m queue hl hq hroom
    exact HandleValue_of_Started g2 hst2 name value m queue hl hq hroom

/-- On the Graphite of `TestHandleValue` after `Stop`: `Start` returns an error, and
`HandleValue("counter", 1)` returns nil and queues the sample. -/
theorem after_Stop_spec_witness :
    (∃ e, Graphite.Start (some stoppedGraphite) = .returned (some stoppedGraphite) (some e)
      false) ∧
    Graphite.HandleValue (some stoppedGraphite) "counter" 1 =
      .returned (some { stoppedGraphite with valuesChan := some ([] ++ [⟨"counter", 1⟩]) })
        none false := by
  obtain ⟨g2, h1, h2, -, h4⟩ := after_Stop_spec startedGraphite stoppedGraphite rfl
    (by decide!) false [] [] ⟨some stoppedGraphite, false, []⟩ rfl
  simp only [Option.some.injEq] at h1
  subst h1
  exact ⟨h2, h4 "counter" 1 (zeroMetric .metricCounter true (2 * Second) [] [0]) [] rfl rfl
    (by decide)⟩

/-- C14 on the Graphite of the tests: after `RegisterCounter("counter", true)`, `Start` and
a `Stop` that returns nil, `HandleValue("counter", 1)` passes the test of `started`, which
`Stop` never clears, returns nil and leaves the sample in the queue; it does so too once
the loop has taken the closing of the stop channel and returned. -/
theorem HandleValue_after_Stop_accepted :
    runCalls (NewGraphite "localhost" 0 "prefix" (2 * Second) false).1
        [.RegisterCounter "counter" true, .Start, .Stop, .HandleValue "counter" 1] =
      [.returned (some { testGraphite with
          metrics := some [("counter", zeroMetric .metricCounter true (2 * Second) [] [0])] })
          none false,
        .returned (some startedGraphite) none true,
        .returned (some stoppedGraphite) none false,
        .returned (some { stoppedGraphite with valuesChan := some [⟨"counter", 1⟩] }) none
          false] ∧
    System.run ⟨(NewGraphite "localhost" 0 "prefix" (2 * Second) false).1, false, []⟩
        [.call (.RegisterCounter "counter" true), .call .Start, .call .Stop, .loop .stop,
          .call (.HandleValue "counter" 1)] =
      some ⟨some { stoppedGraphite with valuesChan := some [⟨"counter", 1⟩] }, false, []⟩ := by
  decide!

/-- C20, as amended: once `Start` has succeeded on an enabled Graphite, every name
registered at `Start` stays registered through every later sequence of public calls and
loop iterations, in its place; the names are exactly those of `Start` as long as no
`Register*` call is made; and `registerMetric` with a new name still adds that name. -/
theorem registry_after_Start (g g1 : Graphite) (hen : g.disabled = false)
    (hstart : Graphite.Start (some g) = .returned (some g1) none true)
    (loop : Bool) (io : List IOEvent) (acts : List Action) (s2 : System)
    (hrun : System.run ⟨some g1, loop, io⟩ acts = some s2) :
    ∃ g2, s2.gr = some g2 ∧
      registeredNames (some g1) <+: registeredNames (some g2) ∧
      ((∀ a ∈ acts, a.isRegister = false) →
        registeredNames (some g2) = registeredNames (some g1)) ∧
      ∀ name kind norm ranges, name ∉ registeredNames (some g2) →
        registeredNames (Graphite.registerMetric (some g2) name kind norm ranges).1 =
          registeredNames (some g2) ++ [name] := by
  have hst := Started_of_Start g g1 hen hstart
  obtain ⟨g2, h1, h2, h3, h4⟩ := (System_run_frame acts _ s2 hrun).2 g1 rfl
  obtain ⟨a1, a2, a3⟩ := h2 hst
  refine ⟨g2, h1, h3, h4, ?_⟩
  intro name kind norm ranges hnot
  cases hm : g2.metrics with
  | none => rw [hm] at a1; cases a1
  | some ms =>
    have hl : ms.lookup name = none := by
      rw [List.lookup_eq_none_iff]
      intro p hp
      simp only [registeredNames, hm, Option.getD_some, List.mem_map, not_exists, not_and] at hnot
      have := hnot p hp
      simpa using fun h => this h.symm
    simp [Graphite.registerMetric, registeredNames, hm, a2, hl]

/-- C20 on the Graphite of `TestHandleValue`: after `Start`, `RegisterCounter`,
`HandleValue` and the loop iteration that applies the sample, "counter" is registered, and
`registerMetric` with the new name "gauge" adds it. -/
theorem registry_after_Start_witness :
    System.run ⟨some justStarted, true, []⟩
        [.call (.RegisterCounter "counter" true), .call (.HandleValue "counter" 1),
          .loop .value] = some ⟨some countedGraphite, true, []⟩ ∧
      registeredNames (some countedGraphite) = ["counter"] ∧
      registeredNames
        (Graphite.registerMetric (some countedGraphite) "gauge" .metricGauge false []).1 =
        ["counter", "gauge"] := by
  have hrun : System.run ⟨some justStarted, true, []⟩
      [.call (.RegisterCounter "counter" true), .call (.HandleValue "counter" 1),
        .loop .value] = some ⟨some countedGraphite, true, []⟩ := by
    decide!
  obtain ⟨g2, h1, -, -, h4⟩ := registry_after_Start testGraphite justStarted rfl (by decide!)
    true [] _ _ hrun
  simp only [Option.some.injEq] at h1
  subst h1
  exact ⟨hrun, rfl, h4 "gauge" .metricGauge false [] (by decide)⟩

/-- C20 as stated fails: on the Graphite of `TestHandleValue` no name is registered when
`Start` succeeds, and the `RegisterCounter` call that follows adds "counter". -/
theorem Register_after_Start_adds :
    (System.run ⟨some testGraphite, false, []⟩ [.call .Start]).map
        (fun s => registeredNames s.gr) = some [] ∧
      (System.run ⟨some testGraphite, false, []⟩
        [.call .Start, .call (.RegisterCounter "counter" true)]).map
        (fun s => registeredNames s.gr) = some ["counter"] := by
  decide!

/-- C15: for every registry state and timestamp, `fillBuffer` (visiting each name once)
appends no line for a metric whose sample count is 0, the buffer being what it would be
had the metric not been visited at all, and leaves every field of that metric unchanged. -/
theorem fillBuffer_skips_unsampled (g : Graphite) (t : Int) (visit : List String)
    (hv : visit.Nodup) (name : String) (m : graphiteMetric)
    (hl : (g.metrics.getD []).lookup name = some m) (hc : m.counter = 0) :
    fillEntry g.pfx (Itoa t) name m = (m, "") ∧
      (g.fillBuffer t visit).buffer =
        (g.fillBuffer t (visit.filter fun n => n ≠ name)).buffer ∧
      ((g.fillBuffer t visit).metrics.getD []).lookup name = some m := by
  have hnot : ¬ m.counter > 0 := by rw [hc]; exact lt_irrefl 0
  have hlines : encodedLines g.pfx t name m = [] := by
    simp [encodedLines, hnot]
  refine ⟨?_, ?_, ?_⟩
  · rw [fillEntry_eq, hlines, if_neg hnot]
    rfl
  · rw [fillBuffer_buffer g t visit hv, fillBuffer_buffer g t _ (hv.filter _)]
    congr 1
    unfold encodedText
    clear hv
    induction visit with
    | nil => rfl
    | cons n rest ih =>
      by_cases hn : n = name
      · subst hn
        simp only [List.map_cons, joinLines, hl, hlines, ne_eq, not_true_eq_false,
          decide_False, Bool.false_eq_true, not_false_eq_true, List.filter_cons_of_neg]
        rw [← ih]
        simp
      · simp only [List.map_cons, joinLines, ne_eq, hn, not_false_eq_true, decide_True,
          List.filter_cons_of_pos]
        rw [ih]
  · rw [fillBuffer_lookup g t visit hv name, hl]
    split <;> simp [hnot]

/-- C15 on the Graphite of `TestFillBuffer` after its first `fillBuffer`, when every metric
has count 0: a second `fillBuffer` leaves "gauge" as it is. -/
theorem fillBuffer_skips_unsampled_witness :
    (((filledGraphite.fillBuffer 946782245 ["hist", "minimum", "gauge"]).fillBuffer 946782246
        ["gauge", "hist", "minimum"]).metrics.getD []).lookup "gauge" =
      some (zeroMetric .metricGauge false (2 * Second) [] [0]) := by
  exact (fillBuffer_skips_unsampled
    (filledGraphite.fillBuffer 946782245 ["hist", "minimum", "gauge"]) 946782246
    ["gauge", "hist", "minimum"] (by decide) "gauge"
    (zeroMetric .metricGauge false (2 * Second) [] [0]) (by decide!) rfl).2.2

/-- C16: for every registry state (one entry per name, visited once each, in any order)
and timestamp `t`, the text that `fillBuffer` appends is exactly the concatenation, in the
order of the visit, of the lines owed to each metric: for a non-histogram metric with
count > 0 the one line prefix+name+" "+(value of `get` in fixed point with 12 fractional
digits)+" "+t+"\n"; for a histogram metric with count > 0 one line per bucket i, in
increasing i, prefix+name+"."+i+" "+(bucket count)+" "+t+"\n", which are
`len(histRanges)+1` lines for a metric of the registered shape; no line for the others.
Every metric that had count > 0 is reset (count 0, value 0, all buckets 0) and the others
are unchanged. -/
theorem fillBuffer_encodes (g : Graphite) (t : Int) (visit : List String)
    (ms : List (String × graphiteMetric)) (hm : g.metrics = some ms)
    (hk : (ms.map Prod.fst).Nodup) (hv : visit.Perm (ms.map Prod.fst)) :
    (g.fillBuffer t visit).buffer =
        (if g.buffer.utf8ByteSize > maxBufSize then "" else g.buffer) ++
          encodedText g.pfx t ms visit ∧
      registeredNames (some (g.fillBuffer t visit)) = registeredNames (some g) ∧
      ∀ name m, ms.lookup name = some m →
        name ∈ visit ∧
        (m.counter > 0 → m.mType ≠ .metricHist → encodedLines g.pfx t name m =
          [g.pfx ++ name ++ " " ++ FormatFloat m.get.1 12 ++ " " ++ Itoa t ++ "\n"]) ∧
        (m.counter > 0 → m.mType = .metricHist →
          encodedLines g.pfx t name m = ((List.range m.hist.length).map fun (i : Nat) =>
              g.pfx ++ name ++ "." ++ Itoa (i : Int) ++ " " ++ Itoa (m.hist.getD i 0) ++ " " ++
                Itoa t ++ "\n") ∧
            (m.hist.length = m.histRanges.length + 1 →
              (encodedLines g.pfx t name m).length = m.histRanges.length + 1)) ∧
        (¬ m.counter > 0 → encodedLines g.pfx t name m = []) ∧
        (m.counter > 0 →
          ((g.fillBuffer t visit).metrics.getD []).lookup name = some m.reset ∧
            m.reset.counter = 0 ∧ m.reset.value = 0 ∧
            m.reset.hist = List.replicate m.hist.length 0) ∧
        (¬ m.counter > 0 →
          ((g.fillBuffer t visit).metrics.getD []).lookup name = some m) := by
  have hnd : visit.Nodup := hv.nodup_iff.mpr hk
  refine ⟨?_, fillBuffer_names g t visit, ?_⟩
  · rw [fillBuffer_buffer g t visit hnd, hm]
    rfl
  · intro name m hl
    have hmem : name ∈ visit := by
      rw [hv.mem_iff]
      have := List.lookup_isSome_iff.mp (by rw [hl]; rfl : (ms.lookup name).isSome = true)
      obtain ⟨p, hp, hpe⟩ := this
      exact List.mem_map.mpr ⟨p, hp, (by simpa using hpe : name = p.1).symm⟩
    have hlook := fillBuffer_lookup g t visit hnd name
    rw [hm, Option.getD_some, hl, if_pos hmem, Option.map_some'] at hlook
    refine ⟨hmem, ?_, ?_, ?_, ?_, ?_⟩
    · intro hc hkind
      simp [encodedLines, hc, hkind]
    · intro hc hkind
      have he : encodedLines g.pfx t name m = ((List.range m.hist.length).map fun (i : Nat) =>
          g.pfx ++ name ++ "." ++ Itoa (i : Int) ++ " " ++ Itoa (m.hist.getD i 0) ++ " " ++
            Itoa t ++ "\n") := by
        simp [encodedLines, hc, hkind]
      refine ⟨he, ?_⟩
      intro hshape
      rw [he, List.length_map, List.length_range, hshape]
    · intro hc
      simp [encodedLines, hc]
    · intro hc
      rw [hlook, if_pos hc]
      refine ⟨rfl, rfl, rfl, ?_⟩
      show m.hist.map (fun _ => (0 : Int)) = _
      exact List.map_const' m.hist 0
    · intro hc
      rw [hlook, if_neg hc]

/-- C16 at the call of `TestFillBuffer`: the buffer holds `expected_text`, and "hist" is
reset. -/
theorem fillBuffer_encodes_witness :
    (filledGraphite.fillBuffer 946782245 ["hist", "minimum", "gauge"]).buffer =
        expected_text ∧
      ((filledGraphite.fillBuffer 946782245 ["hist", "minimum", "gauge"]).metrics.getD
          []).lookup "hist" =
        some (zeroMetric .metricHist false (2 * Second) [10, 20, 30] [0, 0, 0, 0]) := by
  obtain ⟨h1, -, h3⟩ := fillBuffer_encodes filledGraphite 946782245 ["hist", "minimum", "gauge"]
    _ rfl (by decide) (by decide)
  constructor
  · rw [h1]
    decide!
  · rw [((h3 "hist"
      { zeroMetric .metricHist false (2 * Second) [10, 20, 30] [0, 1, 0, 0] with counter := 1 }
      (by decide!)).2.2.2.2.1 (by decide)).1]
    decide!

/-- C17: for every state, if the pending buffer is longer than the cap `maxBufSize` =
5242880 bytes when `fillBuffer` is called, the buffer after the call consists only of what
this call encodes (what it writes on an empty buffer); if its length is at most the cap,
the buffer after the call is the prior content followed by what this call encodes. For a
visit of distinct names, what the call encodes is the text owed to the registry. -/
theorem fillBuffer_cap (g : Graphite) (t : Int) (visit : List String) :
    maxBufSize = 5242880 ∧
      (g.buffer.utf8ByteSize > maxBufSize →
        (g.fillBuffer t visit).buffer = ({ g with buffer := "" }.fillBuffer t visit).buffer) ∧
      (g.buffer.utf8ByteSize ≤ maxBufSize →
        (g.fillBuffer t visit).buffer =
          g.buffer ++ ({ g with buffer := "" }.fillBuffer t visit).buffer) ∧
      (visit.Nodup → ({ g with buffer := "" }.fillBuffer t visit).buffer =
        encodedText g.pfx t (g.metrics.getD []) visit) := by
  refine ⟨rfl, ?_, ?_, ?_⟩
  · intro h
    rw [(fillBuffer_split g t visit).1, if_pos h, String.empty_append]
  · intro h
    rw [(fillBuffer_split g t visit).1, if_neg (not_lt.mpr h)]
  · intro hv
    rw [fillBuffer_buffer _ t visit hv]
    have hz : ¬ ("" : String).utf8ByteSize > maxBufSize := by decide
    simp only [hz, if_false, String.empty_append]

/-- C17 on the cycles of `TestBufferExceed`, each encoding 104 bytes: the buffer holds 208
bytes after 2 cycles and 104 bytes after 50414 cycles. -/
theorem fillBuffer_cap_witness :
    (histCycles 2 histGraphite).map (fun g => g.buffer.utf8ByteSize) = some 208 ∧
      (histCycles 50414 histGraphite).map (fun g => g.buffer.utf8ByteSize) = some 104 := by
  constructor
  · obtain ⟨b, h1, h2⟩ := histCycles_size 2 (by omega)
    rw [h1, Option.map_some', h2]
  · obtain ⟨b, h1, h2⟩ := histCycles_size 50413 (by omega)
    have hover : ({ sampledGraphite with buffer := b } : Graphite).buffer.utf8ByteSize >
        maxBufSize := by
      show b.utf8ByteSize > maxBufSize
      rw [h2]
      unfold maxBufSize
      omega
    have hcap := (fillBuffer_cap { sampledGraphite with buffer := b } 946782245 ["hist"]).2.1
      hover
    have hlast : (50414 : Nat) = 50413 + 1 := rfl
    have hfresh : ({ sampledGraphite with buffer := "" } : Graphite).fillBuffer 946782245
        ["hist"] = { histGraphite with buffer := histBlock } := by
      decide!
    have e : ({ ({ sampledGraphite with buffer := b } : Graphite) with buffer := "" } : Graphite)
        = { sampledGraphite with buffer := "" } := rfl
    rw [e, hfresh] at hcap
    rw [hlast, histCycles_succ, h1, Option.some_bind]
    unfold histCycle
    rw [histGraphite_applyValue b, Option.map_some', Option.map_some', hcap]
    decide

/-- C18, as amended: for every state in which a tick's transport write fails,
`sendMetrics` closes the transport and keeps the pending buffer: after the call the buffer
is still the payload of the failed write, and the next tick hands it to the transport
again, followed by what that tick encodes, unless it is longer than `maxBufSize`. -/
theorem sendMetrics_failed_write (g : Graphite) (t : Int) (visit : List String)
    (net : Network) (c : tcpConnection) (hc : g.conn = some c)
    (hne : (g.fillBuffer t visit).buffer.utf8ByteSize > 0)
    (hfail : (c.Write (g.fillBuffer t visit).buffer net).2.1 = true) :
    ∃ g' io, g.sendMetrics t visit net = some (g', io) ∧
      g'.buffer = (g.fillBuffer t visit).buffer ∧
      io.filter IOEvent.isWrite = [.write g'.buffer] ∧
      (∃ c', g'.conn = some c' ∧ c'.conn = false) ∧
      ∀ t' visit' net', g'.buffer.utf8ByteSize ≤ maxBufSize →
        ∃ g'' io', g'.sendMetrics t' visit' net' = some (g'', io') ∧
          io'.head? = some (.write
            (g'.buffer ++ ({ g' with buffer := "" }.fillBuffer t' visit').buffer)) := by
  have hs := sendMetrics_of_conn g t visit net c hc
  rw [if_pos hne, if_pos hfail] at hs
  refine ⟨_, _, hs, rfl, ?_, ⟨_, rfl, tcpClose_conn _⟩, ?_⟩
  · rw [List.filter_cons_of_pos (by rfl)]
    congr 1
    rw [List.filter_eq_nil_iff]
    intro e he
    rw [tcpWrite_events c _ net e he]
    exact Bool.false_ne_true
  · intro t' visit' net' hcap
    have hs' := sendMetrics_of_conn
      { g.fillBuffer t visit with
        conn := some (c.Write (g.fillBuffer t visit).buffer net).1.Close.1 }
      t' visit' net' _ rfl
    have hsplit := (fillBuffer_split
      { g.fillBuffer t visit with
        conn := some (c.Write (g.fillBuffer t visit).buffer net).1.Close.1 } t' visit').1
    rw [if_neg (not_lt.mpr hcap)] at hsplit
    have hpos : ({ g.fillBuffer t visit with
        conn := some (c.Write (g.fillBuffer t visit).buffer net).1.Close.1 }.fillBuffer
          t' visit').buffer.utf8ByteSize > 0 := by
      rw [hsplit, utf8ByteSize_append]
      exact Nat.lt_of_lt_of_le hne (Nat.le_add_right _ _)
    rw [if_pos hpos] at hs'
    rw [hs']
    split
    · exact ⟨_, _, rfl, by rw [List.head?_cons, hsplit]⟩
    · exact ⟨_, _, rfl, by rw [List.head?_cons, hsplit]⟩

/-- C18 on the Graphite of `TestFillBuffer` when dialing fails: the tick keeps the 182
bytes of `expected_text` in the buffer. -/
theorem sendMetrics_failed_write_witness :
    ∃ g' io, filledGraphite.sendMetrics 946782245 ["hist", "minimum", "gauge"] ⟨false, true⟩ =
        some (g', io) ∧ g'.buffer = expected_text ∧
      io.filter IOEvent.isWrite = [.write expected_text] := by
  obtain ⟨g', io, h1, h2, h3, -, -⟩ := sendMetrics_failed_write filledGraphite 946782245
    ["hist", "minimum", "gauge"] ⟨false, true⟩ (newConnection ":0") rfl (by decide!)
    (by decide!)
  have hb : (filledGraphite.fillBuffer 946782245 ["hist", "minimum", "gauge"]).buffer =
      expected_text := by decide!
  rw [hb] at h2
  rw [h2] at h3
  exact ⟨g', io, h1, h2, h3⟩

/-- C18 as stated fails: on the Graphite of `TestFillBuffer`, a tick whose dial fails leaves
the batch `expected_text` in the buffer, and the next tick, whose write succeeds, sends
these same bytes although no metric has a new sample. -/
theorem failed_batch_is_replayed :
    (filledGraphite.sendMetrics 946782245 ["hist", "minimum", "gauge"] ⟨false, true⟩).map
        (fun r => r.1.buffer) = some expected_text ∧
      ((filledGraphite.sendMetrics 946782245 ["hist", "minimum", "gauge"] ⟨false, true⟩).bind
        fun r => (r.1.sendMetrics 946782247 ["hist", "minimum", "gauge"] ⟨true, true⟩).map
          fun r' => r'.2) =
        some [.write expected_text, .connect, .send expected_text] := by
  decide!

/-- C19: for every state with a connection, one tick (`sendMetrics`) issues at most one
transport write; when the buffer is non-empty after encoding it issues exactly one write,
whose payload is the whole pending buffer, and if that write succeeds the pending buffer is
empty afterwards; when the buffer is empty after encoding nothing is done on the transport:
no write, no connect. -/
theorem sendMetrics_one_write (g : Graphite) (t : Int) (visit : List String) (net : Network)
    (c : tcpConnection) (hc : g.conn = some c) :
    ∃ g' io, g.sendMetrics t visit net = some (g', io) ∧
      io.countP IOEvent.isWrite ≤ 1 ∧
      ((g.fillBuffer t visit).buffer.utf8ByteSize > 0 →
        io.head? = some (.write (g.fillBuffer t visit).buffer) ∧
        io.filter IOEvent.isWrite = [.write (g.fillBuffer t visit).buffer] ∧
        ((c.Write (g.fillBuffer t visit).buffer net).2.1 = false → g'.buffer = "")) ∧
      ((g.fillBuffer t visit).buffer.utf8ByteSize = 0 →
        io = [] ∧ g' = g.fillBuffer t visit) := by
  have hs := sendMetrics_of_conn g t visit net c hc
  have hev := tcpWrite_events c (g.fillBuffer t visit).buffer net
  have hnone : ∀ l : List IOEvent, (∀ e ∈ l, e.isWrite = false) →
      l.filter IOEvent.isWrite = [] := by
    intro l hl
    rw [List.filter_eq_nil_iff]
    intro e he
    rw [hl e he]
    exact Bool.false_ne_true
  by_cases hne : (g.fillBuffer t visit).buffer.utf8ByteSize > 0
  · rw [if_pos hne] at hs
    by_cases hfail : (c.Write (g.fillBuffer t visit).buffer net).2.1 = true
    · rw [if_pos hfail] at hs
      have hf := hnone _ hev
      refine ⟨_, _, hs, ?_, fun _ => ⟨rfl, ?_, fun hok => ?_⟩, fun h0 => ?_⟩
      · rw [List.countP_eq_length_filter, List.filter_cons_of_pos (by rfl), hf]
        exact le_refl _
      · rw [List.filter_cons_of_pos (by rfl), hf]
      · rw [hfail] at hok
        cases hok
      · rw [h0] at hne
        exact absurd hne (lt_irrefl 0)
    · rw [if_neg hfail] at hs
      have hf := hnone _ (fun e he => hev e (List.mem_append_left _ he))
      refine ⟨_, _, hs, ?_, fun _ => ⟨rfl, ?_, fun _ => rfl⟩, fun h0 => ?_⟩
      · rw [List.countP_eq_length_filter, List.filter_cons_of_pos (by rfl), hf]
        exact le_refl _
      · rw [List.filter_cons_of_pos (by rfl), hf]
      · rw [h0] at hne
        exact absurd hne (lt_irrefl 0)
  · rw [if_neg hne] at hs
    refine ⟨_, _, hs, by simp, fun h => absurd h hne, fun _ => ⟨rfl, rfl⟩⟩

/-- C19 on the Graphite of `TestFillBuffer`, with a network that accepts the write: the
tick does one write of `expected_text`, dials, sends, and empties the buffer. -/
theorem sendMetrics_one_write_witness :
    ∃ g', filledGraphite.sendMetrics 946782245 ["hist", "minimum", "gauge"] ⟨true, true⟩ =
        some (g', [.write expected_text, .connect, .send expected_text]) ∧
      g'.buffer = "" := by
  obtain ⟨g', io, h1, -, h3, -⟩ := sendMetrics_one_write filledGraphite 946782245
    ["hist", "minimum", "gauge"] ⟨true, true⟩ (newConnection ":0") rfl
  have h4 := (h3 (by decide!)).2.2 (by decide!)
  have h5 : (filledGraphite.sendMetrics 946782245 ["hist", "minimum", "gauge"]
      ⟨true, true⟩).map (fun r => r.2) =
      some [.write expected_text, .connect, .send expected_text] := by decide!
  rw [h1] at h5
  simp only [Option.map_some', Option.some.injEq] at h5
  subst h5
  exact ⟨g', h1, h4⟩

/-- C21, as amended: for every metric kind other than Gauge and every two sequences of
values that are permutations of each other (of at most 2^32 values for Maximum and Minimum,
of fewer than 2^32 values for Average, whose update number 2^32 divides by the wrapped
count zero; of any length for Counter and Histogram), applying either sequence with
`handleValue` to the same zeroed metric (with `len(histRanges) + 1` buckets for a
Histogram) returns and leaves the same metric, hence the same snapshot of `get` and of
`getHist`, arithmetic read exactly. -/
theorem handleValues_perm (kind : metricType) (norm : Bool) (fi : Int) (ranges : List ℚ)
    (n : Nat) (xs ys : List ℚ) (hp : xs.Perm ys) (hg : kind ≠ .metricGauge)
    (hs : kind = .metricHist → n = ranges.length + 1)
    (ha : kind = .metricAverage → xs.length < 4294967296)
    (hm : kind = .metricMaximum ∨ kind = .metricMinimum → xs.length ≤ 4294967296) :
    ∃ m', handleValues (zeroMetric kind norm fi ranges (List.replicate n 0)) xs = some m' ∧
      handleValues (zeroMetric kind norm fi ranges (List.replicate n 0)) ys = some m' := by
  have hshape : histShaped (zeroMetric kind norm fi ranges (List.replicate n 0)) := by
    intro hk
    show (List.replicate n (0 : Int)).length = ranges.length + 1
    rw [List.length_replicate]
    exact hs hk
  have hin : inInt32 (zeroMetric kind norm fi ranges (List.replicate n 0)).counter := by
    show inInt32 0
    unfold inInt32
    omega
  obtain ⟨mx, hx, -⟩ := handleValues_returns xs _ hshape hin
  obtain ⟨my, hy, -⟩ := handleValues_returns ys _ hshape hin
  refine ⟨mx, hx, ?_⟩
  rw [hy]
  obtain ⟨x1, x2, x3, x4, x5, x6⟩ := handleValues_frame hin hx
  obtain ⟨y1, y2, y3, y4, y5, y6⟩ := handleValues_frame hin hy
  have kx := handleValues_keeps hx
  have ky := handleValues_keeps hy
  have hlen : xs.length = ys.length := hp.length_eq
  have hcounter : my.counter = mx.counter := by rw [x6, y6, hlen]
  have hvalue : my.value = mx.value := by
    cases kind with
    | metricCounter =>
      obtain ⟨m1, a1, a2⟩ := handleValues_counter xs
        (zeroMetric .metricCounter norm fi ranges (List.replicate n 0)) rfl
      obtain ⟨m2, b1, b2⟩ := handleValues_counter ys
        (zeroMetric .metricCounter norm fi ranges (List.replicate n 0)) rfl
      rw [hx] at a1
      rw [hy] at b1
      cases a1
      cases b1
      rw [a2, b2, hp.sum_eq]
    | metricAverage =>
      have hl : xs.length < 4294967296 := ha rfl
      obtain ⟨m1, a1, a2⟩ := handleValues_average_wide xs []
        (zeroMetric .metricAverage norm fi ranges (List.replicate n 0)) rfl
        (by norm_num [zeroMetric, wrapInt32]) (by simp [zeroMetric]) (by simpa using hl)
      obtain ⟨m2, b1, b2⟩ := handleValues_average_wide ys []
        (zeroMetric .metricAverage norm fi ranges (List.replicate n 0)) rfl
        (by norm_num [zeroMetric, wrapInt32]) (by simp [zeroMetric])
        (by rw [← hlen]; simpa using hl)
      rw [hx] at a1
      rw [hy] at b1
      cases a1
      cases b1
      rw [a2, b2, List.nil_append, List.nil_append, hp.sum_eq, hlen]
    | metricMaximum =>
      have hl : xs.length ≤ 4294967296 := hm (Or.inl rfl)
      obtain ⟨m1, a1, a2, a3⟩ := handleValues_maximum_wide xs []
        (zeroMetric .metricMaximum norm fi ranges (List.replicate n 0)) rfl
        (by norm_num [zeroMetric, wrapInt32]) (fun h => absurd rfl h) (by simpa using hl)
      obtain ⟨m2, b1, b2, b3⟩ := handleValues_maximum_wide ys []
        (zeroMetric .metricMaximum norm fi ranges (List.replicate n 0)) rfl
        (by norm_num [zeroMetric, wrapInt32]) (fun h => absurd rfl h)
        (by rw [← hlen]; simpa using hl)
      rw [hx] at a1
      rw [hy] at b1
      cases a1
      cases b1
      by_cases he : xs = []
      · have he2 : ys = [] := by
          rw [he] at hp
          exact List.Perm.eq_nil hp.symm
        rw [a2 he, b2 he2]
      · have he2 : ys ≠ [] := by
          intro h0
          rw [h0] at hp
          exact he (List.Perm.eq_nil hp)
        obtain ⟨c1, c2⟩ := a3 (by simpa using he)
        obtain ⟨d1, d2⟩ := b3 (by simpa using he2)
        rw [List.nil_append] at c1 c2 d1 d2
        exact le_antisymm (c2 _ (hp.mem_iff.mpr d1)) (d2 _ (hp.mem_iff.mp c1))
    | metricMinimum =>
      have hl : xs.length ≤ 4294967296 := hm (Or.inr rfl)
      obtain ⟨m1, a1, a2, a3⟩ := handleValues_minimum_wide xs []
        (zeroMetric .metricMinimum norm fi ranges (List.replicate n 0)) rfl
        (by norm_num [zeroMetric, wrapInt32]) (fun h => absurd rfl h) (by simpa using hl)
      obtain ⟨m2, b1, b2, b3⟩ := handleValues_minimum_wide ys []
        (zeroMetric .metricMinimum norm fi ranges (List.replicate n 0)) rfl
        (by norm_num [zeroMetric, wrapInt32]) (fun h => absurd rfl h)
        (by rw [← hlen]; simpa using hl)
      rw [hx] at a1
      rw [hy] at b1
      cases a1
      cases b1
      by_cases he : xs = []
      · have he2 : ys = [] := by
          rw [he] at hp
          exact List.Perm.eq_nil hp.symm
        rw [a2 he, b2 he2]
      · have he2 : ys ≠ [] := by
          intro h0
          rw [h0] at hp
          exact he (List.Perm.eq_nil hp)
        obtain ⟨c1, c2⟩ := a3 (by simpa using he)
        obtain ⟨d1, d2⟩ := b3 (by simpa using he2)
        rw [List.nil_append] at c1 c2 d1 d2
        exact le_antisymm (d2 _ (hp.mem_iff.mp c1)) (c2 _ (hp.mem_iff.mpr d1))
    | metricGauge => exact absurd rfl hg
    | metricHist => rw [kx.1 rfl, ky.1 rfl]
  have hhist : my.hist = mx.hist := by
    by_cases hk : kind = .metricHist
    · subst hk
      have hz : ∀ i, inInt32 ((zeroMetric .metricHist norm fi ranges
          (List.replicate n 0)).hist.getD i 0) := by
        intro i
        show inInt32 ((List.replicate n (0 : Int)).getD i 0)
        rw [List.getD_eq_getElem?_getD]
        by_cases hi : i < n
        · rw [List.getElem?_eq_getElem (by rw [List.length_replicate]; exact hi)]
          simp [inInt32]
        · rw [List.getElem?_eq_none (by rw [List.length_replicate]; omega)]
          simp [inInt32]
      obtain ⟨m1, a1, a2, a3⟩ := handleValues_hist xs _ rfl (hshape rfl) hz
      obtain ⟨m2, b1, b2, b3⟩ := handleValues_hist ys _ rfl (hshape rfl) hz
      rw [hx] at a1
      rw [hy] at b1
      cases a1
      cases b1
      apply getD_ext _ _ (by rw [a2, b2])
      intro i hi
      rw [b2] at hi
      rw [a3 i hi, b3 i hi, hp.countP_eq]
    · rw [kx.2 hk, ky.2 hk]
  cases mx
  cases my
  simp only at x1 x2 x3 x4 y1 y2 y3 y4 hcounter hvalue hhist
  simp only [Option.some.injEq, graphiteMetric.mk.injEq]
  exact ⟨by rw [y1, x1], hvalue, hcounter, by rw [y2, x2], by rw [y3, x3], by rw [y4, x4], hhist⟩

/-- C21 on an Average metric: the values 1, 2, 6 and the same values in the order 6, 1, 2
leave the same metric. -/
theorem handleValues_perm_witness :
    ∃ m', handleValues (zeroMetric .metricAverage false Second [] [0]) [1, 2, 6] = some m' ∧
      handleValues (zeroMetric .metricAverage false Second [] [0]) [6, 1, 2] = some m' :=
  handleValues_perm .metricAverage false Second [] 1 [1, 2, 6] [6, 1, 2]
    (@List.perm_append_comm _ [1, 2] [6]) (by decide) (fun h => by cases h)
    (fun _ => by decide) (fun _ => by decide)

/-- C21 as stated fails in three ways. A zeroed Gauge metric reports 2 after the values
1, 2 and 1 after the same values in the order 2, 1. On a zeroed Maximum metric 4294967296
values 5 take the int32 counter back to 0, so that a value 1 submitted after them is taken
for the first of a period and replaces the maximum, while the same 4294967297 values with
the 1 submitted first leave 5. In the same way a zeroed Minimum metric reports -1 after
4294967296 values -5 followed by -1, and -5 when the -1 is submitted first. For an Average
metric the reading in exact arithmetic stops one value earlier: after 4294967295 values
the counter is -1, and the next update divides by the count 0. -/
theorem snapshot_depends_on_order :
    (List.Perm [(1 : ℚ), 2] [2, 1] ∧
      (handleValues (zeroMetric .metricGauge false Second [] [0]) [1, 2]).map
        graphiteMetric.get = some (2, 2) ∧
      (handleValues (zeroMetric .metricGauge false Second [] [0]) [2, 1]).map
        graphiteMetric.get = some (1, 2)) ∧
    (List.Perm (List.replicate 4294967296 (5 : ℚ) ++ [1]) (1 :: List.replicate 4294967296 5) ∧
      (handleValues (zeroMetric .metricMaximum false Second [] [0])
        (List.replicate 4294967296 5 ++ [1])).map graphiteMetric.get = some (1, 1) ∧
      (handleValues (zeroMetric .metricMaximum false Second [] [0])
        (1 :: List.replicate 4294967296 5)).map graphiteMetric.get = some (5, 1)) ∧
    (List.Perm (List.replicate 4294967296 (-5 : ℚ) ++ [-1])
        (-1 :: List.replicate 4294967296 (-5)) ∧
      (handleValues (zeroMetric .metricMinimum false Second [] [0])
        (List.replicate 4294967296 (-5) ++ [-1])).map graphiteMetric.get = some (-1, 1) ∧
      (handleValues (zeroMetric .metricMinimum false Second [] [0])
        (-1 :: List.replicate 4294967296 (-5))).map graphiteMetric.get = some (-5, 1)) ∧
    (∃ mt', handleValues (zeroMetric .metricAverage false Second [] [0])
        (List.replicate 4294967295 5) = some mt' ∧
      mt'.counter = -1 ∧ wrapInt32 (mt'.counter + 1) = 0) := by
  refine ⟨⟨@List.perm_append_comm _ [1] [2], by decide!, by decide!⟩,
    ⟨perm_snoc_cons 4294967296 5 1, ?_⟩, ⟨perm_snoc_cons 4294967296 (-5) (-1), ?_⟩, ?_⟩
  · exact maximum_wrapped_last 4294967296 (by decide) (by norm_num [wrapInt32])
  · exact minimum_wrapped_last 4294967296 (by decide) (by norm_num [wrapInt32])
  · obtain ⟨mt', h1, h2⟩ := handleValues_count
      (zeroMetric .metricAverage false Second [] [0]) (List.replicate 4294967295 5)
      (fun h => by cases h) rfl
    have h3 : mt'.counter = -1 := by
      rw [h2, List.length_replicate]
      norm_num [wrapInt32]
    refine ⟨mt', h1, h3, ?_⟩
    rw [h3]
    norm_num [wrapInt32]

/-- C22: `len(hist) == len(histRanges) + 1` is an invariant of every registered metric.
`registerMetric`, when it registers (for every kind and every boundary list, the empty one
included), puts under the name a metric with that shape, and keeps the shape of the
others; `handleValue`, when it returns, and `reset` keep the length of `hist` and leave
`histRanges` as it is; `get` and `getHist` only read the metric, the slice that `getHist`
returns being `hist` itself; `fillBuffer`, whatever the order of its visit, keeps the shape
of every registered metric; hence after any sequence of steps of the program (calls and
iterations of the loop) from a Graphite that `NewGraphite` returned, every registered
metric has the shape. -/
theorem hist_length_invariant :
    (∀ (g g' : Graphite) (name : String) (kind : metricType) (norm : Bool) (ranges : List ℚ),
      g.disabled = false →
      Graphite.registerMetric (some g) name kind norm ranges = (some g', none) →
        ∃ m, (g'.metrics.getD []).lookup name = some m ∧ m.mType = kind ∧
          m.histRanges = ranges ∧ m.hist.length = m.histRanges.length + 1) ∧
    (∀ (g g' : Graphite) (name : String) (kind : metricType) (norm : Bool) (ranges : List ℚ),
      registryShaped g → (Graphite.registerMetric (some g) name kind norm ranges).1 = some g' →
        registryShaped g') ∧
    (∀ (mt mt' : graphiteMetric) (v : ℚ), mt.handleValue v = some mt' →
      mt'.hist.length = mt.hist.length ∧ mt'.histRanges = mt.histRanges) ∧
    (∀ mt : graphiteMetric, mt.getHist.1 = mt.hist ∧ mt.get.2 = mt.counter) ∧
    (∀ mt : graphiteMetric,
      mt.reset.hist.length = mt.hist.length ∧ mt.reset.histRanges = mt.histRanges) ∧
    (∀ (g : Graphite) (t : Int) (visit : List String),
      registryShaped g → registryShaped (g.fillBuffer t visit)) ∧
    (∀ (host : String) (port : Fin 65536) (pfx : String) (flushInterval : Int)
        (disabled : Bool) (g : Graphite) (acts : List Action) (s' : System) (g' : Graphite),
      (NewGraphite host port pfx flushInterval disabled).1 = some g →
      System.run ⟨some g, false, []⟩ acts = some s' → s'.gr = some g' →
        registryShaped g') := by
  refine ⟨?_, ?_, ?_, ?_, ?_, ?_, ?_⟩
  · intro g g' name kind norm ranges hd h
    cases hm : g.metrics with
    | none =>
      simp [Graphite.registerMetric, hm] at h
    | some ms =>
      by_cases hl : (ms.lookup name).isSome = true
      · simp [Graphite.registerMetric, hm, hd, hl] at h
      · simp only [Graphite.registerMetric, hm, hd, hl, if_false, Bool.false_eq_true,
          Prod.mk.injEq, Option.some.injEq, and_true] at h
        subst h
        refine ⟨
          { mType := kind, value := 0, counter := 0, normalizeByInterval := norm,
            flushInterval := g.flushInterval, histRanges := ranges,
            hist := List.replicate (ranges.length + 1) 0 }, ?_, rfl, rfl,
          List.length_replicate _ _⟩
        simp only [Option.getD_some]
        rw [lookup_append_entry, if_pos rfl]
        have hnone : ms.lookup name = none := by
          cases hq : ms.lookup name with
          | none => rfl
          | some q => rw [hq] at hl; exact absurd rfl hl
        rw [hnone]
        rfl
  · intro g g' name kind norm ranges hs h
    exact registerMetric_shaped g g' name kind norm ranges hs h
  · intro mt mt' v h
    have hf := handleValue_frame h
    exact ⟨hf.2.2.2.2.1, hf.2.2.2.1⟩
  · intro mt
    exact ⟨rfl, get_snd mt⟩
  · intro mt
    exact ⟨List.length_map _ _, rfl⟩
  · intro g t visit hs
    exact fillBuffer_shaped g t visit hs
  · intro host port pfx flushInterval disabled g acts s' g' hnew hrun hg'
    exact System_run_shaped acts ⟨some g, false, []⟩ s' hrun
      (fun g0 h0 => by
        have e : g = g0 := Option.some.inj h0
        subst e
        exact NewGraphite_shaped host port pfx flushInterval disabled g hnew) g' hg'

/-- C22 on a run of the program: from the Graphite of the tests, registering a Histogram
without boundaries and one with boundaries [10, 20, 30], starting, submitting a sample to
each, letting the loop take both and then tick, leaves every metric with the shape. -/
theorem hist_length_invariant_witness :
    ∃ s' g', System.run ⟨some testGraphite, false, []⟩
        [.call (.RegisterHist "empty" []), .call (.RegisterHist "hist" [10, 20, 30]),
          .call .Start, .call (.HandleValue "empty" 1), .call (.HandleValue "hist" 12),
          .loop .value, .loop .value,
          .loop (.tick 946782245 ["hist", "empty"] ⟨true, true⟩)] = some s' ∧
      s'.gr = some g' ∧ registryShaped g' := by
  have hrun : ∃ s' g', System.run ⟨some testGraphite, false, []⟩
      [.call (.RegisterHist "empty" []), .call (.RegisterHist "hist" [10, 20, 30]),
        .call .Start, .call (.HandleValue "empty" 1), .call (.HandleValue "hist" 12),
        .loop .value, .loop .value,
        .loop (.tick 946782245 ["hist", "empty"] ⟨true, true⟩)] = some s' ∧
      s'.gr = some g' := by
    have h : ((System.run ⟨some testGraphite, false, []⟩
      [.call (.RegisterHist "empty" []), .call (.RegisterHist "hist" [10, 20, 30]),
        .call .Start, .call (.HandleValue "empty" 1), .call (.HandleValue "hist" 12),
        .loop .value, .loop .value,
        .loop (.tick 946782245 ["hist", "empty"] ⟨true, true⟩)]).bind
          fun s => s.gr).isSome = true := by decide!
    obtain ⟨g', hg'⟩ := Option.isSome_iff_exists.mp h
    cases hs : System.run ⟨some testGraphite, false, []⟩
      [.call (.RegisterHist "empty" []), .call (.RegisterHist "hist" [10, 20, 30]),
        .call .Start, .call (.HandleValue "empty" 1), .call (.HandleValue "hist" 12),
        .loop .value, .loop .value,
        .loop (.tick 946782245 ["hist", "empty"] ⟨true, true⟩)] with
    | none => rw [hs] at hg'; cases hg'
    | some s' =>
      rw [hs] at hg'
      exact ⟨s', g', rfl, hg'⟩
  obtain ⟨s', g', h1, h2⟩ := hrun
  exact ⟨s', g', h1, h2, hist_length_invariant.2.2.2.2.2.2 "localhost" 0 "prefix" (2 * Second)
    false testGraphite _ s' g' (by rw [NewGraphite_testGraphite]) h1 h2⟩

/-- C23: for a Histogram metric with `len(hist) == len(histRanges) + 1`, whatever its
boundaries (sorted or not, with or without duplicates, or none), starting with `counter`
and every bucket at 0, every sequence of calls of `handleValue` and `reset` returns, and
when fewer than 2^31 values were handled since the last `reset` the sum of the bucket counts
that `getHist` gives equals the count it gives, which is the number of those values; the
shape is kept. -/
theorem hist_sum_eq_counter (mt : graphiteMetric) (ops : List MetricOp)
    (hk : mt.mType = .metricHist) (hlen : mt.hist.length = mt.histRanges.length + 1)
    (hz : mt.counter = 0 ∧ ∀ x ∈ mt.hist, x = 0)
    (hn : samplesSince 0 ops < 2147483648) :
    ∃ mt', runOps mt ops = some mt' ∧ mt'.getHist.1.sum = mt'.getHist.2 ∧
      mt'.getHist.2 = (samplesSince 0 ops : Int) ∧
      mt'.hist.length = mt'.histRanges.length + 1 := by
  obtain ⟨mt', h1, h2, h3, h4, h5⟩ := runOps_hist_sum ops mt 0 hk hlen
    (fun _ => ⟨fun x hx => by rw [hz.2 x hx], by
      rw [List.eq_replicate_of_mem hz.2, List.sum_replicate]
      simp, hz.1⟩) hn
  exact ⟨mt', h1, h2, h3, by rw [h4, h5]; exact hlen⟩

/-- C23 with the unsorted boundaries [10, 5, 10]: after the values 7 and 12, a reset and
the value 3, the buckets sum to the count, 1. -/
theorem hist_sum_eq_counter_witness :
    ∃ mt', runOps (zeroMetric .metricHist false Second [10, 5, 10] [0, 0, 0, 0])
        [.handleValue 7, .handleValue 12, .reset, .handleValue 3] = some mt' ∧
      mt'.getHist.1.sum = 1 ∧ mt'.getHist.2 = 1 := by
  obtain ⟨mt', h1, h2, h3, -⟩ := hist_sum_eq_counter
    (zeroMetric .metricHist false Second [10, 5, 10] [0, 0, 0, 0])
    [.handleValue 7, .handleValue 12, .reset, .handleValue 3] rfl rfl
    ⟨rfl, by decide⟩ (by decide)
  exact ⟨mt', h1, by rw [h2, h3]; rfl, by rw [h3]; rfl⟩

/-- C24, as amended: for a Histogram metric with `len(hist) == len(histRanges) + 1` and any
boundary list (sorted or not, possibly empty), `handleValue` returns (it never indexes
`hist` out of range), keeps the number of buckets and leaves every bucket but one, `b`,
unchanged; `b` is the least index with `value < histRanges[b]`, or the last bucket when
there is no such index (the single bucket when the list is empty); and the bucket `b` is
increased by exactly one when it holds an int32 below 2147483647. -/
theorem handleValue_increments_one_bucket (mt : graphiteMetric) (v : ℚ)
    (hk : mt.mType = .metricHist) (hlen : mt.hist.length = mt.histRanges.length + 1) :
    ∃ mt' b, mt.handleValue v = some mt' ∧ b < mt.hist.length ∧
      mt'.hist.length = mt.hist.length ∧
      (-2147483648 ≤ mt.hist.getD b 0 → mt.hist.getD b 0 < 2147483647 →
        mt'.hist.getD b 0 = mt.hist.getD b 0 + 1) ∧
      (∀ i, i ≠ b → mt'.hist.getD i 0 = mt.hist.getD i 0) ∧
      (∀ h : b < mt.histRanges.length, v < mt.histRanges[b]) ∧
      (∀ i (h : i < mt.histRanges.length), i < b → ¬ v < mt.histRanges[i]) ∧
      ((∀ i (h : i < mt.histRanges.length), ¬ v < mt.histRanges[i]) →
        b = mt.hist.length - 1) ∧
      (mt.histRanges = [] → b = 0 ∧ mt.hist.length = 1) := by
  have hb := bucketIndex_le mt.histRanges v
  have hl := bucketIndex_least mt.histRanges v
  have hblt : bucketIndex mt.histRanges v < mt.hist.length := by omega
  refine ⟨_, bucketIndex mt.histRanges v, handleValue_hist mt v hk hlen, hblt, ?_, ?_, ?_,
    hl.1, hl.2.1, ?_, ?_⟩
  · exact List.length_set _ _ _
  · intro hlo hhi
    show (mt.hist.set _ _).getD _ 0 = _
    rw [getD_set_self _ _ _ hblt]
    apply wrapInt32_of_inInt32
    unfold inInt32
    omega
  · intro i hi
    exact getD_set_ne _ _ _ _ hi
  · intro hall
    rw [hl.2.2 hall, hlen]
    rfl
  · intro he
    have h0 : mt.histRanges.length = 0 := by rw [he]; rfl
    omega

/-- C24 with the unsorted boundaries [20, 5, 20] and the value 7: the first boundary above
7 is the one at index 0, and only that bucket moves, from 0 to 1. -/
theorem handleValue_increments_one_bucket_witness :
    ∃ mt', (zeroMetric .metricHist false 0 [20, 5, 20] [0, 4, 0, 0]).handleValue 7 = some mt' ∧
      mt'.hist = [1, 4, 0, 0] := by
  obtain ⟨mt', b, h1, h2, h3, h4, h5, h6, h7, h8, h9⟩ := handleValue_increments_one_bucket
    (zeroMetric .metricHist false 0 [20, 5, 20] [0, 4, 0, 0]) 7 rfl rfl
  refine ⟨mt', h1, ?_⟩
  have e : (zeroMetric .metricHist false 0 [20, 5, 20] [0, 4, 0, 0]).handleValue 7 =
      some { zeroMetric .metricHist false 0 [20, 5, 20] [0, 4, 0, 0] with
        hist := [1, 4, 0, 0], counter := 1 } := by decide!
  rw [e] at h1
  cases h1
  rfl

/-- C24 as stated fails on a bucket that holds 2147483647: with the single boundary 0 the
value -1 falls in bucket 0, and the increment wraps that bucket to -2147483648. -/
theorem hist_bucket_increment_wraps :
    ((zeroMetric .metricHist false 0 [0] [2147483647, 0]).handleValue (-1)).map
        graphiteMetric.hist = some [-2147483648, 0] := by
  decide!

/-- C25 on the Graphite of the tests: after `Start` and a first `Stop` have returned nil,
a second `Stop` passes the test of `started`, which `Stop` never clears, and closes the
stop channel a second time, which panics. The sibling `Start` guards its second call with
`started` and returns an error. -/
theorem second_Stop_panics :
    runCalls (NewGraphite "localhost" 0 "prefix" (2 * Second) false).1
        [.Start, .Stop, .Stop] =
      [.returned (some justStarted) none true,
        .returned (some { justStarted with stopChan := some true }) none false,
        .panicked] ∧
    runCalls (NewGraphite "localhost" 0 "prefix" (2 * Second) false).1 [.Start, .Start] =
      [.returned (some justStarted) none true,
        .returned (some justStarted) (some ⟨"Graphite already started", []⟩) false] := by
  decide!

end graphite
